import Mathlib

/-!
# Mage module (`engine/class_modules/sc_mage.cpp`): icicle queue, ignite spread,
frozen classifier and burn-phase switch

A shallow embedding of the event-driven pieces of the Mage class module and
theorems about them.  Pointers are modelled by natural-number handles,
`timespan_t` by integer milliseconds and `double` by rationals.
-/

namespace Mage

/-! ## `timespan_t` and `state_switch_t` (lines 57-106) -/

/-- Simulation time: `timespan_t` counts whole milliseconds in a signed 64-bit integer. -/
abbrev timespan_t := Int

/-- Modelled from the spec: `timespan_t::min()` is declared in the engine headers; it is the
"never" sentinel, the least representable 64-bit millisecond count. -/
def timespan_t.min : timespan_t := -9223372036854775808

/-- The private members of `state_switch_t`. -/
structure state_switch_t where
  state : Bool
  last_enable : timespan_t
  last_disable : timespan_t
  deriving DecidableEq, Repr

namespace state_switch_t

/-- `void reset()`. -/
def reset (_s : state_switch_t) : state_switch_t :=
  { state := false, last_enable := timespan_t.min, last_disable := timespan_t.min }

/-- The constructor `state_switch_t()` calls `reset()`. -/
def new : state_switch_t :=
  { state := false, last_enable := timespan_t.min, last_disable := timespan_t.min }

/-- `bool enable( timespan_t now )`: the returned flag and the switch afterwards. -/
def enable (s : state_switch_t) (now : timespan_t) : Bool × state_switch_t :=
  if s.last_enable = now then
    (false, s)
  else
    (true, { s with state := true, last_enable := now })

/-- `bool disable( timespan_t now )`: the returned flag and the switch afterwards. -/
def disable (s : state_switch_t) (now : timespan_t) : Bool × state_switch_t :=
  if s.last_disable = now then
    (false, s)
  else
    (true, { s with state := false, last_disable := now })

/-- `bool on() const` (`on` is reserved in Lean, hence the name). -/
def is_on (s : state_switch_t) : Bool := s.state

/-- `timespan_t duration( timespan_t now ) const`. -/
def duration (s : state_switch_t) (now : timespan_t) : timespan_t :=
  if s.state then now - s.last_enable else 0

end state_switch_t

/-- One call made on a `state_switch_t` by its owner. -/
inductive switch_call where
  | enable (now : timespan_t)
  | disable (now : timespan_t)
  | reset
  deriving DecidableEq, Repr

/-- Perform one call, returning what the call returned (`reset` returns nothing, recorded
as `true`) and the switch afterwards. -/
def switch_call.perform (s : state_switch_t) : switch_call → Bool × state_switch_t
  | .enable now => s.enable now
  | .disable now => s.disable now
  | .reset => (true, s.reset)

/-- Run a sequence of calls from switch `s`; the second component is the history of the
calls made so far together with their return values, oldest first. -/
def switch_run (s : state_switch_t) (hist : List (switch_call × Bool)) :
    List switch_call → state_switch_t × List (switch_call × Bool)
  | [] => (s, hist)
  | c :: cs => switch_run (c.perform s).2 (hist ++ [(c, (c.perform s).1)]) cs

/-- Scanning a history oldest first: a successful `enable` replaces the timestamp found so
far, every other entry keeps it. -/
def successful_enable (found : Option timespan_t) : switch_call × Bool → Option timespan_t
  | (.enable now, true) => some now
  | _ => found

/-- The timestamp of the most recent `enable` in a history that returned `true`. -/
def last_successful_enable (hist : List (switch_call × Bool)) : Option timespan_t :=
  hist.foldl successful_enable none

/-! ## Frozen classifier (lines 33-48, 1393-1409) and Shatter (lines 1512-1530) -/

/-- `enum frozen_type_e`. -/
inductive frozen_type_e where
  | FROZEN_WINTERS_CHILL
  | FROZEN_FINGERS_OF_FROST
  | FROZEN_ROOT
  | FROZEN_NONE
  | FROZEN_MAX
  deriving DecidableEq, Repr

/-- The enumerator values of `frozen_type_e`: 0, 1, 2, 3, 4 in declaration order. -/
def frozen_type_e.val : frozen_type_e → Nat
  | .FROZEN_WINTERS_CHILL => 0
  | .FROZEN_FINGERS_OF_FROST => 1
  | .FROZEN_ROOT => 2
  | .FROZEN_NONE => 3
  | .FROZEN_MAX => 4

/-- `FF_WINTERS_CHILL = 1 << FROZEN_WINTERS_CHILL`. -/
def FF_WINTERS_CHILL : Nat := 1 <<< frozen_type_e.FROZEN_WINTERS_CHILL.val

/-- `FF_FINGERS_OF_FROST = 1 << FROZEN_FINGERS_OF_FROST`. -/
def FF_FINGERS_OF_FROST : Nat := 1 <<< frozen_type_e.FROZEN_FINGERS_OF_FROST.val

/-- `FF_ROOT = 1 << FROZEN_ROOT`. -/
def FF_ROOT : Nat := 1 <<< frozen_type_e.FROZEN_ROOT.val

/-- The part of `buff_t` the classifier reads: the current stack count. -/
structure buff_t where
  current_stack : Int
  deriving DecidableEq, Repr

/-- `buff_t::check()` returns the current stack count; it is used as a truth value. -/
def buff_t.check (b : buff_t) : Int := b.current_stack

/-- The two debuffs of `mage_td_t::debuffs_t` read by `mage_spell_t::frozen`. -/
structure mage_td_t where
  frozen : buff_t
  winters_chill : buff_t
  deriving DecidableEq, Repr

/-- `virtual unsigned mage_spell_t::frozen( const action_state_t* s ) const`; the argument is
`p()->target_data[ s->target ]`, which is null when the target has no target data. -/
def mage_spell_t.frozen (td : Option mage_td_t) : Nat :=
  match td with
  | none => 0
  | some td =>
    let source := 0
    let source := if td.winters_chill.check ≠ 0 then source ||| FF_WINTERS_CHILL else source
    let source := if td.frozen.check ≠ 0 then source ||| FF_ROOT else source
    source

/-- Number of set bits among the low `w` bits of `n`. -/
def popcount (n : Nat) : Nat → Nat
  | 0 => 0
  | w + 1 => (if n.testBit w then 1 else 0) + popcount n w

/-- What `mage_spell_state_t::composite_crit_chance` reads: the base value
`action_state_t::composite_crit_chance()`, the state's `frozen` bitmask, the action's
`affected_by.shatter`, `p->spec.shatter->ok()` and the two spell-data percentages
`spec.shatter->effectN( 2 ).percent()` and `spec.shatter_2->effectN( 1 ).percent()`. -/
structure crit_input_t where
  base_crit : ℚ
  frozen : Nat
  affected_by_shatter : Bool
  spec_shatter_ok : Bool
  shatter_pct : ℚ
  shatter_2_pct : ℚ

/-- `double mage_spell_state_t::composite_crit_chance() const`. -/
def composite_crit_chance (i : crit_input_t) : ℚ :=
  let c := i.base_crit
  if i.frozen ≠ 0 then
    if i.affected_by_shatter && i.spec_shatter_ok then
      let c := c * (3 / 2)
      c + (i.shatter_pct + i.shatter_2_pct)
    else c
  else c

/-! ## Icicle queue (lines 108-113, 1457-1507, 1974-2004, 3392-3403, 4541-4581, 6546-6558,
6604-6647, 6795-6827) -/

/-- `struct icicle_tuple_t`: the stored action and the handle of its expiration event. -/
structure icicle_tuple_t where
  action : Nat
  expiration : Nat
  deriving DecidableEq, Repr

/-- A pending expiration event created by `make_event( sim, buff_duration, ... )` in
`trigger_icicle_gain`: its handle and the time at which it occurs. -/
structure expiration_event_t where
  handle : Nat
  occurs : timespan_t
  deriving DecidableEq, Repr

/-- A pending `events::icicle_event_t`: the constructor arguments `t` and `first`, the value
of `mage->cache.spell_speed()` read by the constructor and the time of construction. -/
structure icicle_event_t where
  target : Nat
  first : Bool
  spell_speed : ℚ
  scheduled_at : timespan_t
  deriving DecidableEq, Repr

/-- The members of `mage_t` (and of the simulation it runs in) that the icicle code touches.
`executed` is the record of `execute()` calls on icicle actions, as (action, target) pairs,
oldest first; `expirations` is the set of expiration events still pending in the scheduler. -/
structure mage_t where
  spec_icicles_ok : Bool
  max_icicles : Nat
  icicles_buff_duration : timespan_t
  spell_speed : ℚ
  current_time : timespan_t
  icicles : List icicle_tuple_t
  icicle_event : Option icicle_event_t
  buffs_icicles : Nat
  next_handle : Nat
  expirations : List expiration_event_t
  executed : List (Nat × Nat)
  deriving DecidableEq, Repr

/-- Modelled from the spec: `buff_t::trigger()` is engine code; the stack counter rises by one
and is capped at the capacity. -/
def buffs_icicles_trigger (m : mage_t) : mage_t :=
  { m with buffs_icicles := min (m.buffs_icicles + 1) m.max_icicles }

/-- Modelled from the spec: `buff_t::decrement()` is engine code; the stack counter drops by
one (and stays at zero). -/
def buffs_icicles_decrement (m : mage_t) : mage_t :=
  { m with buffs_icicles := m.buffs_icicles - 1 }

/-- Modelled from the spec: `buff_t::expire()` is engine code; the stack counter becomes zero. -/
def buffs_icicles_expire (m : mage_t) : mage_t :=
  { m with buffs_icicles := 0 }

/-- Modelled from the spec: `event_t::cancel( e )` is engine code; the event with that handle
is no longer pending (cancelling an event that is not pending does nothing). -/
def event_cancel (m : mage_t) (handle : Nat) : mage_t :=
  { m with expirations := m.expirations.filter (fun e => e.handle != handle) }

/-- Modelled from the spec: `make_event( sim, buffs.icicles->buff_duration, ... )` is engine
code; it returns a fresh handle for an event occurring `buff_duration` after the current time. -/
def make_expiration_event (m : mage_t) : Nat × mage_t :=
  (m.next_handle,
    { m with
      next_handle := m.next_handle + 1
      expirations := m.expirations ++
        [{ handle := m.next_handle, occurs := m.current_time + m.icicles_buff_duration }] })

/-- `make_event<events::icicle_event_t>( sim, mage, t, first )`: the new chain event. -/
def make_icicle_event (m : mage_t) (t : Nat) (first : Bool) : icicle_event_t :=
  { target := t, first := first, spell_speed := m.spell_speed, scheduled_at := m.current_time }

/-- `icicle_t::execute()` after `set_target( target )`: the action is executed against the
target (recorded) and then `p()->buffs.icicles->decrement()` runs. -/
def icicle_t.execute (m : mage_t) (action target : Nat) : mage_t :=
  buffs_icicles_decrement { m with executed := m.executed ++ [(action, target)] }

/-- `action_t* mage_t::get_icicle()`; `none` is the null pointer. -/
def get_icicle (m : mage_t) : Option Nat × mage_t :=
  match m.icicles with
  | [] => (none, m)
  | front :: rest =>
    let m := event_cancel m front.expiration
    (some front.action, { m with icicles := rest })

/-- `void mage_t::trigger_icicle( player_t* icicle_target, bool chain )`; the declaration
gives `chain` the default `false`.  The queue is not empty where `get_icicle` is called, so
the null branch of the match is never taken. -/
def trigger_icicle (m : mage_t) (icicle_target : Nat) (chain : Bool) : mage_t :=
  if !m.spec_icicles_ok then m
  else if m.icicles.isEmpty then m
  else if chain && m.icicle_event.isNone then
    { m with icicle_event := some (make_icicle_event m icicle_target true) }
  else if !chain then
    match get_icicle m with
    | (some icicle_action, m) => icicle_t.execute m icicle_action icicle_target
    | (none, m) => m
  else m

/-- `void mage_t::trigger_icicle_gain( player_t* icicle_target, action_t* icicle_action )`,
up to the final assertion. -/
def trigger_icicle_gain (m : mage_t) (icicle_target icicle_action : Nat) : mage_t :=
  if !m.spec_icicles_ok then m
  else
    let max_icicles := m.max_icicles
    let m := if m.icicles.length = max_icicles then trigger_icicle m icicle_target false else m
    let m := buffs_icicles_trigger m
    let (expiration, m) := make_expiration_event m
    { m with icicles := m.icicles ++ [{ action := icicle_action, expiration := expiration }] }

/-- The condition of the assertion that ends `trigger_icicle_gain`
(`icicles.size() <= max_icicles`; action handles are never null). -/
def trigger_icicle_gain_assertion (m : mage_t) : Bool :=
  decide (m.icicles.length ≤ m.max_icicles)

/-- The body of the expiration lambda created in `trigger_icicle_gain`:
`buffs.icicles->decrement(); icicles.erase( icicles.begin() );`.  Erasing the first element
is `List.tail`. -/
def icicle_expiration (m : mage_t) : mage_t :=
  let m := buffs_icicles_decrement m
  { m with icicles := m.icicles.tail }

/-- The scheduler fires the expiration event with the given handle: the event leaves the
pending set and its lambda runs.  An event that is not pending cannot fire. -/
def fire_expiration (m : mage_t) (handle : Nat) : mage_t :=
  if m.expirations.any (fun e => e.handle == handle) then
    icicle_expiration (event_cancel m handle)
  else m

/-- `void icicle_event_t::execute()` for the event `e`; `target_sleeping` is the value of
`target->is_sleeping()` when the event fires. -/
def icicle_event_t.execute (e : icicle_event_t) (m : mage_t) (target_sleeping : Bool) : mage_t :=
  let m := { m with icicle_event := none }
  if target_sleeping then m
  else
    match get_icicle m with
    | (none, m) => m
    | (some icicle_action, m) =>
      let m := icicle_t.execute m icicle_action e.target
      if !m.icicles.isEmpty then
        { m with icicle_event := some (make_icicle_event m e.target false) }
      else m

/-- The scheduler fires the pending chain event, if there is one. -/
def fire_icicle_event (m : mage_t) (target_sleeping : Bool) : mage_t :=
  match m.icicle_event with
  | none => m
  | some e => e.execute m target_sleeping

/-- The loop `while ( !p()->icicles.empty() ) p()->get_icicle();` of
`glacial_spike_t::execute`, unrolled at most `fuel` times. -/
def glacial_spike_drain : Nat → mage_t → mage_t
  | 0, m => m
  | fuel + 1, m => if m.icicles.isEmpty then m else glacial_spike_drain fuel (get_icicle m).2

/-- The values of `specialization()` that `trigger_lucid_dreams` tells apart; `SPEC_NONE`
stands for every other value (the `default` branch). -/
inductive specialization_e where
  | MAGE_ARCANE
  | MAGE_FIRE
  | MAGE_FROST
  | SPEC_NONE
  deriving DecidableEq, Repr

/-- What `mage_t::trigger_lucid_dreams` reads besides the icicle members: the member
`lucid_dreams_refund`, `specialization()`, the result of `rng().roll( proc_chance )` and the
action `icicle.lucid_dreams`. -/
structure lucid_dreams_t where
  lucid_dreams_refund : ℚ
  specialization : specialization_e
  roll : Bool
  icicle_lucid_dreams : Nat
  deriving DecidableEq, Repr

/-- `void mage_t::trigger_lucid_dreams( player_t* trigger_target, double cost )`.  The mana
gain of the Arcane branch, the cooldown adjustment of the Fire branch and the Lucid Dreams
buff are not icicle members of `mage_t`. -/
def trigger_lucid_dreams (m : mage_t) (ld : lucid_dreams_t) (trigger_target : Nat) (cost : ℚ) :
    mage_t :=
  if ld.lucid_dreams_refund ≤ 0 then m
  else if cost ≤ 0 then m
  else if ld.roll then
    match ld.specialization with
    | .MAGE_FROST => trigger_icicle_gain m trigger_target ld.icicle_lucid_dreams
    | _ => m
  else m

/-- An executing spell as far as `mage_spell_t::consume_resource` reads it: `target`, whether
`current_resource() == RESOURCE_MANA`, and `last_resource_cost`. -/
structure spell_cast_t where
  target : Nat
  resource_mana : Bool
  last_resource_cost : ℚ
  deriving DecidableEq, Repr

/-- `void mage_spell_t::consume_resource()`; the engine's `spell_t::consume_resource()` pays
the cost and sets `last_resource_cost`. -/
def mage_spell_t.consume_resource (m : mage_t) (ld : lucid_dreams_t) (a : spell_cast_t) :
    mage_t :=
  if a.resource_mana then trigger_lucid_dreams m ld a.target a.last_resource_cost else m

/-- Modelled from the spec: `spell_t::execute()` is engine code; it calls the virtual
`consume_resource()`, the one hook overridden in this file through which an executing spell
reaches the icicle members.  The rest of `mage_spell_t::execute()` (Leyshock, cost
reductions, Clearcasting, Ice Floes) does not touch them, and `frost_mage_spell_t` inherits
the function unchanged. -/
def mage_spell_t.execute (m : mage_t) (ld : lucid_dreams_t) (a : spell_cast_t) : mage_t :=
  mage_spell_t.consume_resource m ld a

/-- `void glacial_spike_t::execute()`: `frost_mage_spell_t::execute()`, then
`buffs.icicles->expire()` and the draining loop, which needs one iteration per stored
icicle.  The Fingers of Frost procs that follow do not touch the icicle members. -/
def glacial_spike_t.execute (m : mage_t) (ld : lucid_dreams_t) (a : spell_cast_t) : mage_t :=
  let m := mage_spell_t.execute m ld a
  let m := buffs_icicles_expire m
  glacial_spike_drain m.icicles.length m

/-- The call `get_icicle()` made `n` times in a row: the returned pointers, oldest first, and
the mage afterwards. -/
def get_icicle_n : Nat → mage_t → List (Option Nat) × mage_t
  | 0, m => ([], m)
  | n + 1, m =>
    ((get_icicle m).1 :: (get_icicle_n n (get_icicle m).2).1, (get_icicle_n n (get_icicle m).2).2)

/-- One step of a mage's history as far as the icicle queue is concerned. -/
inductive icicle_op where
  | gain (icicle_target icicle_action : Nat)
  | trigger (icicle_target : Nat) (chain : Bool)
  | chain_tick (target_sleeping : Bool)
  | expire (handle : Nat)
  | glacial_spike (ld : lucid_dreams_t) (a : spell_cast_t)
  | advance (now : timespan_t)
  deriving DecidableEq, Repr

/-- Perform one step. -/
def icicle_op.perform (m : mage_t) : icicle_op → mage_t
  | .gain icicle_target icicle_action => trigger_icicle_gain m icicle_target icicle_action
  | .trigger icicle_target chain => trigger_icicle m icicle_target chain
  | .chain_tick target_sleeping => fire_icicle_event m target_sleeping
  | .expire handle => fire_expiration m handle
  | .glacial_spike ld a => glacial_spike_t.execute m ld a
  | .advance now => { m with current_time := now }

/-- Perform a sequence of steps, oldest first. -/
def icicle_run (m : mage_t) : List icicle_op → mage_t
  | [] => m
  | op :: ops => icicle_run (op.perform m) ops

/-- All the states a mage passes through while performing a sequence of steps: the state
after each step, oldest first. -/
def icicle_trace (m : mage_t) : List icicle_op → List mage_t
  | [] => []
  | op :: ops => op.perform m :: icicle_trace (op.perform m) ops

/-- A mage with an empty icicle queue, no pending event and nothing executed yet. -/
def mage_t.init (spec_icicles_ok : Bool) (max_icicles : Nat) (icicles_buff_duration : timespan_t)
    (spell_speed : ℚ) (current_time : timespan_t) : mage_t :=
  { spec_icicles_ok := spec_icicles_ok
    max_icicles := max_icicles
    icicles_buff_duration := icicles_buff_duration
    spell_speed := spell_speed
    current_time := current_time
    icicles := []
    icicle_event := none
    buffs_icicles := 0
    next_handle := 0
    expirations := []
    executed := [] }

/-! ## Ignite spread (lines 4583-4691) -/

/-- The part of an ignite `dot_t` the spread reads: `is_ticking()`, the `tick_amount` of its
residual state and `ticks_left()`. -/
structure dot_t where
  ticking : Bool
  tick_amount : ℚ
  ticks_left : Int
  deriving DecidableEq, Repr

/-- `dot_t::is_ticking()`. -/
def dot_t.is_ticking (d : dot_t) : Bool := d.ticking

/-- A dot that is not ticking. -/
def dot_t.idle : dot_t := { ticking := false, tick_amount := 0, ticks_left := 0 }

/-- `static double ignite_bank( dot_t* ignite )`. -/
def ignite_bank (ignite : dot_t) : ℚ :=
  if !ignite.is_ticking then 0
  else ignite.tick_amount * ignite.ticks_left

/-- An entry of `sim().target_non_sleeping_list`: `is_enemy()` and the target's ignite dot
`t->get_dot( "ignite", mage )`. -/
structure target_t where
  is_enemy : Bool
  ignite : dot_t
  deriving DecidableEq, Repr

/-- One spread, recorded where `execute` logs "ignite spreads from .. to ..": the source and
destination dots (as positions in the target list), `source_bank`, the destination's bank
just before the spread and whether the destination was ticking. -/
structure spread_t where
  source : Nat
  destination : Nat
  source_bank : ℚ
  destination_bank : ℚ
  overwrite : Bool
  deriving DecidableEq, Repr

/-- The state of one `ignite_spread_event_t::execute` run.  A `dot_t*` is the position of its
target in `tl`; `draws` are the values the random number generator will produce;
`ignite_spread_event` holds the delay of the scheduled next pass. -/
structure spread_state_t where
  tl : List target_t
  active_ignites : List Nat
  candidates : List Nat
  draws : List Nat
  procs_ignite_spread : Nat
  procs_ignite_overwrite : Nat
  procs_ignite_new_spread : Nat
  ignite_spread_event : Option timespan_t
  spreads : List spread_t
  deriving DecidableEq, Repr

/-- Dereference a dot pointer. -/
def dot_at (tl : List target_t) (i : Nat) : dot_t :=
  match tl[i]? with
  | some t => t.ignite
  | none => dot_t.idle

/-- `ignite_bank( d )` for the dot pointer `d`. -/
def bank_at (tl : List target_t) (i : Nat) : ℚ := ignite_bank (dot_at tl i)

/-- Modelled from the spec: `destination->cancel(); source->copy( destination->target,
DOT_COPY_CLONE )` is engine code; the destination's dot becomes a clone of the source's dot. -/
def dot_copy (tl : List target_t) (source destination : Nat) : List target_t :=
  match tl[destination]? with
  | some t => tl.set destination { t with ignite := dot_at tl source }
  | none => tl

/-- Modelled from the spec: `rng().range( max )` is engine code; it returns `r` with
`0 <= r < max`, and 0 when `max` is 0.  The next draw is consumed. -/
def rng_range (st : spread_state_t) (max : Nat) : Nat × spread_state_t :=
  (if max = 0 then 0 else st.draws.headD 0 % max, { st with draws := st.draws.tail })

/-- The enemies of `tl` whose ignite is ticking, in list order (first half of the split loop). -/
def split_active (tl : List target_t) : List Nat :=
  (List.range tl.length).filter (fun i =>
    match tl[i]? with
    | some t => t.is_enemy && t.ignite.is_ticking
    | none => false)

/-- The enemies of `tl` whose ignite is not ticking, in list order (second half of the split
loop). -/
def split_candidates (tl : List target_t) : List Nat :=
  (List.range tl.length).filter (fun i =>
    match tl[i]? with
    | some t => t.is_enemy && !t.ignite.is_ticking
    | none => false)

/-- `std::stable_sort( .., [] ( a, b ) { return ignite_bank( a ) > ignite_bank( b ); } )`:
the stable ordering by descending bank, computed by insertion (an element is placed before
the first element that is not strictly larger). -/
def stable_sort_by_bank (tl : List target_t) (l : List Nat) : List Nat :=
  l.insertionSort (fun a b => bank_at tl b ≤ bank_at tl a)

/-- The loop `while ( index >= 0 && ignite_bank( candidates[ index ] ) == source_bank ) index--;`.
The argument and the result are `index + 1`, so that 0 stands for `index < 0`. -/
def skip_equal (tl : List target_t) (candidates : List Nat) (source_bank : ℚ) : Nat → Nat
  | 0 => 0
  | index + 1 =>
    if bank_at tl (candidates.getD index 0) = source_bank then
      skip_equal tl candidates source_bank index
    else index + 1

/-- One iteration of the loop `while ( !active_ignites.empty() )`. -/
def spread_iteration (st : spread_state_t) : spread_state_t :=
  match st.active_ignites.getLast? with
  | none => st
  | some source =>
    let st := { st with active_ignites := st.active_ignites.dropLast }
    let source_bank := bank_at st.tl source
    if !st.candidates.isEmpty then
      let index := skip_equal st.tl st.candidates source_bank st.candidates.length
      if index = 0 then st
      else
        let (index, st) := rng_range st (index - 1)
        let destination := st.candidates.getD index 0
        let overwrite := (dot_at st.tl destination).is_ticking
        let st :=
          if overwrite then { st with procs_ignite_overwrite := st.procs_ignite_overwrite + 1 }
          else { st with procs_ignite_new_spread := st.procs_ignite_new_spread + 1 }
        let st := { st with spreads := st.spreads ++
          [spread_t.mk source destination source_bank (bank_at st.tl destination) overwrite] }
        let st := { st with tl := dot_copy st.tl source destination }
        let st := { st with candidates := st.candidates.eraseIdx index }
        { st with candidates := st.candidates ++ [source] }
    else
      { st with candidates := st.candidates ++ [source] }

/-- The loop `while ( !active_ignites.empty() )`, unrolled at most `fuel` times. -/
def spread_loop : Nat → spread_state_t → spread_state_t
  | 0, st => st
  | fuel + 1, st =>
    if st.active_ignites.isEmpty then st
    else spread_loop fuel (spread_iteration st)

/-- `void ignite_spread_event_t::execute()`; `period` is `spec.ignite->effectN( 3 ).period()`.
The loop is given one unit of fuel per active ignite. -/
def ignite_spread_event_t.execute (st : spread_state_t) (period : timespan_t) : spread_state_t :=
  let st := { st with ignite_spread_event := none }
  let st := { st with procs_ignite_spread := st.procs_ignite_spread + 1 }
  let st :=
    if st.tl.length > 1 then
      let st := { st with active_ignites := split_active st.tl,
                          candidates := split_candidates st.tl }
      let st := { st with active_ignites := stable_sort_by_bank st.tl st.active_ignites }
      spread_loop st.active_ignites.length st
    else st
  { st with ignite_spread_event := some period }

/-- No dot is listed twice among the past destinations, the active ignites and the
candidates of a spread pass. -/
def spread_distinct (st : spread_state_t) : Prop :=
  (st.spreads.map (fun r => r.destination) ++ (st.active_ignites ++ st.candidates)).Nodup

/-- The loop invariant of a spread pass, relative to the banks `b0` the dots had when the pass
started: the active ignites are in descending and the candidates in ascending bank order, no
candidate has a larger bank than an active ignite, no dot is listed twice or is also a past
destination, the listed dots still have their starting banks, and every recorded spread went
to a strictly smaller bank from a source that still had its starting bank. -/
structure spread_inv (b0 : Nat → ℚ) (st : spread_state_t) : Prop where
  active_sorted : st.active_ignites.Pairwise (fun a b => b0 b ≤ b0 a)
  candidates_sorted : st.candidates.Pairwise (fun a b => b0 a ≤ b0 b)
  candidates_le : ∀ c ∈ st.candidates, ∀ a ∈ st.active_ignites, b0 c ≤ b0 a
  nodup : spread_distinct st
  banks : ∀ i ∈ st.active_ignites ++ st.candidates, bank_at st.tl i = b0 i
  spreads_lt : ∀ r ∈ st.spreads, r.destination_bank < r.source_bank
  spreads_source : ∀ r ∈ st.spreads, r.source_bank = b0 r.source

/-- The state in which a pass starts: the target list, the draws to come, nothing recorded. -/
def spread_state_t.init (tl : List target_t) (draws : List Nat) : spread_state_t :=
  { tl := tl
    active_ignites := []
    candidates := []
    draws := draws
    procs_ignite_spread := 0
    procs_ignite_overwrite := 0
    procs_ignite_new_spread := 0
    ignite_spread_event := none
    spreads := [] }

/-- The state in which `ignite_spread_event_t::execute` enters its loop when there is more
than one target: the event handle cleared, the spread-event counter raised, the ignites split
and the active ones sorted. -/
def spread_entry (st : spread_state_t) : spread_state_t :=
  { st with
    ignite_spread_event := none
    procs_ignite_spread := st.procs_ignite_spread + 1
    active_ignites := stable_sort_by_bank st.tl (split_active st.tl)
    candidates := split_candidates st.tl }

/-- The states in which the iterations of the loop `while ( !active_ignites.empty() )` start,
in order, for at most `fuel` iterations. -/
def spread_loop_states : Nat → spread_state_t → List spread_state_t
  | 0, _ => []
  | fuel + 1, st =>
    if st.active_ignites.isEmpty then []
    else st :: spread_loop_states fuel (spread_iteration st)

/-- The states in which the loop iterations of one `ignite_spread_event_t::execute` run start
(none when there is at most one target). -/
def pass_states (st : spread_state_t) : List spread_state_t :=
  if st.tl.length > 1 then
    spread_loop_states (spread_entry st).active_ignites.length (spread_entry st)
  else []

/-- Well-formedness of the lists of a spread pass: no dot is listed twice (or is a past
destination), and every listed dot belongs to a target of the list. -/
structure spread_wf (st : spread_state_t) : Prop where
  distinct : spread_distinct st
  valid : ∀ i ∈ st.active_ignites ++ st.candidates, i < st.tl.length

/-- The sources of a pass: every active ignite and every recorded source is among the dots
`a0`, and no recorded spread has the destination of an earlier one as its source. -/
structure spread_sources (a0 : List Nat) (st : spread_state_t) : Prop where
  active_sub : ∀ a ∈ st.active_ignites, a ∈ a0
  source_sub : ∀ r ∈ st.spreads, r.source ∈ a0
  later_source : st.spreads.Pairwise (fun r1 r2 => r2.source ≠ r1.destination)

/-- Modelled from the spec: the scheduler is engine code; it fires pending events in timestamp
order, and events with the same timestamp in the order of their creation.  The pending
expiration with the given handle is due when no other pending expiration comes before it in
that order. -/
def expire_due (m : mage_t) (handle : Nat) : Bool :=
  m.expirations.any (fun e => e.handle == handle &&
    m.expirations.all (fun x =>
      decide (e.occurs < x.occurs) || (decide (e.occurs = x.occurs) && decide (e.handle ≤ x.handle))))

/-- Whether the scheduler can perform a step in state `m`: the clock never goes back and an
expiration fires only when it is due; every other step is a call the mage may make anytime. -/
def icicle_op.admissible (m : mage_t) : icicle_op → Bool
  | .advance now => decide (m.current_time ≤ now)
  | .expire handle => expire_due m handle
  | _ => true

/-- A sequence of steps that the scheduler can perform from state `m`. -/
def icicle_schedule (m : mage_t) : List icicle_op → Bool
  | [] => true
  | op :: ops => op.admissible m && icicle_schedule (op.perform m) ops

/-- The invariant tying the icicle queue to the scheduler: the pending expiration events are
those of the queued entries, in queue order; they are in timestamp order and in order of
creation; their handles have been handed out already and none occurs later than an event
created now would. -/
structure icicle_inv (m : mage_t) : Prop where
  handles : m.expirations.map (fun e => e.handle) = m.icicles.map (fun i => i.expiration)
  times : m.expirations.Pairwise (fun a b => a.occurs ≤ b.occurs)
  fresh : m.expirations.Pairwise (fun a b => a.handle < b.handle)
  bound : ∀ e ∈ m.expirations, e.handle < m.next_handle
  latest : ∀ e ∈ m.expirations, e.occurs ≤ m.current_time + m.icicles_buff_duration

/-! ## Burn-phase actions (lines 4427-4496) -/

/-- The members of `mage_t` and of the simulation that the burn-phase actions touch:
the switch, `sim->current_time()`, `resources.pct( RESOURCE_MANA )`, the two sample
collections and the two uptime trackers (each as the list of recorded values, oldest first). -/
structure burn_mage_t where
  burn_phase : state_switch_t
  current_time : timespan_t
  mana_pct : ℚ
  burn_initial_mana : List ℚ
  burn_duration_history : List ℚ
  uptime_burn_phase : List (Bool × timespan_t)
  uptime_conserve_phase : List (Bool × timespan_t)
  deriving DecidableEq, Repr

/-- Modelled from the spec: `timespan_t::total_seconds()` is engine code; a millisecond count
as seconds. -/
def timespan_t.total_seconds (t : timespan_t) : ℚ := (t : ℚ) / 1000

/-- `void start_burn_phase_t::execute()`.  The result is `.error` when
`report_burn_switch_error` throws `std::runtime_error`; it carries the mage as the throw
leaves it. -/
def start_burn_phase_t.execute (p : burn_mage_t) : Except burn_mage_t burn_mage_t :=
  let (success, burn_phase) := p.burn_phase.enable p.current_time
  let p := { p with burn_phase := burn_phase }
  if !success then .error p
  else
    let p := { p with burn_initial_mana := p.burn_initial_mana ++ [100 * p.mana_pct] }
    let p := { p with uptime_burn_phase := p.uptime_burn_phase ++ [(true, p.current_time)] }
    .ok { p with uptime_conserve_phase := p.uptime_conserve_phase ++ [(false, p.current_time)] }

/-- `void stop_burn_phase_t::execute()`.  The result is `.error` when
`report_burn_switch_error` throws `std::runtime_error`; it carries the mage as the throw
leaves it. -/
def stop_burn_phase_t.execute (p : burn_mage_t) : Except burn_mage_t burn_mage_t :=
  let p := { p with burn_duration_history := p.burn_duration_history ++
    [(p.burn_phase.duration p.current_time).total_seconds] }
  let (success, burn_phase) := p.burn_phase.disable p.current_time
  let p := { p with burn_phase := burn_phase }
  if !success then .error p
  else
    let p := { p with uptime_burn_phase := p.uptime_burn_phase ++ [(false, p.current_time)] }
    .ok { p with uptime_conserve_phase := p.uptime_conserve_phase ++ [(true, p.current_time)] }

/-! ## Frozen multiplier, Ice Lance and Shatter sources
(lines 256-312, 1196-1272, 1411-1423, 1935-1950, 3500-3557, 3614-3621) -/

/-- The spells as far as the `frozen` and `frozen_multiplier` hooks go: `ice_lance_t`
overrides both, every other spell uses those of `mage_spell_t`. -/
inductive spell_kind where
  | other
  | ice_lance
  deriving DecidableEq, Repr

/-- The members of `mage_t` read and written around the Fingers of Frost flag: the `bugs`
option, `state.fingers_of_frost_active` and the stack count of `buffs.fingers_of_frost`. -/
structure frost_mage_t where
  bugs : Bool
  fingers_of_frost_active : Bool
  buffs_fingers_of_frost : Nat
  deriving DecidableEq, Repr

/-- The members of `mage_spell_state_t` and `ice_lance_state_t`, with the values of
`action_state_t::composite_da_multiplier()` and `action_state_t::composite_ta_multiplier()`. -/
structure mage_spell_state_t where
  frozen : Nat
  frozen_multiplier : ℚ
  fingers_of_frost : Bool
  base_da_multiplier : ℚ
  base_ta_multiplier : ℚ
  deriving DecidableEq, Repr

/-- `mage_spell_state_t::initialize()` (and `ice_lance_state_t::initialize()`): a state with
no frozen source, multiplier 1.0 and no Fingers of Frost. -/
def mage_spell_state_t.initialize (base_da_multiplier base_ta_multiplier : ℚ) :
    mage_spell_state_t :=
  { frozen := 0
    frozen_multiplier := 1
    fingers_of_frost := false
    base_da_multiplier := base_da_multiplier
    base_ta_multiplier := base_ta_multiplier }

/-- `double mage_spell_state_t::composite_da_multiplier() const`. -/
def mage_spell_state_t.composite_da_multiplier (s : mage_spell_state_t) : ℚ :=
  s.base_da_multiplier * s.frozen_multiplier

/-- `double mage_spell_state_t::composite_ta_multiplier() const`. -/
def mage_spell_state_t.composite_ta_multiplier (s : mage_spell_state_t) : ℚ :=
  s.base_ta_multiplier * s.frozen_multiplier

/-- `unsigned ice_lance_t::frozen( const action_state_t* s ) const`;
`frost_mage_spell_t::frozen` is `mage_spell_t::frozen`. -/
def ice_lance_t.frozen (p : frost_mage_t) (td : Option mage_td_t) (s : mage_spell_state_t) :
    Nat :=
  let source := mage_spell_t.frozen td
  if p.bugs then
    if p.fingers_of_frost_active then source ||| FF_FINGERS_OF_FROST else source
  else
    if s.fingers_of_frost then source ||| FF_FINGERS_OF_FROST else source

/-- The virtual call `frozen( s )`. -/
def spell_kind.frozen (kind : spell_kind) (p : frost_mage_t) (td : Option mage_td_t)
    (s : mage_spell_state_t) : Nat :=
  match kind with
  | .other => mage_spell_t.frozen td
  | .ice_lance => ice_lance_t.frozen p td s

/-- `virtual double mage_spell_t::frozen_multiplier( const action_state_t* ) const`. -/
def mage_spell_t.frozen_multiplier : ℚ := 1

/-- `double ice_lance_t::frozen_multiplier( const action_state_t* s ) const`;
`frost_mage_spell_t::frozen_multiplier` is `mage_spell_t::frozen_multiplier`. -/
def ice_lance_t.frozen_multiplier : ℚ :=
  let m := mage_spell_t.frozen_multiplier
  m * 3

/-- The virtual call `frozen_multiplier( s )`. -/
def spell_kind.frozen_multiplier : spell_kind → ℚ
  | .other => mage_spell_t.frozen_multiplier
  | .ice_lance => ice_lance_t.frozen_multiplier

/-- `void mage_spell_t::snapshot_internal( action_state_t* s, unsigned flags, dmg_e rt )`,
after `spell_t::snapshot_internal`.  The flag values `STATE_FROZEN` and `STATE_FROZEN_MUL`
(`STATE_TGT_USER_1` and `STATE_TGT_USER_2` of the engine) are parameters. -/
def snapshot_internal (STATE_FROZEN STATE_FROZEN_MUL : Nat) (kind : spell_kind)
    (p : frost_mage_t) (td : Option mage_td_t) (s : mage_spell_state_t) (flags : Nat) :
    mage_spell_state_t :=
  let s := if flags &&& STATE_FROZEN ≠ 0 then { s with frozen := kind.frozen p td s } else s
  if flags &&& STATE_FROZEN_MUL ≠ 0 then
    { s with frozen_multiplier := if s.frozen ≠ 0 then kind.frozen_multiplier else 1 }
  else s

/-- `void ice_lance_t::snapshot_state( action_state_t* s, dmg_e rt )`: the Fingers of Frost
status is stored in the state.  Ice Lance computes its frozen members on impact, so the call
to `frost_mage_spell_t::snapshot_state` that follows leaves them alone. -/
def ice_lance_t.snapshot_state (p : frost_mage_t) (s : mage_spell_state_t) :
    mage_spell_state_t :=
  { s with fingers_of_frost := decide (p.buffs_fingers_of_frost ≠ 0) }

/-- The Fingers of Frost part of `void ice_lance_t::execute()`: the global flag is set from
`buffs.fingers_of_frost->up()`, `frost_mage_spell_t::execute()` snapshots the state `s` of
this cast, and the buff is decremented.  The result is the mage afterwards and the state that
travels to the target. -/
def ice_lance_t.execute (p : frost_mage_t) (s : mage_spell_state_t) :
    frost_mage_t × mage_spell_state_t :=
  let p := { p with fingers_of_frost_active := decide (p.buffs_fingers_of_frost ≠ 0) }
  let s := ice_lance_t.snapshot_state p s
  let p := { p with buffs_fingers_of_frost := p.buffs_fingers_of_frost - 1 }
  (p, s)

/-- Whether a frozen bitmask has the Fingers of Frost bit. -/
def has_fingers_of_frost (frozen : Nat) : Bool := frozen &&& FF_FINGERS_OF_FROST != 0

/-- `shatter_source_t` is `effect_source_t<FROZEN_MAX>`: the member `iteration_counts`, by
index. -/
structure shatter_source_t where
  iteration_counts : Nat → Int

/-- `void effect_source_t::occur( size_t type )`: `iteration_counts[ type ]++`. -/
def shatter_source_t.occur (source : shatter_source_t) (type : Nat) : shatter_source_t :=
  { iteration_counts := fun i =>
      if i = type then source.iteration_counts i + 1 else source.iteration_counts i }

/-- `~FF_FINGERS_OF_FROST` as an operand of `&` with an `unsigned`: the 32-bit complement. -/
def complement32 (x : Nat) : Nat := 4294967295 ^^^ x

/-- `void frost_mage_spell_t::record_shatter_source( const action_state_t* s,
shatter_source_t* source )`; `frozen` is `cast_state( s )->frozen`, `none` the null pointer.
The result is the source afterwards. -/
def record_shatter_source (frozen : Nat) (source : Option shatter_source_t) :
    Option shatter_source_t :=
  match source with
  | none => none
  | some source =>
    if frozen &&& FF_WINTERS_CHILL ≠ 0 then
      some (source.occur frozen_type_e.FROZEN_WINTERS_CHILL.val)
    else if frozen &&& complement32 FF_FINGERS_OF_FROST ≠ 0 then
      some (source.occur frozen_type_e.FROZEN_ROOT.val)
    else if frozen &&& FF_FINGERS_OF_FROST ≠ 0 then
      some (source.occur frozen_type_e.FROZEN_FINGERS_OF_FROST.val)
    else
      some (source.occur frozen_type_e.FROZEN_NONE.val)

/-- The bitmask built from the three flags. -/
def frozen_mask (winters_chill fingers_of_frost root : Bool) : Nat :=
  (if winters_chill then FF_WINTERS_CHILL else 0) |||
    (if fingers_of_frost then FF_FINGERS_OF_FROST else 0) |||
    (if root then FF_ROOT else 0)

/-- The delay the constructor of `icicle_event_t` passes to `schedule`:
`first ? 0.25_s : 0.4_s * mage->cache.spell_speed()`, in milliseconds.  The product of a
`timespan_t` and a `double` is engine code and is taken as the parameter `mul`. -/
def icicle_event_t.delay (mul : timespan_t → ℚ → timespan_t) (e : icicle_event_t) : timespan_t :=
  if e.first then 250 else mul 400 e.spell_speed

/-- Modelled from the spec: `schedule( delay )` is engine code; the event fires `delay` after
the time at which it is scheduled. -/
def icicle_event_t.occurs (mul : timespan_t → ℚ → timespan_t) (e : icicle_event_t) : timespan_t :=
  e.scheduled_at + e.delay mul

end Mage

/-! # Theorems -/

namespace Mage

/-! ## Burn-phase switch -/

/-- C6: `enable(now)` returns false exactly when `now` equals the stored last-enable
timestamp and then changes nothing; otherwise it returns true, switches on, stores `now` as
last-enable and keeps last-disable.  Hence `enable(t); enable(t)` fails on the second call and
`enable(t1); disable(d); enable(t2)` with `t1 < t2` succeeds on the third, from any switch. -/
theorem state_switch_enable_spec (s : state_switch_t) (now t t1 t2 d : timespan_t) :
    ((s.enable now).1 = false ↔ now = s.last_enable) ∧
    (now = s.last_enable → (s.enable now).2 = s) ∧
    (now ≠ s.last_enable →
      (s.enable now).1 = true ∧ (s.enable now).2.state = true ∧
      (s.enable now).2.last_enable = now ∧ (s.enable now).2.last_disable = s.last_disable) ∧
    ((s.enable t).2.enable t).1 = false ∧
    (t1 < t2 → ((((s.enable t1).2.disable d).2).enable t2).1 = true) := by
  refine ⟨?_, ?_, ?_, ?_, ?_⟩
  · unfold state_switch_t.enable
    by_cases h : s.last_enable = now
    · simp [h]
    · simp [h]; exact fun h' => h h'.symm
  · intro h
    simp [state_switch_t.enable, h]
  · intro h
    have h' : ¬ s.last_enable = now := fun e => h e.symm
    simp [state_switch_t.enable, h']
  · unfold state_switch_t.enable
    by_cases h : s.last_enable = t <;> simp [h]
  · intro h
    have hne : ¬ t1 = t2 := ne_of_lt h
    unfold state_switch_t.enable state_switch_t.disable
    by_cases h1 : s.last_enable = t1 <;> by_cases h2 : s.last_disable = d <;> simp [h1, h2, hne]

/-- Instances of C6 with every hypothesis discharged. -/
theorem state_switch_enable_spec_witness :
    ((state_switch_t.new).enable timespan_t.min).2 = state_switch_t.new ∧
    (((state_switch_t.new).enable 10).1 = true ∧ ((state_switch_t.new).enable 10).2.state = true ∧
      ((state_switch_t.new).enable 10).2.last_enable = 10 ∧
      ((state_switch_t.new).enable 10).2.last_disable = (state_switch_t.new).last_disable) ∧
    ((10 : timespan_t) < 20 ∧
      (((((state_switch_t.new).enable 10).2.disable 15).2).enable 20).1 = true) :=
  ⟨(state_switch_enable_spec state_switch_t.new timespan_t.min 0 0 0 0).2.1 rfl,
   (state_switch_enable_spec state_switch_t.new 10 0 0 0 0).2.2.1 (by decide),
   by decide,
   (state_switch_enable_spec state_switch_t.new 0 0 10 20 15).2.2.2.2 (by decide)⟩

/-- C7: `disable(now)` returns false exactly when `now` equals the stored last-disable
timestamp and then changes nothing; otherwise it returns true, switches off, stores `now` as
last-disable and keeps last-enable. -/
theorem state_switch_disable_spec (s : state_switch_t) (now : timespan_t) :
    ((s.disable now).1 = false ↔ now = s.last_disable) ∧
    (now = s.last_disable → (s.disable now).2 = s) ∧
    (now ≠ s.last_disable →
      (s.disable now).1 = true ∧ (s.disable now).2.state = false ∧
      (s.disable now).2.last_disable = now ∧ (s.disable now).2.last_enable = s.last_enable) := by
  refine ⟨?_, ?_, ?_⟩
  · unfold state_switch_t.disable
    by_cases h : s.last_disable = now
    · simp [h]
    · simp [h]; exact fun h' => h h'.symm
  · intro h
    simp [state_switch_t.disable, h]
  · intro h
    have h' : ¬ s.last_disable = now := fun e => h e.symm
    simp [state_switch_t.disable, h']

/-- Instances of C7 with every hypothesis discharged. -/
theorem state_switch_disable_spec_witness :
    ((state_switch_t.new).disable timespan_t.min).2 = state_switch_t.new ∧
    (((state_switch_t.new).disable 10).1 = true ∧ ((state_switch_t.new).disable 10).2.state = false ∧
      ((state_switch_t.new).disable 10).2.last_disable = 10 ∧
      ((state_switch_t.new).disable 10).2.last_enable = (state_switch_t.new).last_enable) :=
  ⟨(state_switch_disable_spec state_switch_t.new timespan_t.min).2.1 rfl,
   (state_switch_disable_spec state_switch_t.new 10).2.2 (by decide)⟩

/-- Running one more call at the end of a sequence. -/
theorem switch_run_append (s : state_switch_t) (hist : List (switch_call × Bool))
    (cs : List switch_call) (c : switch_call) :
    switch_run s hist (cs ++ [c]) =
      ((c.perform (switch_run s hist cs).1).2,
        (switch_run s hist cs).2 ++ [(c, (c.perform (switch_run s hist cs).1).1)]) := by
  induction cs generalizing s hist with
  | nil => simp [switch_run]
  | cons c' cs ih => simp [switch_run, ih]

/-- Scanning one more history entry. -/
theorem last_successful_enable_append (hist : List (switch_call × Bool)) (c : switch_call)
    (ok : Bool) :
    last_successful_enable (hist ++ [(c, ok)]) =
      successful_enable (last_successful_enable hist) (c, ok) := by
  simp [last_successful_enable, List.foldl_append]

/-- While the switch is on, `last_enable` is the time of the last successful `enable`. -/
theorem switch_run_last_enable (calls : List switch_call) :
    (switch_run state_switch_t.new [] calls).1.state = true →
      last_successful_enable (switch_run state_switch_t.new [] calls).2 =
        some (switch_run state_switch_t.new [] calls).1.last_enable := by
  induction calls using List.reverseRecOn with
  | nil => simp [switch_run, state_switch_t.new]
  | append_singleton cs c ih =>
    rw [switch_run_append]
    simp only [last_successful_enable_append]
    cases c with
    | enable now =>
      simp only [switch_call.perform, state_switch_t.enable]
      by_cases h : (switch_run state_switch_t.new [] cs).1.last_enable = now
      · simp only [h, if_true, successful_enable]
        intro hs
        rw [ih hs, h]
      · simp [h, successful_enable]
    | disable now =>
      simp only [switch_call.perform, state_switch_t.disable]
      by_cases h : (switch_run state_switch_t.new [] cs).1.last_disable = now
      · simp only [h, if_true, successful_enable]
        exact ih
      · simp [h]
    | reset => simp [switch_call.perform, state_switch_t.reset]

/-- C8: after any sequence of calls on a fresh switch, `duration(now)` is `now` minus the
timestamp of the last successful `enable` while the switch is on, and zero while it is off;
after reset, `enable(10)` gives `duration(15) = 5`, and after `disable(15)`, `duration(20) = 0`. -/
theorem state_switch_duration_spec (calls : List switch_call) (now : timespan_t) :
    ((switch_run state_switch_t.new [] calls).1.is_on = true →
      ∃ t, last_successful_enable (switch_run state_switch_t.new [] calls).2 = some t ∧
        (switch_run state_switch_t.new [] calls).1.duration now = now - t) ∧
    ((switch_run state_switch_t.new [] calls).1.is_on = false →
      (switch_run state_switch_t.new [] calls).1.duration now = 0) ∧
    (((state_switch_t.new).reset.enable 10).2.duration 15 = 5) ∧
    (((((state_switch_t.new).reset.enable 10).2.disable 15).2).duration 20 = 0) := by
  refine ⟨?_, ?_, by decide, by decide⟩
  · intro h
    refine ⟨_, switch_run_last_enable calls h, ?_⟩
    simp only [state_switch_t.is_on] at h
    simp [state_switch_t.duration, h]
  · intro h
    simp only [state_switch_t.is_on] at h
    simp [state_switch_t.duration, h]

/-- Instances of C8 with every hypothesis discharged. -/
theorem state_switch_duration_spec_witness :
    (∃ t, last_successful_enable
        (switch_run state_switch_t.new [] [.enable 10, .enable 10, .disable 12, .enable 30]).2 = some t ∧
      (switch_run state_switch_t.new [] [.enable 10, .enable 10, .disable 12, .enable 30]).1.duration 45
        = 45 - t) ∧
    (switch_run state_switch_t.new [] [.enable 10, .disable 12]).1.duration 45 = 0 :=
  ⟨(state_switch_duration_spec [.enable 10, .enable 10, .disable 12, .enable 30] 45).1 (by decide),
   (state_switch_duration_spec [.enable 10, .disable 12] 45).2.1 (by decide)⟩

/-! ## Frozen classifier and Shatter -/

/-- C9: in the bitmask returned by `mage_spell_t::frozen` the ROOT bit is set iff the target
has target data and its frozen (root) debuff is active, and the WINTERS_CHILL bit is set iff
its Winter's Chill debuff is active, each regardless of the other; the three flags are distinct
single bits; root alone gives exactly one set bit, root plus chill exactly two, and a target
without target data gives 0. -/
theorem frozen_bit_independence (td : Option mage_td_t) :
    ((mage_spell_t.frozen td).testBit frozen_type_e.FROZEN_ROOT.val = true ↔
      ∃ d, td = some d ∧ d.frozen.check ≠ 0) ∧
    ((mage_spell_t.frozen td).testBit frozen_type_e.FROZEN_WINTERS_CHILL.val = true ↔
      ∃ d, td = some d ∧ d.winters_chill.check ≠ 0) ∧
    (mage_spell_t.frozen td &&& FF_ROOT ≠ 0 ↔ ∃ d, td = some d ∧ d.frozen.check ≠ 0) ∧
    (mage_spell_t.frozen td &&& FF_WINTERS_CHILL ≠ 0 ↔
      ∃ d, td = some d ∧ d.winters_chill.check ≠ 0) ∧
    (popcount FF_WINTERS_CHILL 32 = 1 ∧ popcount FF_FINGERS_OF_FROST 32 = 1 ∧
      popcount FF_ROOT 32 = 1) ∧
    (FF_WINTERS_CHILL ≠ FF_FINGERS_OF_FROST ∧ FF_WINTERS_CHILL ≠ FF_ROOT ∧
      FF_FINGERS_OF_FROST ≠ FF_ROOT) ∧
    (∀ d, td = some d → d.frozen.check ≠ 0 → d.winters_chill.check = 0 →
      mage_spell_t.frozen td = FF_ROOT ∧ popcount (mage_spell_t.frozen td) 32 = 1) ∧
    (∀ d, td = some d → d.frozen.check ≠ 0 → d.winters_chill.check ≠ 0 →
      mage_spell_t.frozen td = FF_ROOT ||| FF_WINTERS_CHILL ∧
      popcount (mage_spell_t.frozen td) 32 = 2) ∧
    mage_spell_t.frozen none = 0 := by
  have key : ∀ d : mage_td_t, mage_spell_t.frozen (some d) =
      (if d.winters_chill.check ≠ 0 then 1 else 0) + (if d.frozen.check ≠ 0 then 4 else 0) := by
    intro d
    unfold mage_spell_t.frozen
    by_cases hw : d.winters_chill.check = 0 <;> by_cases hr : d.frozen.check = 0 <;>
      simp [hw, hr, FF_WINTERS_CHILL, FF_ROOT, frozen_type_e.val]
  refine ⟨?_, ?_, ?_, ?_, by decide, by decide, ?_, ?_, rfl⟩
  · cases td with
    | none => simp [mage_spell_t.frozen, frozen_type_e.val]
    | some d =>
      rw [key]
      by_cases hw : d.winters_chill.check = 0 <;> by_cases hr : d.frozen.check = 0 <;>
        simp [hw, hr, frozen_type_e.val] <;> decide
  · cases td with
    | none => simp [mage_spell_t.frozen, frozen_type_e.val]
    | some d =>
      rw [key]
      by_cases hw : d.winters_chill.check = 0 <;> by_cases hr : d.frozen.check = 0 <;>
        simp [hw, hr, frozen_type_e.val]
  · cases td with
    | none => simp [mage_spell_t.frozen]
    | some d =>
      rw [key]
      by_cases hw : d.winters_chill.check = 0 <;> by_cases hr : d.frozen.check = 0 <;>
        simp [hw, hr, FF_ROOT, frozen_type_e.val]
  · cases td with
    | none => simp [mage_spell_t.frozen]
    | some d =>
      rw [key]
      by_cases hw : d.winters_chill.check = 0 <;> by_cases hr : d.frozen.check = 0 <;>
        simp [hw, hr, FF_WINTERS_CHILL, frozen_type_e.val]
  · intro d hd hr hw
    subst hd
    rw [key]
    simp [hw, hr]
    decide
  · intro d hd hr hw
    subst hd
    rw [key]
    simp [hw, hr]
    decide

/-- Instances of C9: root alone, and root plus chill. -/
theorem frozen_bit_independence_witness :
    (mage_spell_t.frozen (some ⟨⟨1⟩, ⟨0⟩⟩) = FF_ROOT ∧
      popcount (mage_spell_t.frozen (some ⟨⟨1⟩, ⟨0⟩⟩)) 32 = 1) ∧
    (mage_spell_t.frozen (some ⟨⟨1⟩, ⟨3⟩⟩) = FF_ROOT ||| FF_WINTERS_CHILL ∧
      popcount (mage_spell_t.frozen (some ⟨⟨1⟩, ⟨3⟩⟩)) 32 = 2) :=
  ⟨(frozen_bit_independence (some ⟨⟨1⟩, ⟨0⟩⟩)).2.2.2.2.2.2.1 _ rfl (by decide) (by decide),
   (frozen_bit_independence (some ⟨⟨1⟩, ⟨3⟩⟩)).2.2.2.2.2.2.2.1 _ rfl (by decide) (by decide)⟩

/-- C10 as stated fails: with a non-zero frozen bitmask and a shatter-eligible action, a mage
without the Shatter specialization spell (`spec.shatter->ok()` false) gets exactly the base crit
chance, not base times 1.5 plus the percentages; and with base 0 and both percentages 0 the
bonus applies without changing the value. -/
theorem shatter_crit_claim_counterexample :
    ((crit_input_t.mk (1 / 10) FF_ROOT true false 0 0).frozen ≠ 0 ∧
      (crit_input_t.mk (1 / 10) FF_ROOT true false 0 0).affected_by_shatter = true ∧
      composite_crit_chance (crit_input_t.mk (1 / 10) FF_ROOT true false 0 0) = 1 / 10 ∧
      composite_crit_chance (crit_input_t.mk (1 / 10) FF_ROOT true false 0 0) ≠
        (1 / 10 : ℚ) * (3 / 2) + (0 + 0)) ∧
    ((crit_input_t.mk 0 FF_ROOT true true 0 0).frozen ≠ 0 ∧
      (crit_input_t.mk 0 FF_ROOT true true 0 0).affected_by_shatter = true ∧
      composite_crit_chance (crit_input_t.mk 0 FF_ROOT true true 0 0) = 0) := by
  refine ⟨⟨by decide, rfl, ?_, ?_⟩, by decide, rfl, ?_⟩
  · simp [composite_crit_chance]
  · simp [composite_crit_chance]
    norm_num
  · simp [composite_crit_chance]

/-- C10 (amended): the result is base crit chance times 1.5 plus the two Shatter percentages
when the frozen bitmask is non-zero, the action is shatter-eligible and the mage has the
Shatter specialization spell; otherwise it is exactly the base crit chance.  So it differs
from the base iff those three conditions hold and half the base plus the two percentages is
not zero. -/
theorem shatter_crit_bonus (i : crit_input_t) :
    (i.frozen ≠ 0 ∧ i.affected_by_shatter = true ∧ i.spec_shatter_ok = true →
      composite_crit_chance i = i.base_crit * (3 / 2) + (i.shatter_pct + i.shatter_2_pct)) ∧
    (¬ (i.frozen ≠ 0 ∧ i.affected_by_shatter = true ∧ i.spec_shatter_ok = true) →
      composite_crit_chance i = i.base_crit) ∧
    (composite_crit_chance i ≠ i.base_crit ↔
      (i.frozen ≠ 0 ∧ i.affected_by_shatter = true ∧ i.spec_shatter_ok = true) ∧
        i.base_crit / 2 + (i.shatter_pct + i.shatter_2_pct) ≠ 0) := by
  have hyes : i.frozen ≠ 0 ∧ i.affected_by_shatter = true ∧ i.spec_shatter_ok = true →
      composite_crit_chance i = i.base_crit * (3 / 2) + (i.shatter_pct + i.shatter_2_pct) := by
    rintro ⟨hf, ha, hs⟩
    simp [composite_crit_chance, hf, ha, hs]
  have hno : ¬ (i.frozen ≠ 0 ∧ i.affected_by_shatter = true ∧ i.spec_shatter_ok = true) →
      composite_crit_chance i = i.base_crit := by
    intro hn
    unfold composite_crit_chance
    by_cases hf : i.frozen = 0
    · simp [hf]
    · by_cases ha : i.affected_by_shatter = true
      · have hs : i.spec_shatter_ok = false := by
          cases h : i.spec_shatter_ok
          · rfl
          · exact absurd ⟨hf, ha, h⟩ hn
        simp [hf, ha, hs]
      · simp [hf, ha]
  refine ⟨hyes, hno, ?_⟩
  by_cases hc : i.frozen ≠ 0 ∧ i.affected_by_shatter = true ∧ i.spec_shatter_ok = true
  · rw [hyes hc]
    constructor
    · intro hne
      refine ⟨hc, fun h0 => hne ?_⟩
      linarith
    · rintro ⟨_, hne⟩ heq
      apply hne
      linarith
  · rw [hno hc]
    constructor
    · intro h; exact absurd rfl h
    · rintro ⟨h, _⟩; exact absurd h hc

/-- Instances of the amended C10, with the bonus and without it. -/
theorem shatter_crit_bonus_witness :
    composite_crit_chance ⟨1 / 10, FF_ROOT, true, true, 1 / 2, 0⟩ =
      (1 / 10 : ℚ) * (3 / 2) + (1 / 2 + 0) ∧
    composite_crit_chance ⟨1 / 10, FF_ROOT, true, false, 0, 0⟩ = 1 / 10 :=
  ⟨(shatter_crit_bonus ⟨1 / 10, FF_ROOT, true, true, 1 / 2, 0⟩).1 (by decide),
   (shatter_crit_bonus ⟨1 / 10, FF_ROOT, true, false, 0, 0⟩).2.1 (by decide)⟩

/-! ## Icicle queue -/

/-- `get_icicle` on an empty queue returns null and changes nothing. -/
theorem get_icicle_nil (m : mage_t) (h : m.icicles = []) : get_icicle m = (none, m) := by
  simp [get_icicle, h]

/-- `get_icicle` on a non-empty queue cancels the front entry's expiration, returns its action
and erases it. -/
theorem get_icicle_cons (m : mage_t) (front : icicle_tuple_t) (rest : List icicle_tuple_t)
    (h : m.icicles = front :: rest) :
    get_icicle m =
      (some front.action, { event_cancel m front.expiration with icicles := rest }) := by
  simp [get_icicle, h]

/-- A single discharge on a non-empty queue. -/
theorem trigger_icicle_single (m : mage_t) (front : icicle_tuple_t) (rest : List icicle_tuple_t)
    (t : Nat) (hok : m.spec_icicles_ok = true) (h : m.icicles = front :: rest) :
    trigger_icicle m t false =
      icicle_t.execute { event_cancel m front.expiration with icicles := rest } front.action t := by
  simp [trigger_icicle, hok, h, get_icicle]

/-- No operation changes the configured capacity. -/
theorem get_icicle_max_icicles (m : mage_t) : (get_icicle m).2.max_icicles = m.max_icicles := by
  unfold get_icicle
  split <;> simp [event_cancel]

/-- The queue after `get_icicle` is the old queue without its front. -/
theorem get_icicle_icicles (m : mage_t) : (get_icicle m).2.icicles = m.icicles.tail := by
  unfold get_icicle
  split <;> simp_all [event_cancel]

/-- `trigger_icicle` keeps the capacity. -/
theorem trigger_icicle_max_icicles (m : mage_t) (t : Nat) (chain : Bool) :
    (trigger_icicle m t chain).max_icicles = m.max_icicles := by
  unfold trigger_icicle
  cases hq : m.icicles with
  | nil => simp [hq]
  | cons f r =>
    cases chain <;> cases m.spec_icicles_ok <;> cases m.icicle_event <;>
      simp [get_icicle, hq, icicle_t.execute, buffs_icicles_decrement, event_cancel]

/-- `trigger_icicle` never lengthens the queue. -/
theorem trigger_icicle_length_le (m : mage_t) (t : Nat) (chain : Bool) :
    (trigger_icicle m t chain).icicles.length ≤ m.icicles.length := by
  unfold trigger_icicle
  cases hq : m.icicles with
  | nil => simp [hq]
  | cons f r =>
    cases chain <;> cases m.spec_icicles_ok <;> cases m.icicle_event <;>
      simp [get_icicle, hq, icicle_t.execute, buffs_icicles_decrement, event_cancel]

/-- `trigger_icicle_gain` keeps the capacity. -/
theorem trigger_icicle_gain_max_icicles (m : mage_t) (t a : Nat) :
    (trigger_icicle_gain m t a).max_icicles = m.max_icicles := by
  unfold trigger_icicle_gain
  cases m.spec_icicles_ok
  · simp
  · by_cases hl : m.icicles.length = m.max_icicles <;>
      simp [hl, make_expiration_event, buffs_icicles_trigger, trigger_icicle_max_icicles]

/-- The queue after `trigger_icicle_gain` on a mage with the Icicles mastery. -/
theorem trigger_icicle_gain_icicles (m : mage_t) (t a : Nat) (hok : m.spec_icicles_ok = true) :
    (trigger_icicle_gain m t a).icicles =
      (if m.icicles.length = m.max_icicles then (trigger_icicle m t false).icicles
        else m.icicles) ++
      [icicle_tuple_t.mk a
        (if m.icicles.length = m.max_icicles then (trigger_icicle m t false).next_handle
          else m.next_handle)] := by
  unfold trigger_icicle_gain
  by_cases hl : m.icicles.length = m.max_icicles <;>
    simp [hok, hl, make_expiration_event, buffs_icicles_trigger]

/-- With a capacity of at least one, `trigger_icicle_gain` keeps the queue within capacity. -/
theorem trigger_icicle_gain_length_le (m : mage_t) (t a : Nat) (hcap : 1 ≤ m.max_icicles)
    (h : m.icicles.length ≤ m.max_icicles) :
    (trigger_icicle_gain m t a).icicles.length ≤ m.max_icicles := by
  cases hok : m.spec_icicles_ok with
  | false => simpa [trigger_icicle_gain, hok] using h
  | true =>
    rw [trigger_icicle_gain_icicles m t a hok]
    by_cases hl : m.icicles.length = m.max_icicles
    · simp only [hl, if_true, List.length_append, List.length_singleton]
      cases hq : m.icicles with
      | nil => rw [hq] at hl; simp at hl; omega
      | cons f r =>
        rw [trigger_icicle_single m f r t hok hq]
        rw [hq] at hl
        simp [icicle_t.execute, buffs_icicles_decrement] at hl ⊢
        omega
    · simp only [hl, if_false, List.length_append, List.length_singleton]
      omega

/-- Firing an expiration keeps the capacity and never lengthens the queue. -/
theorem fire_expiration_bounds (m : mage_t) (h : Nat) :
    (fire_expiration m h).max_icicles = m.max_icicles ∧
    (fire_expiration m h).icicles.length ≤ m.icicles.length := by
  unfold fire_expiration
  split <;> simp [icicle_expiration, buffs_icicles_decrement, event_cancel]

/-- Firing the chain event keeps the capacity and never lengthens the queue. -/
theorem fire_icicle_event_bounds (m : mage_t) (sleeping : Bool) :
    (fire_icicle_event m sleeping).max_icicles = m.max_icicles ∧
    (fire_icicle_event m sleeping).icicles.length ≤ m.icicles.length := by
  unfold fire_icicle_event
  cases m.icicle_event with
  | none => simp
  | some e =>
    simp only [icicle_event_t.execute]
    cases sleeping
    · cases hq : m.icicles with
      | nil => simp [get_icicle, hq]
      | cons f r =>
        simp only [get_icicle, hq]
        constructor
        · simp only [Bool.false_eq_true, if_false]
          split <;> simp [icicle_t.execute, buffs_icicles_decrement, event_cancel]
        · simp only [Bool.false_eq_true, if_false]
          split <;> simp [icicle_t.execute, buffs_icicles_decrement, event_cancel]
    · simp

/-- The inherited execute leaves the icicle members alone or is one Lucid Dreams gain. -/
theorem mage_spell_execute_cases (m : mage_t) (ld : lucid_dreams_t) (a : spell_cast_t) :
    mage_spell_t.execute m ld a = m ∨
    mage_spell_t.execute m ld a = trigger_icicle_gain m a.target ld.icicle_lucid_dreams := by
  unfold mage_spell_t.execute mage_spell_t.consume_resource trigger_lucid_dreams
  cases ld.specialization <;> split_ifs <;> simp

/-- The draining loop keeps the capacity and never lengthens the queue. -/
theorem glacial_spike_drain_bounds (fuel : Nat) (m : mage_t) :
    (glacial_spike_drain fuel m).max_icicles = m.max_icicles ∧
    (glacial_spike_drain fuel m).icicles.length ≤ m.icicles.length := by
  induction fuel generalizing m with
  | zero => simp [glacial_spike_drain]
  | succ n ih =>
    simp only [glacial_spike_drain]
    split
    · simp
    · have h := ih (get_icicle m).2
      rw [get_icicle_max_icicles, get_icicle_icicles] at h
      refine ⟨h.1, le_trans h.2 ?_⟩
      simp

/-- No step changes the configured capacity. -/
theorem icicle_op_max_icicles (m : mage_t) (op : icicle_op) :
    (op.perform m).max_icicles = m.max_icicles := by
  cases op with
  | gain t a => exact trigger_icicle_gain_max_icicles m t a
  | trigger t chain => exact trigger_icicle_max_icicles m t chain
  | chain_tick sleeping => exact (fire_icicle_event_bounds m sleeping).1
  | expire h => exact (fire_expiration_bounds m h).1
  | glacial_spike ld a =>
    simp only [icicle_op.perform, glacial_spike_t.execute]
    rw [(glacial_spike_drain_bounds _ _).1]
    show (mage_spell_t.execute m ld a).max_icicles = m.max_icicles
    rcases mage_spell_execute_cases m ld a with h | h
    · rw [h]
    · rw [h]
      exact trigger_icicle_gain_max_icicles m _ _
  | advance now => rfl

/-- With a capacity of at least one, every step keeps the queue within capacity. -/
theorem icicle_op_length_le (m : mage_t) (op : icicle_op) (hcap : 1 ≤ m.max_icicles)
    (h : m.icicles.length ≤ m.max_icicles) :
    (op.perform m).icicles.length ≤ m.max_icicles := by
  cases op with
  | gain t a => exact trigger_icicle_gain_length_le m t a hcap h
  | trigger t chain => exact le_trans (trigger_icicle_length_le m t chain) h
  | chain_tick sleeping => exact le_trans (fire_icicle_event_bounds m sleeping).2 h
  | expire e => exact le_trans (fire_expiration_bounds m e).2 h
  | glacial_spike ld a =>
    simp only [icicle_op.perform, glacial_spike_t.execute]
    refine le_trans (glacial_spike_drain_bounds _ _).2 ?_
    show (mage_spell_t.execute m ld a).icicles.length ≤ m.max_icicles
    rcases mage_spell_execute_cases m ld a with h1 | h1
    · rw [h1]
      exact h
    · rw [h1]
      exact trigger_icicle_gain_length_le m _ _ hcap h
  | advance now => exact h

/-- The capacity bound is an invariant of every run. -/
theorem icicle_run_bounds (m : mage_t) (ops : List icicle_op) (hcap : 1 ≤ m.max_icicles)
    (h : m.icicles.length ≤ m.max_icicles) :
    (icicle_run m ops).max_icicles = m.max_icicles ∧
    (icicle_run m ops).icicles.length ≤ m.max_icicles := by
  induction ops generalizing m with
  | nil => exact ⟨rfl, h⟩
  | cons op ops ih =>
    have hm := icicle_op_max_icicles m op
    have hl := icicle_op_length_le m op hcap h
    have := ih (op.perform m) (by rw [hm]; exact hcap) (by rw [hm]; exact hl)
    simpa [icicle_run, hm] using this

/-- The states of a trace are the states reached by the prefixes of the run. -/
theorem mem_icicle_trace (m m' : mage_t) (ops : List icicle_op) (h : m' ∈ icicle_trace m ops) :
    ∃ n, m' = icicle_run m (ops.take n) := by
  induction ops generalizing m with
  | nil => simp [icicle_trace] at h
  | cons op ops ih =>
    simp only [icicle_trace, List.mem_cons] at h
    rcases h with h | h
    · exact ⟨1, by simp [h, icicle_run]⟩
    · obtain ⟨n, hn⟩ := ih _ h
      exact ⟨n + 1, by simp [hn, icicle_run]⟩

/-- C1: with a capacity of at least one and an empty queue to start from, after every step of
every sequence of gains, discharges, chain starts and ticks, expirations and Glacial Spikes
the queue is no longer than the capacity, and the assertion that ends `trigger_icicle_gain`
holds whenever a gain follows. -/
theorem icicle_capacity_invariant (m : mage_t) (ops : List icicle_op)
    (hcap : 1 ≤ m.max_icicles) (hempty : m.icicles = []) :
    (∀ m' ∈ icicle_trace m ops, m'.icicles.length ≤ m.max_icicles) ∧
    (∀ t a, trigger_icicle_gain_assertion (trigger_icicle_gain (icicle_run m ops) t a) = true) := by
  have h0 : m.icicles.length ≤ m.max_icicles := by simp [hempty]
  constructor
  · intro m' hm'
    obtain ⟨n, rfl⟩ := mem_icicle_trace m m' ops hm'
    exact (icicle_run_bounds m _ hcap h0).2
  · intro t a
    have hr := icicle_run_bounds m ops hcap h0
    have := trigger_icicle_gain_length_le (icicle_run m ops) t a (by rw [hr.1]; exact hcap)
      (by rw [hr.1]; exact hr.2)
    simp only [trigger_icicle_gain_assertion, decide_eq_true_eq]
    rw [trigger_icicle_gain_max_icicles]
    exact this

/-- An instance of C1 with its hypotheses discharged. -/
theorem icicle_capacity_invariant_witness :
    1 ≤ (mage_t.init true 2 60000 1 0).max_icicles ∧ (mage_t.init true 2 60000 1 0).icicles = [] ∧
    (∀ m' ∈ icicle_trace (mage_t.init true 2 60000 1 0)
        [.gain 1 10, .gain 1 11, .gain 2 12, .expire 1, .trigger 1 true, .chain_tick false],
      m'.icicles.length ≤ (mage_t.init true 2 60000 1 0).max_icicles) :=
  ⟨by decide, rfl,
   (icicle_capacity_invariant (mage_t.init true 2 60000 1 0)
      [.gain 1 10, .gain 1 11, .gain 2 12, .expire 1, .trigger 1 true, .chain_tick false]
      (by decide) rfl).1⟩

/-- C2: for a mage with the Icicles mastery, a gain with the queue at capacity executes
exactly one stored action, that of the front entry, while the queue is the old queue without
its front, and then pushes the new entry; a gain below capacity executes nothing and only
appends.  With capacity 2, gaining X, Y, Z from an empty queue executes X once and leaves
[Y, Z]. -/
theorem icicle_gain_overflow (m : mage_t) (t a : Nat) (hok : m.spec_icicles_ok = true) :
    (∀ front rest, m.icicles = front :: rest → m.icicles.length = m.max_icicles →
      (trigger_icicle m t false).executed = m.executed ++ [(front.action, t)] ∧
      (trigger_icicle m t false).icicles = rest ∧
      (trigger_icicle_gain m t a).executed = m.executed ++ [(front.action, t)] ∧
      (trigger_icicle_gain m t a).icicles = rest ++ [icicle_tuple_t.mk a m.next_handle]) ∧
    (m.icicles.length < m.max_icicles →
      (trigger_icicle_gain m t a).executed = m.executed ∧
      (trigger_icicle_gain m t a).icicles = m.icicles ++ [icicle_tuple_t.mk a m.next_handle]) ∧
    (∀ t1 t2 x y z, m.icicles = [] → m.max_icicles = 2 →
      (icicle_run m [.gain t1 x, .gain t2 y, .gain t z]).executed = m.executed ++ [(x, t)] ∧
      (icicle_run m [.gain t1 x, .gain t2 y, .gain t z]).icicles.map (fun i => i.action) =
        [y, z]) := by
  refine ⟨?_, ?_, ?_⟩
  · intro front rest hq hl
    rw [trigger_icicle_single m front rest t hok hq]
    refine ⟨?_, ?_, ?_, ?_⟩
    · simp [icicle_t.execute, buffs_icicles_decrement, event_cancel]
    · simp [icicle_t.execute, buffs_icicles_decrement, event_cancel]
    · simp [trigger_icicle_gain, hok, hl, trigger_icicle_single m front rest t hok hq,
        icicle_t.execute, buffs_icicles_decrement, event_cancel, make_expiration_event,
        buffs_icicles_trigger]
    · simp [trigger_icicle_gain, hok, hl, trigger_icicle_single m front rest t hok hq,
        icicle_t.execute, buffs_icicles_decrement, event_cancel, make_expiration_event,
        buffs_icicles_trigger]
  · intro hl
    have hne : ¬ m.icicles.length = m.max_icicles := by omega
    simp [trigger_icicle_gain, hok, hne, make_expiration_event, buffs_icicles_trigger]
  · intro t1 t2 x y z hq hcap
    simp [icicle_run, icicle_op.perform, trigger_icicle_gain, trigger_icicle, get_icicle, hok, hq,
      hcap, make_expiration_event, buffs_icicles_trigger, icicle_t.execute,
      buffs_icicles_decrement, event_cancel]

/-- Instances of C2: the capacity-2 scenario, its third gain (at capacity) and its second
gain (below capacity). -/
theorem icicle_gain_overflow_witness :
    ((icicle_run (mage_t.init true 2 60000 1 0) [.gain 1 10, .gain 1 11, .gain 1 12]).executed =
        (mage_t.init true 2 60000 1 0).executed ++ [(10, 1)] ∧
      (icicle_run (mage_t.init true 2 60000 1 0)
        [.gain 1 10, .gain 1 11, .gain 1 12]).icicles.map (fun i => i.action) = [11, 12]) ∧
    ((trigger_icicle_gain (icicle_run (mage_t.init true 2 60000 1 0) [.gain 1 10, .gain 1 11])
        1 12).executed = [(10, 1)] ∧
      (trigger_icicle_gain (icicle_run (mage_t.init true 2 60000 1 0) [.gain 1 10, .gain 1 11])
        1 12).icicles = [icicle_tuple_t.mk 11 1, icicle_tuple_t.mk 12 2]) ∧
    ((trigger_icicle_gain (icicle_run (mage_t.init true 2 60000 1 0) [.gain 1 10])
        1 11).executed = [] ∧
      (trigger_icicle_gain (icicle_run (mage_t.init true 2 60000 1 0) [.gain 1 10])
        1 11).icicles = [icicle_tuple_t.mk 10 0, icicle_tuple_t.mk 11 1]) :=
  ⟨(icicle_gain_overflow (mage_t.init true 2 60000 1 0) 1 0 rfl).2.2 1 1 10 11 12 rfl rfl,
   ⟨((icicle_gain_overflow (icicle_run (mage_t.init true 2 60000 1 0) [.gain 1 10, .gain 1 11])
        1 12 rfl).1 (icicle_tuple_t.mk 10 0) [icicle_tuple_t.mk 11 1] rfl rfl).2.2.1,
    ((icicle_gain_overflow (icicle_run (mage_t.init true 2 60000 1 0) [.gain 1 10, .gain 1 11])
        1 12 rfl).1 (icicle_tuple_t.mk 10 0) [icicle_tuple_t.mk 11 1] rfl rfl).2.2.2⟩,
   (icicle_gain_overflow (icicle_run (mage_t.init true 2 60000 1 0) [.gain 1 10])
      1 11 rfl).2.1 (by decide)⟩

/-- A single discharge keeps the mastery flag. -/
theorem trigger_icicle_spec_ok (m : mage_t) (t : Nat) (chain : Bool) :
    (trigger_icicle m t chain).spec_icicles_ok = m.spec_icicles_ok := by
  unfold trigger_icicle
  cases hq : m.icicles with
  | nil => simp [hq]
  | cons f r =>
    cases chain <;> cases hs : m.spec_icicles_ok <;> cases he : m.icicle_event <;>
      simp [get_icicle, hq, hs, icicle_t.execute, buffs_icicles_decrement, event_cancel]

/-- A gain below the capacity executes nothing and appends the new entry. -/
theorem trigger_icicle_gain_below (m : mage_t) (t a : Nat) (hok : m.spec_icicles_ok = true)
    (hl : m.icicles.length < m.max_icicles) :
    (trigger_icicle_gain m t a).executed = m.executed ∧
    (trigger_icicle_gain m t a).icicles = m.icicles ++ [icicle_tuple_t.mk a m.next_handle] := by
  have hne : ¬ m.icicles.length = m.max_icicles := by omega
  simp [trigger_icicle_gain, hok, hne, make_expiration_event, buffs_icicles_trigger]

/-- Gains that fit below the capacity only append, in order, and execute nothing. -/
theorem icicle_run_gains (gs : List (Nat × Nat)) (m : mage_t) (hok : m.spec_icicles_ok = true)
    (hfit : m.icicles.length + gs.length ≤ m.max_icicles) :
    (icicle_run m (gs.map (fun g => icicle_op.gain g.1 g.2))).icicles.map (fun i => i.action) =
      m.icicles.map (fun i => i.action) ++ gs.map (fun g => g.2) ∧
    (icicle_run m (gs.map (fun g => icicle_op.gain g.1 g.2))).executed = m.executed ∧
    (icicle_run m (gs.map (fun g => icicle_op.gain g.1 g.2))).spec_icicles_ok = true := by
  induction gs generalizing m with
  | nil => simp [icicle_run, hok]
  | cons g gs ih =>
    simp only [List.length_cons] at hfit
    have hlt : m.icicles.length < m.max_icicles := by omega
    have hne : ¬ m.icicles.length = m.max_icicles := by omega
    have hg := trigger_icicle_gain_below m g.1 g.2 hok hlt
    have hok' : (trigger_icicle_gain m g.1 g.2).spec_icicles_ok = true := by
      simp [trigger_icicle_gain, hok, hne, make_expiration_event, buffs_icicles_trigger]
    have hmax := trigger_icicle_gain_max_icicles m g.1 g.2
    have := ih (trigger_icicle_gain m g.1 g.2) hok' (by
      rw [hmax, hg.2]; simp only [List.length_append, List.length_singleton]; omega)
    simp only [List.map_cons, icicle_run, icicle_op.perform]
    rw [this.1, this.2.1, hg.1, hg.2]
    simp [this.2.2]

/-- Successive single discharges execute the stored actions front to back, each against the
target of its call, and empty the queue. -/
theorem icicle_run_discharges (ts : List Nat) (m : mage_t) (hok : m.spec_icicles_ok = true)
    (hlen : ts.length = m.icicles.length) :
    (icicle_run m (ts.map (fun t => icicle_op.trigger t false))).executed =
      m.executed ++ (m.icicles.map (fun i => i.action)).zip ts ∧
    (icicle_run m (ts.map (fun t => icicle_op.trigger t false))).icicles = [] := by
  induction ts generalizing m with
  | nil =>
    have : m.icicles = [] := by
      cases hq : m.icicles with
      | nil => rfl
      | cons f r => rw [hq] at hlen; simp at hlen
    simp [icicle_run, this]
  | cons t ts ih =>
    cases hq : m.icicles with
    | nil => rw [hq] at hlen; simp at hlen
    | cons f r =>
      rw [hq] at hlen
      simp only [List.length_cons, Nat.add_right_cancel_iff] at hlen
      have hstep := trigger_icicle_single m f r t hok hq
      have hok' : (trigger_icicle m t false).spec_icicles_ok = true := by
        rw [trigger_icicle_spec_ok]; exact hok
      have hq' : (trigger_icicle m t false).icicles = r := by
        rw [hstep]; simp [icicle_t.execute, buffs_icicles_decrement, event_cancel]
      have hex : (trigger_icicle m t false).executed = m.executed ++ [(f.action, t)] := by
        rw [hstep]; simp [icicle_t.execute, buffs_icicles_decrement, event_cancel]
      have := ih (trigger_icicle m t false) hok' (by rw [hq']; exact hlen)
      simp only [List.map_cons, icicle_run, icicle_op.perform]
      rw [this.1, this.2, hex, hq']
      simp

/-- Successive `get_icicle` calls return the stored actions front to back and empty the
queue. -/
theorem get_icicle_n_returns (m : mage_t) :
    (get_icicle_n m.icicles.length m).1 = m.icicles.map (fun i => some i.action) ∧
    (get_icicle_n m.icicles.length m).2.icicles = [] := by
  generalize hn : m.icicles.length = n
  induction n generalizing m with
  | zero =>
    have : m.icicles = [] := List.length_eq_zero.mp hn
    simp [get_icicle_n, this]
  | succ n ih =>
    cases hq : m.icicles with
    | nil => rw [hq] at hn; simp at hn
    | cons f r =>
      rw [hq] at hn
      simp only [List.length_cons, Nat.add_right_cancel_iff] at hn
      have hg := get_icicle_cons m f r hq
      have := ih (get_icicle m).2 (by rw [hg]; exact hn)
      simp only [get_icicle_n, this.1, this.2]
      simp [hg]

/-- C3: for a mage with the Icicles mastery and an empty queue, after gaining actions
a1..an with n within the capacity the queue holds exactly a1..an; n successive `get_icicle`
calls return a1..an in that order, n successive single discharges execute a1..an in that
order (each against the target of its call), and either way the queue ends empty. -/
theorem icicle_fifo (m : mage_t) (gs : List (Nat × Nat)) (ts : List Nat)
    (hok : m.spec_icicles_ok = true) (hempty : m.icicles = [])
    (hfit : gs.length ≤ m.max_icicles) (hlen : ts.length = gs.length) :
    (icicle_run m (gs.map (fun g => icicle_op.gain g.1 g.2))).icicles.map (fun i => i.action) =
      gs.map (fun g => g.2) ∧
    (get_icicle_n gs.length (icicle_run m (gs.map (fun g => icicle_op.gain g.1 g.2)))).1 =
      gs.map (fun g => some g.2) ∧
    (get_icicle_n gs.length (icicle_run m (gs.map (fun g => icicle_op.gain g.1 g.2)))).2.icicles =
      [] ∧
    (icicle_run m (gs.map (fun g => icicle_op.gain g.1 g.2) ++
        ts.map (fun t => icicle_op.trigger t false))).executed =
      m.executed ++ (gs.map (fun g => g.2)).zip ts ∧
    (icicle_run m (gs.map (fun g => icicle_op.gain g.1 g.2) ++
        ts.map (fun t => icicle_op.trigger t false))).icicles = [] := by
  have hg := icicle_run_gains gs m hok (by simp [hempty]; exact hfit)
  simp only [hempty, List.map_nil, List.nil_append] at hg
  have hl : (icicle_run m (gs.map (fun g => icicle_op.gain g.1 g.2))).icicles.length =
      gs.length := by
    have := congrArg List.length hg.1
    simpa using this
  have hr := get_icicle_n_returns (icicle_run m (gs.map (fun g => icicle_op.gain g.1 g.2)))
  rw [hl] at hr
  have hd := icicle_run_discharges ts (icicle_run m (gs.map (fun g => icicle_op.gain g.1 g.2)))
    hg.2.2 (by rw [hl]; exact hlen)
  have happ : ∀ (ops1 ops2 : List icicle_op) (m0 : mage_t),
      icicle_run m0 (ops1 ++ ops2) = icicle_run (icicle_run m0 ops1) ops2 := by
    intro ops1 ops2
    induction ops1 with
    | nil => intro m0; rfl
    | cons o os ih => intro m0; simp [icicle_run, ih]
  refine ⟨hg.1, ?_, hr.2, ?_, ?_⟩
  · rw [hr.1]
    have := congrArg (List.map some) hg.1
    simpa using this
  · rw [happ, hd.1, hg.1, hg.2.1]
  · rw [happ, hd.2]

/-- An instance of C3 with its hypotheses discharged. -/
theorem icicle_fifo_witness :
    (get_icicle_n 3 (icicle_run (mage_t.init true 5 60000 1 0)
        [.gain 1 10, .gain 1 11, .gain 2 12])).1 = [some 10, some 11, some 12] ∧
    (icicle_run (mage_t.init true 5 60000 1 0)
        [.gain 1 10, .gain 1 11, .gain 2 12, .trigger 7 false, .trigger 8 false,
          .trigger 9 false]).executed = [(10, 7), (11, 8), (12, 9)] ∧
    (icicle_run (mage_t.init true 5 60000 1 0)
        [.gain 1 10, .gain 1 11, .gain 2 12, .trigger 7 false, .trigger 8 false,
          .trigger 9 false]).icicles = [] :=
  ⟨(icicle_fifo (mage_t.init true 5 60000 1 0) [(1, 10), (1, 11), (2, 12)] [7, 8, 9]
      rfl rfl (by decide) rfl).2.1,
   (icicle_fifo (mage_t.init true 5 60000 1 0) [(1, 10), (1, 11), (2, 12)] [7, 8, 9]
      rfl rfl (by decide) rfl).2.2.2.1,
   (icicle_fifo (mage_t.init true 5 60000 1 0) [(1, 10), (1, 11), (2, 12)] [7, 8, 9]
      rfl rfl (by decide) rfl).2.2.2.2⟩

/-! ## Ignite spread -/

/-- Banks are non-negative everywhere when they are for every listed target. -/
theorem bank_at_nonneg (tl : List target_t) (h : ∀ t ∈ tl, 0 ≤ ignite_bank t.ignite) (i : Nat) :
    0 ≤ bank_at tl i := by
  unfold bank_at dot_at
  cases hi : tl[i]? with
  | none => simp [ignite_bank, dot_t.idle, dot_t.is_ticking]
  | some t => exact h t (List.getElem?_mem hi)

/-- Cloning a dot onto `destination` leaves every other dot as it was. -/
theorem dot_at_dot_copy_ne (tl : List target_t) (source destination i : Nat)
    (h : i ≠ destination) : dot_at (dot_copy tl source destination) i = dot_at tl i := by
  unfold dot_copy
  cases hd : tl[destination]? with
  | none => rfl
  | some t =>
    simp only [dot_at]
    rw [List.getElem?_set_ne (Ne.symm h)]

/-- Cloning a dot onto a listed `destination` makes its dot equal to the source's. -/
theorem dot_at_dot_copy_self (tl : List target_t) (source destination : Nat)
    (h : destination < tl.length) :
    dot_at (dot_copy tl source destination) destination = dot_at tl source := by
  unfold dot_copy
  rw [List.getElem?_eq_getElem h]
  simp [dot_at, h]

/-- The skipping loop never moves the index up, and it stops on a candidate whose bank differs
from the source's. -/
theorem skip_equal_spec (tl : List target_t) (candidates : List Nat) (source_bank : ℚ)
    (n : Nat) :
    skip_equal tl candidates source_bank n ≤ n ∧
    (0 < skip_equal tl candidates source_bank n →
      bank_at tl (candidates.getD (skip_equal tl candidates source_bank n - 1) 0) ≠
        source_bank) := by
  induction n with
  | zero => simp [skip_equal]
  | succ n ih =>
    simp only [skip_equal]
    split
    · exact ⟨Nat.le_succ_of_le ih.1, ih.2⟩
    · rename_i hne
      exact ⟨le_refl _, fun _ => by simpa using hne⟩

/-- The value drawn by `rng().range( max )` is at most `max`, and below it unless `max` is 0. -/
theorem rng_range_le (st : spread_state_t) (max : Nat) :
    (rng_range st max).1 ≤ max ∧ (0 < max → (rng_range st max).1 < max) := by
  unfold rng_range
  by_cases h : max = 0
  · simp [h]
  · have hpos : 0 < max := Nat.pos_of_ne_zero h
    simp only [h, if_false]
    exact ⟨le_of_lt (Nat.mod_lt _ hpos), fun _ => Nat.mod_lt _ hpos⟩

/-- An iteration with no candidate: the source just joins the candidates. -/
theorem spread_iteration_no_candidates (st : spread_state_t) (init : List Nat) (source : Nat)
    (hact : st.active_ignites = init ++ [source]) (hc : st.candidates = []) :
    spread_iteration st = { st with active_ignites := init, candidates := [source] } := by
  unfold spread_iteration
  simp [hact, hc]

/-- An iteration in which every candidate is skipped: the source is dropped. -/
theorem spread_iteration_all_skipped (st : spread_state_t) (init : List Nat) (source : Nat)
    (hact : st.active_ignites = init ++ [source]) (hc : st.candidates ≠ [])
    (hskip : skip_equal st.tl st.candidates (bank_at st.tl source) st.candidates.length = 0) :
    spread_iteration st = { st with active_ignites := init } := by
  unfold spread_iteration
  simp [hact, hc, hskip]

/-- An iteration that spreads: what it leaves in each member of the state.  `index` is the
drawn position and the destination is the candidate there. -/
theorem spread_iteration_spread (st : spread_state_t) (init : List Nat) (source k : Nat)
    (hact : st.active_ignites = init ++ [source]) (hc : st.candidates ≠ [])
    (hskip : skip_equal st.tl st.candidates (bank_at st.tl source) st.candidates.length = k + 1) :
    (spread_iteration st).active_ignites = init ∧
    (spread_iteration st).candidates =
      st.candidates.eraseIdx (rng_range st k).1 ++ [source] ∧
    (spread_iteration st).tl =
      dot_copy st.tl source (st.candidates.getD (rng_range st k).1 0) ∧
    (spread_iteration st).spreads = st.spreads ++
      [spread_t.mk source (st.candidates.getD (rng_range st k).1 0) (bank_at st.tl source)
        (bank_at st.tl (st.candidates.getD (rng_range st k).1 0))
        (dot_at st.tl (st.candidates.getD (rng_range st k).1 0)).is_ticking] ∧
    (spread_iteration st).draws = st.draws.tail := by
  simp only [spread_iteration, hact, List.getLast?_append, List.getLast?_singleton,
    List.dropLast_concat, hskip]
  simp [hc, hskip, rng_range]
  split_ifs <;> simp

/-- A list is a rearrangement of any of its elements followed by the rest. -/
theorem perm_getD_cons_eraseIdx (l : List Nat) (n : Nat) (h : n < l.length) :
    l.Perm (l.getD n 0 :: l.eraseIdx n) := by
  induction l generalizing n with
  | nil => simp at h
  | cons a t ih =>
    cases n with
    | zero => simp
    | succ n =>
      simp only [List.length_cons, Nat.add_lt_add_iff_right] at h
      have := ih n h
      simp only [List.getD_cons_succ, List.eraseIdx_cons_succ]
      exact (List.Perm.cons a this).trans (List.Perm.swap _ _ _)

/-- One iteration of the spread loop keeps the past destinations, the active ignites and the
candidates free of repetitions. -/
theorem spread_iteration_distinct (st : spread_state_t) (h : spread_distinct st) :
    spread_distinct (spread_iteration st) := by
  cases hlast : st.active_ignites.getLast? with
  | none =>
    have : spread_iteration st = st := by simp [spread_iteration, hlast]
    rw [this]; exact h
  | some source =>
    have hact : st.active_ignites = st.active_ignites.dropLast ++ [source] :=
      (List.dropLast_append_getLast? _ hlast).symm
    generalize st.active_ignites.dropLast = init at hact
    have hnd := h
    unfold spread_distinct at hnd ⊢
    rw [hact] at hnd
    by_cases hc : st.candidates = []
    · rw [spread_iteration_no_candidates st init source hact hc]
      rw [hc] at hnd
      simpa using hnd
    · cases hskip : skip_equal st.tl st.candidates (bank_at st.tl source) st.candidates.length with
      | zero =>
        rw [spread_iteration_all_skipped st init source hact hc hskip]
        refine List.Nodup.sublist ?_ hnd
        apply List.Sublist.append_left
        apply List.Sublist.append_right
        simp
      | succ k =>
        obtain ⟨ha', hc', _, hs', _⟩ := spread_iteration_spread st init source k hact hc hskip
        have hspec := skip_equal_spec st.tl st.candidates (bank_at st.tl source)
          st.candidates.length
        rw [hskip] at hspec
        have hk : k < st.candidates.length := hspec.1
        have hidx_lt : (rng_range st k).1 < st.candidates.length :=
          lt_of_le_of_lt (rng_range_le st k).1 hk
        have hperm := perm_getD_cons_eraseIdx st.candidates _ hidx_lt
        rw [hs', ha', hc']
        refine (List.Perm.nodup_iff ?_).mp hnd
        have h1 : (st.spreads.map (fun r => r.destination) ++
            (init ++ [source] ++ st.candidates)).Perm
            (st.spreads.map (fun r => r.destination) ++
              (init ++ [source] ++ (st.candidates.getD (rng_range st k).1 0 ::
                st.candidates.eraseIdx (rng_range st k).1))) :=
          List.Perm.append_left _ (List.Perm.append_left _ hperm)
        refine h1.trans ?_
        rw [List.perm_iff_count]
        intro a
        simp only [List.map_append, List.map_cons, List.map_nil, List.count_append,
          List.count_cons, List.count_nil]
        omega

/-- One iteration of the spread loop preserves the loop invariant. -/
theorem spread_iteration_inv (b0 : Nat → ℚ) (st : spread_state_t) (h : spread_inv b0 st) :
    spread_inv b0 (spread_iteration st) := by
  cases hlast : st.active_ignites.getLast? with
  | none =>
    have : spread_iteration st = st := by simp [spread_iteration, hlast]
    rw [this]; exact h
  | some source =>
    have hact : st.active_ignites = st.active_ignites.dropLast ++ [source] :=
      (List.dropLast_append_getLast? _ hlast).symm
    generalize st.active_ignites.dropLast = init at hact
    have hsorted := h.active_sorted
    rw [hact, List.pairwise_append] at hsorted
    have hsrc_le : ∀ a ∈ init, b0 source ≤ b0 a := fun a ha => hsorted.2.2 a ha source (by simp)
    have hsrc_mem : source ∈ st.active_ignites := by rw [hact]; simp
    have hinit_sub : ∀ a ∈ init, a ∈ st.active_ignites := fun a ha => by rw [hact]; simp [ha]
    have hc_le_src : ∀ c ∈ st.candidates, b0 c ≤ b0 source :=
      fun c hc => h.candidates_le c hc source hsrc_mem
    have hnd := h.nodup
    unfold spread_distinct at hnd
    rw [hact] at hnd
    have hbank_src : bank_at st.tl source = b0 source :=
      h.banks source (List.mem_append_left _ hsrc_mem)
    by_cases hc : st.candidates = []
    · rw [spread_iteration_no_candidates st init source hact hc]
      rw [hc] at hnd
      refine ⟨hsorted.1, by simp, ?_, ?_, ?_, h.spreads_lt, h.spreads_source⟩
      · intro c hcm a ha
        simp only [List.mem_singleton] at hcm
        subst hcm
        exact hsrc_le a ha
      · simpa [spread_distinct] using hnd
      · intro i hi
        apply h.banks
        simp only [List.mem_append, List.mem_singleton] at hi
        rcases hi with hi | hi
        · exact List.mem_append_left _ (hinit_sub i hi)
        · subst hi; exact List.mem_append_left _ hsrc_mem
    · cases hskip : skip_equal st.tl st.candidates (bank_at st.tl source) st.candidates.length with
      | zero =>
        rw [spread_iteration_all_skipped st init source hact hc hskip]
        refine ⟨hsorted.1, h.candidates_sorted, ?_, ?_, ?_, h.spreads_lt, h.spreads_source⟩
        · intro c hcm a ha
          exact h.candidates_le c hcm a (hinit_sub a ha)
        · refine List.Nodup.sublist ?_ hnd
          apply List.Sublist.append_left
          apply List.Sublist.append_right
          simp
        · intro i hi
          apply h.banks
          simp only [List.mem_append] at hi ⊢
          rcases hi with hi | hi
          · exact Or.inl (hinit_sub i hi)
          · exact Or.inr hi
      | succ k =>
        obtain ⟨ha', hc', htl', hs', _⟩ := spread_iteration_spread st init source k hact hc hskip
        have hspec := skip_equal_spec st.tl st.candidates (bank_at st.tl source)
          st.candidates.length
        rw [hskip] at hspec
        have hk : k < st.candidates.length := hspec.1
        have hidx : (rng_range st k).1 ≤ k := (rng_range_le st k).1
        have hidx_lt : (rng_range st k).1 < st.candidates.length := lt_of_le_of_lt hidx hk
        generalize (rng_range st k).1 = idx at ha' hc' htl' hs' hidx hidx_lt
        have hlast_ne : b0 (st.candidates.getD k 0) ≠ b0 source := by
          have := hspec.2 (Nat.succ_pos k)
          simp only [Nat.add_sub_cancel] at this
          rw [hbank_src, h.banks _ (List.mem_append_right _ (by
            rw [List.getD_eq_getElem _ _ hk]; exact List.getElem_mem _))] at this
          exact this
        have hk_mem : st.candidates.getD k 0 ∈ st.candidates := by
          rw [List.getD_eq_getElem _ _ hk]; exact List.getElem_mem _
        have hd_mem : st.candidates.getD idx 0 ∈ st.candidates := by
          rw [List.getD_eq_getElem _ _ hidx_lt]; exact List.getElem_mem _
        have hd_le : b0 (st.candidates.getD idx 0) ≤ b0 (st.candidates.getD k 0) := by
          rcases Nat.lt_or_eq_of_le hidx with hlt | heq
          · rw [List.getD_eq_getElem _ _ hk, List.getD_eq_getElem _ _ hidx_lt]
            exact (List.pairwise_iff_getElem.mp h.candidates_sorted) idx k hidx_lt hk hlt
          · rw [heq]
        have hd_lt : b0 (st.candidates.getD idx 0) < b0 source :=
          lt_of_le_of_lt hd_le (lt_of_le_of_ne (hc_le_src _ hk_mem) hlast_ne)
        generalize st.candidates.getD idx 0 = dest at htl' hs' hd_mem hd_lt
        have hnd' : (st.spreads.map (fun r => r.destination) ++ [dest] ++
            (init ++ (st.candidates.eraseIdx idx ++ [source]))).Nodup := by
          have := spread_iteration_distinct st h.nodup
          unfold spread_distinct at this
          rw [hs', ha', hc'] at this
          simpa using this
        have hmem_ne : ∀ i ∈ init ++ (st.candidates.eraseIdx idx ++ [source]), i ≠ dest := by
          intro i hi hid
          subst hid
          rw [List.nodup_append] at hnd'
          exact hnd'.2.2 (by simp) hi
        have hmem_old : ∀ i ∈ init ++ (st.candidates.eraseIdx idx ++ [source]),
            i ∈ st.active_ignites ++ st.candidates := by
          intro i hi
          simp only [List.mem_append, List.mem_singleton] at hi ⊢
          rcases hi with hi | hi | hi
          · exact Or.inl (hinit_sub i hi)
          · exact Or.inr (List.mem_of_mem_eraseIdx hi)
          · subst hi; exact Or.inl hsrc_mem
        refine ⟨?_, ?_, ?_, ?_, ?_, ?_, ?_⟩
        · rw [ha']; exact hsorted.1
        · rw [hc', List.pairwise_append]
          refine ⟨List.Pairwise.sublist (List.eraseIdx_sublist _ _) h.candidates_sorted,
            by simp, ?_⟩
          intro c hcm s hs
          simp only [List.mem_singleton] at hs
          subst hs
          exact hc_le_src c (List.mem_of_mem_eraseIdx hcm)
        · rw [hc', ha']
          intro c hcm a ha
          simp only [List.mem_append, List.mem_singleton] at hcm
          rcases hcm with hcm | hcm
          · exact h.candidates_le c (List.mem_of_mem_eraseIdx hcm) a (hinit_sub a ha)
          · subst hcm; exact hsrc_le a ha
        · exact spread_iteration_distinct st h.nodup
        · rw [ha', hc', htl']
          intro i hi
          unfold bank_at
          rw [dot_at_dot_copy_ne _ _ _ _ (hmem_ne i hi)]
          exact h.banks i (hmem_old i hi)
        · rw [hs']
          intro r hr
          simp only [List.mem_append, List.mem_singleton] at hr
          rcases hr with hr | hr
          · exact h.spreads_lt r hr
          · subst hr
            simp only
            rw [hbank_src, h.banks dest (List.mem_append_right _ hd_mem)]
            exact hd_lt
        · rw [hs']
          intro r hr
          simp only [List.mem_append, List.mem_singleton] at hr
          rcases hr with hr | hr
          · exact h.spreads_source r hr
          · subst hr
            exact hbank_src

/-- The spread loop preserves the loop invariant, whatever the fuel. -/
theorem spread_loop_inv (b0 : Nat → ℚ) (fuel : Nat) (st : spread_state_t)
    (h : spread_inv b0 st) : spread_inv b0 (spread_loop fuel st) := by
  induction fuel generalizing st with
  | zero => exact h
  | succ n ih =>
    simp only [spread_loop]
    split
    · exact h
    · exact ih _ (spread_iteration_inv b0 st h)

/-- Membership in the two halves of the split. -/
theorem mem_split (tl : List target_t) (i : Nat) :
    (i ∈ split_active tl → (dot_at tl i).is_ticking = true) ∧
    (i ∈ split_candidates tl → (dot_at tl i).is_ticking = false) := by
  unfold split_active split_candidates dot_at
  simp only [List.mem_filter, List.mem_range]
  cases tl[i]? with
  | none => simp
  | some t => simp

/-- The spread loop keeps the dots free of repetitions, whatever the fuel. -/
theorem spread_loop_distinct (fuel : Nat) (st : spread_state_t) (h : spread_distinct st) :
    spread_distinct (spread_loop fuel st) := by
  induction fuel generalizing st with
  | zero => exact h
  | succ n ih =>
    simp only [spread_loop]
    split
    · exact h
    · exact ih _ (spread_iteration_distinct st h)

/-- When the loop is entered no dot is listed twice. -/
theorem spread_distinct_entry (st : spread_state_t) (hs : st.spreads = []) :
    spread_distinct
      { st with active_ignites := stable_sort_by_bank st.tl (split_active st.tl),
                candidates := split_candidates st.tl } := by
  have hperm : (stable_sort_by_bank st.tl (split_active st.tl)).Perm (split_active st.tl) :=
    List.perm_insertionSort _ _
  show (st.spreads.map (fun r => r.destination) ++
    (stable_sort_by_bank st.tl (split_active st.tl) ++ split_candidates st.tl)).Nodup
  rw [hs]
  simp only [List.map_nil, List.nil_append]
  refine (List.Perm.nodup_iff (List.Perm.append_right _ hperm)).mpr ?_
  rw [List.nodup_append]
  refine ⟨(List.nodup_range _).filter _, (List.nodup_range _).filter _, ?_⟩
  intro i ha hc
  have h1 := (mem_split st.tl i).1 ha
  have h2 := (mem_split st.tl i).2 hc
  rw [h1] at h2
  exact Bool.noConfusion h2

/-- The loop invariant holds when the loop is entered, provided no bank is negative. -/
theorem spread_inv_entry (st : spread_state_t) (hs : st.spreads = [])
    (hnonneg : ∀ t ∈ st.tl, 0 ≤ ignite_bank t.ignite) :
    spread_inv (bank_at st.tl)
      { st with active_ignites := stable_sort_by_bank st.tl (split_active st.tl),
                candidates := split_candidates st.tl } := by
  have hzero : ∀ c ∈ split_candidates st.tl, bank_at st.tl c = 0 := by
    intro c hc
    have := (mem_split st.tl c).2 hc
    simp [bank_at, ignite_bank, this]
  have hnil : ∀ r : spread_t, r ∈ ({ st with
      active_ignites := stable_sort_by_bank st.tl (split_active st.tl),
      candidates := split_candidates st.tl } : spread_state_t).spreads → False := by
    intro r hr
    rw [show ({ st with active_ignites := stable_sort_by_bank st.tl (split_active st.tl),
                        candidates := split_candidates st.tl } : spread_state_t).spreads = []
      from hs] at hr
    simp at hr
  refine ⟨?_, ?_, ?_, ?_, fun _ _ => rfl, fun r hr => (hnil r hr).elim,
    fun r hr => (hnil r hr).elim⟩
  · haveI : IsTotal Nat (fun a b => bank_at st.tl b ≤ bank_at st.tl a) :=
      ⟨fun a b => le_total _ _⟩
    haveI : IsTrans Nat (fun a b => bank_at st.tl b ≤ bank_at st.tl a) :=
      ⟨fun a b c hab hbc => le_trans hbc hab⟩
    exact List.sorted_insertionSort (fun a b => bank_at st.tl b ≤ bank_at st.tl a) _
  · apply List.Pairwise.imp_of_mem (R := fun _ _ => True)
    · intro a b ha hb _
      show bank_at st.tl a ≤ bank_at st.tl b
      rw [hzero a ha, hzero b hb]
    · exact List.pairwise_of_forall (fun _ _ => trivial)
  · intro c hc a _
    show bank_at st.tl c ≤ bank_at st.tl a
    rw [hzero c hc]
    exact bank_at_nonneg st.tl hnonneg a
  · exact spread_distinct_entry st hs

/-- What a pass records: nothing with at most one target, otherwise what the loop leaves. -/
theorem execute_spreads (st : spread_state_t) (period : timespan_t) :
    (ignite_spread_event_t.execute st period).spreads =
      if st.tl.length > 1 then
        (spread_loop (stable_sort_by_bank st.tl (split_active st.tl)).length
          { st with ignite_spread_event := none,
                    procs_ignite_spread := st.procs_ignite_spread + 1,
                    active_ignites := stable_sort_by_bank st.tl (split_active st.tl),
                    candidates := split_candidates st.tl }).spreads
      else st.spreads := by
  unfold ignite_spread_event_t.execute
  by_cases h : st.tl.length > 1 <;> simp [h]

/-- The loop invariant holds at the end of every pass over non-negative banks. -/
theorem execute_inv (st : spread_state_t) (period : timespan_t) (hs : st.spreads = [])
    (hnonneg : ∀ t ∈ st.tl, 0 ≤ ignite_bank t.ignite) :
    ∃ st', spread_inv (bank_at st.tl) st' ∧
      (ignite_spread_event_t.execute st period).spreads = st'.spreads := by
  rw [execute_spreads]
  by_cases h : st.tl.length > 1
  · simp only [h, if_true]
    refine ⟨_, spread_loop_inv (bank_at st.tl) _ _ ?_, rfl⟩
    have hs1 : (spread_state_t.mk st.tl st.active_ignites st.candidates st.draws
        (st.procs_ignite_spread + 1) st.procs_ignite_overwrite st.procs_ignite_new_spread
        none st.spreads).spreads = [] := hs
    exact spread_inv_entry _ hs1 hnonneg
  · simp only [h, if_false]
    refine ⟨spread_state_t.mk st.tl [] [] st.draws 0 0 0 none [], ?_, hs⟩
    exact ⟨by simp, by simp, by simp, by simp [spread_distinct], by simp, by simp, by simp⟩

/-- At the end of every pass no dot has been a destination twice. -/
theorem execute_distinct (st : spread_state_t) (period : timespan_t) (hs : st.spreads = []) :
    ((ignite_spread_event_t.execute st period).spreads.map (fun r => r.destination)).Nodup := by
  rw [execute_spreads]
  by_cases h : st.tl.length > 1
  · simp only [h, if_true]
    have hs1 : (spread_state_t.mk st.tl st.active_ignites st.candidates st.draws
        (st.procs_ignite_spread + 1) st.procs_ignite_overwrite st.procs_ignite_new_spread
        none st.spreads).spreads = [] := hs
    have := spread_loop_distinct (stable_sort_by_bank st.tl (split_active st.tl)).length _
      (spread_distinct_entry _ hs1)
    exact List.Nodup.of_append_left this
  · simp [h, hs]

/-- C4: in every spread pass over targets with non-negative banks, whatever the random
draws, every spread goes to a destination whose bank just before the spread (0 when its ignite
is not ticking) is strictly smaller than the bank of the source, which is the bank the source
had when the pass started. -/
theorem ignite_spread_bank_monotone (tl : List target_t) (draws : List Nat)
    (period : timespan_t) (hnonneg : ∀ t ∈ tl, 0 ≤ ignite_bank t.ignite) :
    ∀ r ∈ (ignite_spread_event_t.execute (spread_state_t.init tl draws) period).spreads,
      r.destination_bank < r.source_bank ∧ r.source_bank = bank_at tl r.source := by
  obtain ⟨st, hinv, heq⟩ := execute_inv (spread_state_t.init tl draws) period rfl hnonneg
  rw [heq]
  exact fun r hr => ⟨hinv.spreads_lt r hr, hinv.spreads_source r hr⟩

/-- An instance of C4 with its hypothesis discharged: five targets, two of them with a
ticking ignite; the pass makes two spreads. -/
theorem ignite_spread_bank_monotone_witness :
    (∀ t ∈ [target_t.mk true (dot_t.mk true 2 3), target_t.mk true (dot_t.mk false 0 0),
        target_t.mk true (dot_t.mk true 1 3), target_t.mk true (dot_t.mk false 0 0),
        target_t.mk false (dot_t.mk false 0 0)], 0 ≤ ignite_bank t.ignite) ∧
    (ignite_spread_event_t.execute (spread_state_t.init
      [target_t.mk true (dot_t.mk true 2 3), target_t.mk true (dot_t.mk false 0 0),
        target_t.mk true (dot_t.mk true 1 3), target_t.mk true (dot_t.mk false 0 0),
        target_t.mk false (dot_t.mk false 0 0)] [1, 0, 5]) 2000).spreads.length = 2 ∧
    ∀ r ∈ (ignite_spread_event_t.execute (spread_state_t.init
      [target_t.mk true (dot_t.mk true 2 3), target_t.mk true (dot_t.mk false 0 0),
        target_t.mk true (dot_t.mk true 1 3), target_t.mk true (dot_t.mk false 0 0),
        target_t.mk false (dot_t.mk false 0 0)] [1, 0, 5]) 2000).spreads,
      r.destination_bank < r.source_bank ∧ r.source_bank = bank_at
        [target_t.mk true (dot_t.mk true 2 3), target_t.mk true (dot_t.mk false 0 0),
          target_t.mk true (dot_t.mk true 1 3), target_t.mk true (dot_t.mk false 0 0),
          target_t.mk false (dot_t.mk false 0 0)] r.source :=
  ⟨by simp [ignite_bank, dot_t.is_ticking], by with_unfolding_all decide,
   ignite_spread_bank_monotone _ [1, 0, 5] 2000 (by simp [ignite_bank, dot_t.is_ticking])⟩

/-- C5: in every spread pass, whatever the targets and the random draws, no target is the
destination of more than one spread. -/
theorem ignite_spread_unique_destinations (tl : List target_t) (draws : List Nat)
    (period : timespan_t) :
    ((ignite_spread_event_t.execute (spread_state_t.init tl draws) period).spreads.map
      (fun r => r.destination)).Nodup :=
  execute_distinct (spread_state_t.init tl draws) period rfl

/-! ## Icicle queue: discharges and chains -/

/-- `trigger_icicle_gain` keeps the mastery flag. -/
theorem trigger_icicle_gain_spec_ok (m : mage_t) (t a : Nat) :
    (trigger_icicle_gain m t a).spec_icicles_ok = m.spec_icicles_ok := by
  unfold trigger_icicle_gain
  cases hs : m.spec_icicles_ok
  · simp [hs]
  · by_cases hl : m.icicles.length = m.max_icicles <;>
      simp [hl, hs, make_expiration_event, buffs_icicles_trigger, trigger_icicle_spec_ok]

/-- `get_icicle` keeps the mastery flag. -/
theorem get_icicle_spec_ok (m : mage_t) : (get_icicle m).2.spec_icicles_ok = m.spec_icicles_ok := by
  unfold get_icicle
  split <;> simp [event_cancel]

/-- Firing an expiration keeps the mastery flag. -/
theorem fire_expiration_spec_ok (m : mage_t) (h : Nat) :
    (fire_expiration m h).spec_icicles_ok = m.spec_icicles_ok := by
  unfold fire_expiration
  split <;> simp [icicle_expiration, buffs_icicles_decrement, event_cancel]

/-- Firing the chain event keeps the mastery flag. -/
theorem fire_icicle_event_spec_ok (m : mage_t) (sleeping : Bool) :
    (fire_icicle_event m sleeping).spec_icicles_ok = m.spec_icicles_ok := by
  unfold fire_icicle_event
  cases m.icicle_event with
  | none => rfl
  | some e =>
    simp only [icicle_event_t.execute]
    cases sleeping
    · cases hq : m.icicles with
      | nil => simp [get_icicle, hq]
      | cons f r =>
        simp only [get_icicle, hq, Bool.false_eq_true, if_false]
        split <;> simp [icicle_t.execute, buffs_icicles_decrement, event_cancel]
    · simp

/-- The draining loop keeps the mastery flag. -/
theorem glacial_spike_drain_spec_ok (fuel : Nat) (m : mage_t) :
    (glacial_spike_drain fuel m).spec_icicles_ok = m.spec_icicles_ok := by
  induction fuel generalizing m with
  | zero => rfl
  | succ n ih =>
    simp only [glacial_spike_drain]
    split
    · rfl
    · rw [ih, get_icicle_spec_ok]

/-- No step changes the mastery flag. -/
theorem icicle_op_spec_ok (m : mage_t) (op : icicle_op) :
    (op.perform m).spec_icicles_ok = m.spec_icicles_ok := by
  cases op with
  | gain t a => exact trigger_icicle_gain_spec_ok m t a
  | trigger t chain => exact trigger_icicle_spec_ok m t chain
  | chain_tick sleeping => exact fire_icicle_event_spec_ok m sleeping
  | expire h => exact fire_expiration_spec_ok m h
  | glacial_spike ld a =>
    simp only [icicle_op.perform, glacial_spike_t.execute]
    rw [glacial_spike_drain_spec_ok]
    show (mage_spell_t.execute m ld a).spec_icicles_ok = m.spec_icicles_ok
    rcases mage_spell_execute_cases m ld a with h | h
    · rw [h]
    · rw [h]
      exact trigger_icicle_gain_spec_ok m _ _
  | advance now => rfl

/-- A step can leave a non-empty queue behind an empty one only for a mage with the mastery. -/
theorem icicle_op_nonempty (m : mage_t) (op : icicle_op)
    (h : m.icicles ≠ [] → m.spec_icicles_ok = true) :
    (op.perform m).icicles ≠ [] → (op.perform m).spec_icicles_ok = true := by
  intro hne
  rw [icicle_op_spec_ok]
  cases hs : m.spec_icicles_ok with
  | true => rfl
  | false =>
    have hq : m.icicles = [] := by
      by_contra hc
      rw [h hc] at hs
      exact Bool.noConfusion hs
    exfalso
    apply hne
    have hlen : (op.perform m).icicles.length ≤ m.icicles.length := by
      cases op with
      | gain t a => simp [icicle_op.perform, trigger_icicle_gain, hs]
      | trigger t chain => exact trigger_icicle_length_le m t chain
      | chain_tick sleeping => exact (fire_icicle_event_bounds m sleeping).2
      | expire e => exact (fire_expiration_bounds m e).2
      | glacial_spike ld a =>
        simp only [icicle_op.perform, glacial_spike_t.execute]
        refine le_trans (glacial_spike_drain_bounds _ _).2 ?_
        show (mage_spell_t.execute m ld a).icicles.length ≤ m.icicles.length
        rcases mage_spell_execute_cases m ld a with h1 | h1
        · rw [h1]
        · rw [h1]
          simp [trigger_icicle_gain, hs]
      | advance now => exact le_refl _
    rw [hq] at hlen
    exact List.length_eq_zero.mp (Nat.le_zero.mp hlen)

/-- In every state reached from an empty queue, a non-empty queue belongs to a mage with the
Icicles mastery: only `trigger_icicle_gain` adds entries, and it does nothing without it. -/
theorem icicle_run_nonempty (m : mage_t) (ops : List icicle_op)
    (h : m.icicles ≠ [] → m.spec_icicles_ok = true) :
    (icicle_run m ops).icicles ≠ [] → (icicle_run m ops).spec_icicles_ok = true := by
  induction ops generalizing m with
  | nil => exact h
  | cons op ops ih => exact ih (op.perform m) (icicle_op_nonempty m op h)

/-- C12: in every state reached from an empty queue, `trigger_icicle(target, false)` on a
non-empty queue removes the front entry, cancels that entry's expiration event and executes
its stored action against the target passed to the call, whatever targets the gains had; on
an empty queue it executes nothing and changes nothing, and `get_icicle` returns null. -/
theorem icicle_single_discharge (m0 m : mage_t) (ops : List icicle_op) (t : Nat)
    (hempty : m0.icicles = []) :
    (∀ front rest, (icicle_run m0 ops).icicles = front :: rest →
      (trigger_icicle (icicle_run m0 ops) t false).icicles = rest ∧
      (trigger_icicle (icicle_run m0 ops) t false).expirations =
        (icicle_run m0 ops).expirations.filter (fun e => e.handle != front.expiration) ∧
      (∀ e ∈ (trigger_icicle (icicle_run m0 ops) t false).expirations,
        e.handle ≠ front.expiration) ∧
      (trigger_icicle (icicle_run m0 ops) t false).executed =
        (icicle_run m0 ops).executed ++ [(front.action, t)]) ∧
    (m.icicles = [] → trigger_icicle m t false = m ∧ get_icicle m = (none, m)) := by
  constructor
  · intro front rest hq
    have hok : (icicle_run m0 ops).spec_icicles_ok = true :=
      icicle_run_nonempty m0 ops (fun h => absurd hempty h) (by rw [hq]; simp)
    rw [trigger_icicle_single _ front rest t hok hq]
    refine ⟨?_, ?_, ?_, ?_⟩
    · simp [icicle_t.execute, buffs_icicles_decrement, event_cancel]
    · simp [icicle_t.execute, buffs_icicles_decrement, event_cancel]
    · intro e he
      simp [icicle_t.execute, buffs_icicles_decrement, event_cancel] at he
      exact he.2
    · simp [icicle_t.execute, buffs_icicles_decrement, event_cancel]
  · intro hq
    exact ⟨by simp [trigger_icicle, hq], get_icicle_nil m hq⟩

/-- Instances of C12: a discharge against target 9 after gains on targets 1 and 2, and a
discharge on an empty queue. -/
theorem icicle_single_discharge_witness :
    ((trigger_icicle (icicle_run (mage_t.init true 5 60000 1 0) [.gain 1 10, .gain 2 11])
        9 false).icicles = [icicle_tuple_t.mk 11 1] ∧
      (trigger_icicle (icicle_run (mage_t.init true 5 60000 1 0) [.gain 1 10, .gain 2 11])
        9 false).executed = [(10, 9)]) ∧
    (trigger_icicle (mage_t.init true 5 60000 1 0) 9 false = mage_t.init true 5 60000 1 0 ∧
      get_icicle (mage_t.init true 5 60000 1 0) = (none, mage_t.init true 5 60000 1 0)) :=
  ⟨⟨((icicle_single_discharge (mage_t.init true 5 60000 1 0) (mage_t.init true 5 60000 1 0)
        [.gain 1 10, .gain 2 11] 9 rfl).1 (icicle_tuple_t.mk 10 0) [icicle_tuple_t.mk 11 1]
        rfl).1,
    ((icicle_single_discharge (mage_t.init true 5 60000 1 0) (mage_t.init true 5 60000 1 0)
        [.gain 1 10, .gain 2 11] 9 rfl).1 (icicle_tuple_t.mk 10 0) [icicle_tuple_t.mk 11 1]
        rfl).2.2.2⟩,
   (icicle_single_discharge (mage_t.init true 5 60000 1 0) (mage_t.init true 5 60000 1 0)
      [] 9 rfl).2 rfl⟩

/-- C13 as stated fails: with capacity 1, an icicle gained on target 1 is force-discharged by a
gain on target 2 against target 2, not against target 1. -/
theorem icicle_forced_discharge_counterexample :
    (icicle_run (mage_t.init true 1 60000 1 0) [.gain 1 10, .gain 2 11]).executed = [(10, 2)] ∧
    (icicle_run (mage_t.init true 1 60000 1 0) [.gain 1 10, .gain 2 11]).executed ≠
      [(10, 1)] := by
  decide

/-- A gain at capacity executes the front action against the target of the gain and replaces
the front entry by the new one at the back. -/
theorem trigger_icicle_gain_full (m : mage_t) (front : icicle_tuple_t)
    (rest : List icicle_tuple_t) (t a : Nat) (hok : m.spec_icicles_ok = true)
    (hq : m.icicles = front :: rest) (hl : m.icicles.length = m.max_icicles) :
    (trigger_icicle_gain m t a).executed = m.executed ++ [(front.action, t)] ∧
    (trigger_icicle_gain m t a).icicles = rest ++ [icicle_tuple_t.mk a m.next_handle] := by
  constructor <;>
    simp [trigger_icicle_gain, hok, hl, trigger_icicle_single m front rest t hok hq,
      icicle_t.execute, buffs_icicles_decrement, event_cancel, make_expiration_event,
      buffs_icicles_trigger]

/-- Running two sequences of steps one after the other. -/
theorem icicle_run_append (ops1 ops2 : List icicle_op) (m : mage_t) :
    icicle_run m (ops1 ++ ops2) = icicle_run (icicle_run m ops1) ops2 := by
  induction ops1 generalizing m with
  | nil => rfl
  | cons o os ih => simp [icicle_run, ih]

/-- C13 (amended): when gains on any targets have filled the queue of a mage with the Icicles
mastery to its capacity, the next gain force-discharges the oldest entry against the target
of that next gain, whatever target the oldest entry was gained on. -/
theorem icicle_forced_discharge_target (m : mage_t) (g : Nat × Nat) (gs : List (Nat × Nat))
    (t a : Nat) (hok : m.spec_icicles_ok = true) (hempty : m.icicles = [])
    (hcap : (g :: gs).length = m.max_icicles) :
    (icicle_run m ((g :: gs).map (fun x => icicle_op.gain x.1 x.2) ++
      [icicle_op.gain t a])).executed = m.executed ++ [(g.2, t)] := by
  have hg := icicle_run_gains (g :: gs) m hok (by rw [hempty, ← hcap]; simp)
  have hmax := (icicle_run_bounds m ((g :: gs).map (fun x => icicle_op.gain x.1 x.2))
    (by rw [← hcap]; simp) (by simp [hempty])).1
  rw [icicle_run_append]
  generalize icicle_run m ((g :: gs).map (fun x => icicle_op.gain x.1 x.2)) = m1 at hg hmax
  rw [hempty] at hg
  simp only [List.map_nil, List.nil_append, List.map_cons] at hg
  obtain ⟨hacts, hex, hok1⟩ := hg
  cases hq : m1.icicles with
  | nil => rw [hq] at hacts; simp at hacts
  | cons front rest =>
    rw [hq] at hacts
    simp only [List.map_cons, List.cons.injEq] at hacts
    have hlen : m1.icicles.length = m1.max_icicles := by
      rw [hmax, ← hcap, hq]
      have := congrArg List.length hacts.2
      simp only [List.length_map] at this
      simp [this]
    have := (trigger_icicle_gain_full m1 front rest t a hok1 hq hlen).1
    simp only [icicle_run, icicle_op.perform]
    rw [this, hex, hacts.1]

/-- An instance of the amended C13: capacity 2, gains on targets 1 and 2, overflow on 3. -/
theorem icicle_forced_discharge_target_witness :
    (icicle_run (mage_t.init true 2 60000 1 0)
      [.gain 1 10, .gain 2 11, .gain 3 12]).executed = [(10, 3)] :=
  icicle_forced_discharge_target (mage_t.init true 2 60000 1 0) (1, 10) [(2, 11)] 3 12
    rfl rfl rfl

/-- C18: in every state reached from an empty queue, `trigger_icicle(target, true)` schedules
a chain event (for that target, marked as the first of its chain) exactly when no chain event
is pending and the queue is non-empty, changing nothing else; otherwise it changes nothing at
all.  In every case nothing is executed and the queue is unchanged. -/
theorem icicle_chain_start (m0 : mage_t) (ops : List icicle_op) (t : Nat)
    (hempty : m0.icicles = []) :
    ((icicle_run m0 ops).icicle_event = none ∧ (icicle_run m0 ops).icicles ≠ [] →
      trigger_icicle (icicle_run m0 ops) t true =
        { icicle_run m0 ops with
          icicle_event := some (make_icicle_event (icicle_run m0 ops) t true) }) ∧
    (¬ ((icicle_run m0 ops).icicle_event = none ∧ (icicle_run m0 ops).icicles ≠ []) →
      trigger_icicle (icicle_run m0 ops) t true = icicle_run m0 ops) ∧
    ((trigger_icicle (icicle_run m0 ops) t true).icicle_event ≠ (icicle_run m0 ops).icicle_event ↔
      ((icicle_run m0 ops).icicle_event = none ∧ (icicle_run m0 ops).icicles ≠ [])) ∧
    (trigger_icicle (icicle_run m0 ops) t true).executed = (icicle_run m0 ops).executed ∧
    (trigger_icicle (icicle_run m0 ops) t true).icicles = (icicle_run m0 ops).icicles ∧
    (trigger_icicle (icicle_run m0 ops) t true).expirations =
      (icicle_run m0 ops).expirations := by
  have hreach := icicle_run_nonempty m0 ops (fun h => absurd hempty h)
  generalize icicle_run m0 ops = m at hreach
  cases hq : m.icicles with
  | nil => simp [trigger_icicle, hq]
  | cons f r =>
    have hok : m.spec_icicles_ok = true := hreach (by rw [hq]; simp)
    cases he : m.icicle_event with
    | none => simp [trigger_icicle, hq, hok, he]
    | some e => simp [trigger_icicle, hq, hok, he]

/-- Instances of C18: a chain is scheduled on a non-empty queue with no chain pending, and
nothing changes when a chain is already pending. -/
theorem icicle_chain_start_witness :
    trigger_icicle (icicle_run (mage_t.init true 5 60000 1 0) [.gain 1 10]) 7 true =
      { icicle_run (mage_t.init true 5 60000 1 0) [.gain 1 10] with
        icicle_event := some (make_icicle_event
          (icicle_run (mage_t.init true 5 60000 1 0) [.gain 1 10]) 7 true) } ∧
    trigger_icicle (icicle_run (mage_t.init true 5 60000 1 0) [.gain 1 10, .trigger 7 true])
      8 true = icicle_run (mage_t.init true 5 60000 1 0) [.gain 1 10, .trigger 7 true] :=
  ⟨(icicle_chain_start (mage_t.init true 5 60000 1 0) [.gain 1 10] 7 rfl).1
      ⟨rfl, by decide⟩,
   (icicle_chain_start (mage_t.init true 5 60000 1 0) [.gain 1 10, .trigger 7 true] 8 rfl).2.1
      (by decide)⟩

/-- C19: when a chain event fires and its target is sleeping, the only change is that the
pending-chain handle is cleared: no icicle is executed, the queue and the pending expirations
are unchanged and no further chain event is scheduled. -/
theorem icicle_chain_tick_sleeping (e : icicle_event_t) (m : mage_t) :
    e.execute m true = { m with icicle_event := none } ∧
    (e.execute m true).executed = m.executed ∧
    (e.execute m true).icicles = m.icicles ∧
    (e.execute m true).expirations = m.expirations ∧
    (e.execute m true).icicle_event = none ∧
    (m.icicle_event = some e → fire_icicle_event m true = { m with icicle_event := none }) := by
  refine ⟨by simp [icicle_event_t.execute], by simp [icicle_event_t.execute],
    by simp [icicle_event_t.execute], by simp [icicle_event_t.execute],
    by simp [icicle_event_t.execute], ?_⟩
  intro he
  simp [fire_icicle_event, he, icicle_event_t.execute]

/-- An instance of C19: a chain started on target 7 fires while the target sleeps. -/
theorem icicle_chain_tick_sleeping_witness :
    fire_icicle_event (icicle_run (mage_t.init true 5 60000 1 0) [.gain 1 10, .trigger 7 true])
      true =
    { icicle_run (mage_t.init true 5 60000 1 0) [.gain 1 10, .trigger 7 true] with
      icicle_event := none } :=
  (icicle_chain_tick_sleeping (make_icicle_event (icicle_run (mage_t.init true 5 60000 1 0)
    [.gain 1 10]) 7 true)
    (icicle_run (mage_t.init true 5 60000 1 0) [.gain 1 10, .trigger 7 true])).2.2.2.2.2 rfl

/-- C20: when a chain event fires on a target that is not sleeping and the queue is non-empty,
exactly the front entry is removed (its expiration cancelled) and executed against the chain's
target, and the next chain event, for the same target and not marked first, is scheduled iff
entries remain; on an empty queue nothing is executed and no chain event remains.  An entry
gained after the chain started is fired by the same chain. -/
theorem icicle_chain_tick_live (e : icicle_event_t) (m : mage_t) :
    (∀ front rest, m.icicles = front :: rest →
      (e.execute m false).icicles = rest ∧
      (e.execute m false).executed = m.executed ++ [(front.action, e.target)] ∧
      (e.execute m false).expirations =
        m.expirations.filter (fun x => x.handle != front.expiration) ∧
      (rest ≠ [] → (e.execute m false).icicle_event =
        some (icicle_event_t.mk e.target false m.spell_speed m.current_time)) ∧
      (rest = [] → (e.execute m false).icicle_event = none) ∧
      ((e.execute m false).icicle_event ≠ none ↔ (e.execute m false).icicles ≠ [])) ∧
    (m.icicles = [] → e.execute m false = { m with icicle_event := none }) ∧
    ((icicle_run (mage_t.init true 5 60000 1 0)
        [.gain 1 10, .trigger 7 true, .gain 2 11, .chain_tick false, .chain_tick false]).executed =
        [(10, 7), (11, 7)] ∧
      (icicle_run (mage_t.init true 5 60000 1 0)
        [.gain 1 10, .trigger 7 true, .gain 2 11, .chain_tick false, .chain_tick false]).icicles =
        [] ∧
      (icicle_run (mage_t.init true 5 60000 1 0)
        [.gain 1 10, .trigger 7 true, .gain 2 11, .chain_tick false,
          .chain_tick false]).icicle_event = none) := by
  refine ⟨?_, ?_, by decide, by decide, by decide⟩
  · intro front rest hq
    cases rest with
    | nil =>
      simp [icicle_event_t.execute, get_icicle, hq, icicle_t.execute, buffs_icicles_decrement,
        event_cancel]
    | cons r rs =>
      simp [icicle_event_t.execute, get_icicle, hq, icicle_t.execute, buffs_icicles_decrement,
        event_cancel, make_icicle_event]
  · intro hq
    simp [icicle_event_t.execute, get_icicle, hq]

/-- Instances of C20: a tick with two entries queued, and a tick on an empty queue. -/
theorem icicle_chain_tick_live_witness :
    ((icicle_event_t.mk 7 true 1 0).execute
        (icicle_run (mage_t.init true 5 60000 1 0) [.gain 1 10, .gain 2 11]) false).executed =
      [(10, 7)] ∧
    (icicle_event_t.mk 7 true 1 0).execute (mage_t.init true 5 60000 1 0) false =
      { mage_t.init true 5 60000 1 0 with icicle_event := none } :=
  ⟨((icicle_chain_tick_live (icicle_event_t.mk 7 true 1 0)
      (icicle_run (mage_t.init true 5 60000 1 0) [.gain 1 10, .gain 2 11])).1
      (icicle_tuple_t.mk 10 0) [icicle_tuple_t.mk 11 1] rfl).2.1,
   (icicle_chain_tick_live (icicle_event_t.mk 7 true 1 0) (mage_t.init true 5 60000 1 0)).2.1 rfl⟩

/-! ## Ignite spread: single passes and single spreads -/

/-- A pass in terms of the state in which its loop is entered. -/
theorem execute_eq (st : spread_state_t) (period : timespan_t) :
    ignite_spread_event_t.execute st period =
      if st.tl.length > 1 then
        { spread_loop (spread_entry st).active_ignites.length (spread_entry st) with
          ignite_spread_event := some period }
      else
        { st with procs_ignite_spread := st.procs_ignite_spread + 1,
                  ignite_spread_event := some period } := by
  unfold ignite_spread_event_t.execute spread_entry
  by_cases h : st.tl.length > 1 <;> simp [h]

/-- C14: when the target list holds at most one target, a pass changes nothing but the
spread-event counter, which rises by one, and the scheduled next pass: no spread is recorded,
no dot changes and the new-spread and overwrite counters keep their values. -/
theorem ignite_spread_single_target (st : spread_state_t) (period : timespan_t)
    (h : st.tl.length ≤ 1) :
    ignite_spread_event_t.execute st period =
      { st with procs_ignite_spread := st.procs_ignite_spread + 1,
                ignite_spread_event := some period } ∧
    (ignite_spread_event_t.execute st period).spreads = st.spreads ∧
    (ignite_spread_event_t.execute st period).tl = st.tl ∧
    (ignite_spread_event_t.execute st period).procs_ignite_new_spread =
      st.procs_ignite_new_spread ∧
    (ignite_spread_event_t.execute st period).procs_ignite_overwrite =
      st.procs_ignite_overwrite ∧
    (ignite_spread_event_t.execute st period).procs_ignite_spread =
      st.procs_ignite_spread + 1 ∧
    (ignite_spread_event_t.execute st period).ignite_spread_event = some period := by
  have hn : ¬ st.tl.length > 1 := by omega
  rw [execute_eq]
  simp [hn]

/-- Instances of C14: one target with a ticking ignite, and no target at all. -/
theorem ignite_spread_single_target_witness :
    (ignite_spread_event_t.execute
        (spread_state_t.init [target_t.mk true (dot_t.mk true 2 3)] [4, 1]) 2000).spreads = [] ∧
    (ignite_spread_event_t.execute (spread_state_t.init [] [4, 1]) 2000).procs_ignite_spread =
      (spread_state_t.init [] [4, 1]).procs_ignite_spread + 1 :=
  ⟨(ignite_spread_single_target
      (spread_state_t.init [target_t.mk true (dot_t.mk true 2 3)] [4, 1]) 2000
      (by decide)).2.1,
   (ignite_spread_single_target (spread_state_t.init [] [4, 1]) 2000
      (by decide)).2.2.2.2.2.1⟩

/-- C15 fails on the code: `rng().range( index )` never returns `index`, so when `index` is
at least 1 the candidate at the last non-skipped position is never the destination.  With one
ticking ignite (bank 6) and two targets without ignite, no candidate is skipped, and whatever
the draws the spread goes to the first candidate (target 1), never to the second (target 2). -/
theorem ignite_spread_last_candidate_never_chosen (draws : List Nat) :
    (∀ (st : spread_state_t) (index : Nat), 0 < index → (rng_range st index).1 ≠ index) ∧
    skip_equal
      [target_t.mk true (dot_t.mk true 2 3), target_t.mk true (dot_t.mk false 0 0),
        target_t.mk true (dot_t.mk false 0 0)] [1, 2] 6 2 = 2 ∧
    (ignite_spread_event_t.execute (spread_state_t.init
      [target_t.mk true (dot_t.mk true 2 3), target_t.mk true (dot_t.mk false 0 0),
        target_t.mk true (dot_t.mk false 0 0)] draws) 2000).spreads =
      [spread_t.mk 0 1 6 0 false] := by
  refine ⟨fun st index h => Nat.ne_of_lt ((rng_range_le st index).2 h), ?_, ?_⟩
  · with_unfolding_all decide
  · have hA : stable_sort_by_bank
        [target_t.mk true (dot_t.mk true 2 3), target_t.mk true (dot_t.mk false 0 0),
          target_t.mk true (dot_t.mk false 0 0)]
        (split_active [target_t.mk true (dot_t.mk true 2 3),
          target_t.mk true (dot_t.mk false 0 0), target_t.mk true (dot_t.mk false 0 0)]) =
        [] ++ [0] := by decide
    have hC : split_candidates [target_t.mk true (dot_t.mk true 2 3),
        target_t.mk true (dot_t.mk false 0 0), target_t.mk true (dot_t.mk false 0 0)] =
        [1, 2] := by decide
    have hb0 : bank_at [target_t.mk true (dot_t.mk true 2 3),
        target_t.mk true (dot_t.mk false 0 0), target_t.mk true (dot_t.mk false 0 0)] 0 = 6 := by
      with_unfolding_all decide
    have hb1 : bank_at [target_t.mk true (dot_t.mk true 2 3),
        target_t.mk true (dot_t.mk false 0 0), target_t.mk true (dot_t.mk false 0 0)] 1 = 0 := by
      with_unfolding_all decide
    have hskip : skip_equal
        [target_t.mk true (dot_t.mk true 2 3), target_t.mk true (dot_t.mk false 0 0),
          target_t.mk true (dot_t.mk false 0 0)] [1, 2] 6 2 = 1 + 1 := by
      with_unfolding_all decide
    rw [execute_eq]
    have hlen : (spread_state_t.init
        [target_t.mk true (dot_t.mk true 2 3), target_t.mk true (dot_t.mk false 0 0),
          target_t.mk true (dot_t.mk false 0 0)] draws).tl.length > 1 := by
      simp [spread_state_t.init]
    simp only [hlen, if_true]
    have hact : (spread_entry (spread_state_t.init
        [target_t.mk true (dot_t.mk true 2 3), target_t.mk true (dot_t.mk false 0 0),
          target_t.mk true (dot_t.mk false 0 0)] draws)).active_ignites = [] ++ [0] := hA
    have hcand : (spread_entry (spread_state_t.init
        [target_t.mk true (dot_t.mk true 2 3), target_t.mk true (dot_t.mk false 0 0),
          target_t.mk true (dot_t.mk false 0 0)] draws)).candidates = [1, 2] := hC
    have htl : (spread_entry (spread_state_t.init
        [target_t.mk true (dot_t.mk true 2 3), target_t.mk true (dot_t.mk false 0 0),
          target_t.mk true (dot_t.mk false 0 0)] draws)).tl =
        [target_t.mk true (dot_t.mk true 2 3), target_t.mk true (dot_t.mk false 0 0),
          target_t.mk true (dot_t.mk false 0 0)] := rfl
    have hsp : (spread_entry (spread_state_t.init
        [target_t.mk true (dot_t.mk true 2 3), target_t.mk true (dot_t.mk false 0 0),
          target_t.mk true (dot_t.mk false 0 0)] draws)).spreads = [] := rfl
    generalize spread_entry (spread_state_t.init
        [target_t.mk true (dot_t.mk true 2 3), target_t.mk true (dot_t.mk false 0 0),
          target_t.mk true (dot_t.mk false 0 0)] draws) = st at hact hcand htl hsp
    have hloop : spread_loop st.active_ignites.length st = spread_iteration st := by
      rw [hact]
      simp [spread_loop, hact]
    have hne : st.candidates ≠ [] := by rw [hcand]; simp
    have hsk : skip_equal st.tl st.candidates (bank_at st.tl 0) st.candidates.length =
        1 + 1 := by
      rw [htl, hcand, hb0]; exact hskip
    have hspread := (spread_iteration_spread st [] 0 1 hact hne hsk).2.2.2.1
    have hidx : (rng_range st 1).1 = 0 := by
      show (if 1 = 0 then 0 else st.draws.headD 0 % 1) = 0
      rw [Nat.mod_one]; simp
    show (spread_loop st.active_ignites.length st).spreads = _
    rw [hloop, hspread, hidx, hsp, hcand, htl, hb0]
    have hd : dot_at [target_t.mk true (dot_t.mk true 2 3),
        target_t.mk true (dot_t.mk false 0 0), target_t.mk true (dot_t.mk false 0 0)]
        ([1, 2].getD 0 0) = dot_t.mk false 0 0 := by decide
    have hg : ([1, 2] : List Nat).getD 0 0 = 1 := rfl
    rw [hd, hg, hb1]
    rfl

/-- One iteration keeps the sources of a pass among the dots `a0` and never takes an earlier
destination as a source. -/
theorem spread_iteration_sources (a0 : List Nat) (st : spread_state_t)
    (hd : spread_distinct st) (h : spread_sources a0 st) :
    spread_sources a0 (spread_iteration st) := by
  cases hlast : st.active_ignites.getLast? with
  | none =>
    have : spread_iteration st = st := by simp [spread_iteration, hlast]
    rw [this]; exact h
  | some source =>
    have hact : st.active_ignites = st.active_ignites.dropLast ++ [source] :=
      (List.dropLast_append_getLast? _ hlast).symm
    generalize st.active_ignites.dropLast = init at hact
    have hsrc_mem : source ∈ st.active_ignites := by rw [hact]; simp
    have hinit_sub : ∀ a ∈ init, a ∈ a0 :=
      fun a ha => h.active_sub a (by rw [hact]; simp [ha])
    by_cases hc : st.candidates = []
    · rw [spread_iteration_no_candidates st init source hact hc]
      exact ⟨hinit_sub, h.source_sub, h.later_source⟩
    · cases hskip : skip_equal st.tl st.candidates (bank_at st.tl source) st.candidates.length with
      | zero =>
        rw [spread_iteration_all_skipped st init source hact hc hskip]
        exact ⟨hinit_sub, h.source_sub, h.later_source⟩
      | succ k =>
        obtain ⟨ha', _, _, hs', _⟩ := spread_iteration_spread st init source k hact hc hskip
        refine ⟨?_, ?_, ?_⟩
        · rw [ha']; exact hinit_sub
        · rw [hs']
          intro r hr
          simp only [List.mem_append, List.mem_singleton] at hr
          rcases hr with hr | hr
          · exact h.source_sub r hr
          · subst hr; exact h.active_sub source hsrc_mem
        · rw [hs', List.pairwise_append]
          refine ⟨h.later_source, by simp, ?_⟩
          intro r1 hr1 r2 hr2
          simp only [List.mem_singleton] at hr2
          subst hr2
          show source ≠ r1.destination
          intro heq
          unfold spread_distinct at hd
          rw [List.nodup_append] at hd
          exact hd.2.2 (List.mem_map.mpr ⟨r1, hr1, rfl⟩)
            (List.mem_append_left _ (heq ▸ hsrc_mem))

/-- The loop keeps the sources of a pass among the dots `a0`, whatever the fuel. -/
theorem spread_loop_sources (a0 : List Nat) (fuel : Nat) (st : spread_state_t)
    (hd : spread_distinct st) (h : spread_sources a0 st) :
    spread_sources a0 (spread_loop fuel st) := by
  induction fuel generalizing st with
  | zero => exact h
  | succ n ih =>
    simp only [spread_loop]
    split
    · exact h
    · exact ih _ (spread_iteration_distinct st hd) (spread_iteration_sources a0 st hd h)

/-- C17 as stated fails: five enemy targets, ignites ticking on the first two (banks 6 and 3),
draws 0 and 0.  The first spread goes from target 1 to target 2; target 2 is then neither among
the active ignites nor the source of the second spread, which goes from target 0 to target 3,
and target 4 ends the pass without ignite although target 2 holds a bank of 3. -/
theorem ignite_spread_destination_counterexample :
    (ignite_spread_event_t.execute (spread_state_t.init
      [target_t.mk true (dot_t.mk true 2 3), target_t.mk true (dot_t.mk true 1 3),
        target_t.mk true (dot_t.mk false 0 0), target_t.mk true (dot_t.mk false 0 0),
        target_t.mk true (dot_t.mk false 0 0)] [0, 0]) 2000).spreads =
      [spread_t.mk 1 2 3 0 false, spread_t.mk 0 3 6 0 false] ∧
    (spread_iteration (spread_entry (spread_state_t.init
      [target_t.mk true (dot_t.mk true 2 3), target_t.mk true (dot_t.mk true 1 3),
        target_t.mk true (dot_t.mk false 0 0), target_t.mk true (dot_t.mk false 0 0),
        target_t.mk true (dot_t.mk false 0 0)] [0, 0]))).active_ignites = [0] ∧
    bank_at (ignite_spread_event_t.execute (spread_state_t.init
      [target_t.mk true (dot_t.mk true 2 3), target_t.mk true (dot_t.mk true 1 3),
        target_t.mk true (dot_t.mk false 0 0), target_t.mk true (dot_t.mk false 0 0),
        target_t.mk true (dot_t.mk false 0 0)] [0, 0]) 2000).tl 2 = 3 ∧
    (dot_at (ignite_spread_event_t.execute (spread_state_t.init
      [target_t.mk true (dot_t.mk true 2 3), target_t.mk true (dot_t.mk true 1 3),
        target_t.mk true (dot_t.mk false 0 0), target_t.mk true (dot_t.mk false 0 0),
        target_t.mk true (dot_t.mk false 0 0)] [0, 0]) 2000).tl 4).is_ticking = false := by
  refine ⟨?_, ?_, ?_, ?_⟩ <;> with_unfolding_all decide

/-- C17 (amended): in every spread pass, whatever the targets and the draws, no spread has
the destination of an earlier spread of the pass as its source, and every source is an enemy
target whose ignite was already ticking when the pass started. -/
theorem ignite_spread_sources_initial (tl : List target_t) (draws : List Nat)
    (period : timespan_t) :
    (ignite_spread_event_t.execute (spread_state_t.init tl draws) period).spreads.Pairwise
      (fun r1 r2 => r2.source ≠ r1.destination) ∧
    (∀ r ∈ (ignite_spread_event_t.execute (spread_state_t.init tl draws) period).spreads,
      r.source ∈ split_active tl ∧ (dot_at tl r.source).is_ticking = true) := by
  rw [execute_eq]
  by_cases h : (spread_state_t.init tl draws).tl.length > 1
  · simp only [h, if_true]
    have hd : spread_distinct (spread_entry (spread_state_t.init tl draws)) :=
      spread_distinct_entry (spread_state_t.mk tl [] [] draws (0 + 1) 0 0 none []) rfl
    have hs : spread_sources (split_active tl) (spread_entry (spread_state_t.init tl draws)) := by
      refine ⟨?_, ?_, ?_⟩
      · intro a ha
        exact (List.perm_insertionSort _ _).mem_iff.mp ha
      · intro r hr
        simp [spread_entry, spread_state_t.init] at hr
      · simp [spread_entry, spread_state_t.init]
    have := spread_loop_sources (split_active tl)
      (spread_entry (spread_state_t.init tl draws)).active_ignites.length _ hd hs
    exact ⟨this.later_source,
      fun r hr => ⟨this.source_sub r hr, (mem_split tl r.source).1 (this.source_sub r hr)⟩⟩
  · simp only [h, if_false]
    simp [spread_state_t.init]

/-- Cloning a dot does not change the number of targets. -/
theorem dot_copy_length (tl : List target_t) (source destination : Nat) :
    (dot_copy tl source destination).length = tl.length := by
  unfold dot_copy
  cases tl[destination]? <;> simp

/-- The counters after an iteration that spreads: exactly one of the overwrite and new-spread
counters rises by one, chosen by whether the destination's ignite was ticking. -/
theorem spread_iteration_spread_procs (st : spread_state_t) (init : List Nat) (source k : Nat)
    (hact : st.active_ignites = init ++ [source]) (hc : st.candidates ≠ [])
    (hskip : skip_equal st.tl st.candidates (bank_at st.tl source) st.candidates.length = k + 1) :
    (spread_iteration st).procs_ignite_spread = st.procs_ignite_spread ∧
    ((dot_at st.tl (st.candidates.getD (rng_range st k).1 0)).is_ticking = true →
      (spread_iteration st).procs_ignite_overwrite = st.procs_ignite_overwrite + 1 ∧
      (spread_iteration st).procs_ignite_new_spread = st.procs_ignite_new_spread) ∧
    ((dot_at st.tl (st.candidates.getD (rng_range st k).1 0)).is_ticking = false →
      (spread_iteration st).procs_ignite_new_spread = st.procs_ignite_new_spread + 1 ∧
      (spread_iteration st).procs_ignite_overwrite = st.procs_ignite_overwrite) := by
  simp only [spread_iteration, hact, List.getLast?_append, List.getLast?_singleton,
    List.dropLast_concat, hskip]
  simp [hc, hskip, rng_range]
  split_ifs <;> simp_all

/-- One iteration of the spread loop keeps the lists well formed. -/
theorem spread_iteration_wf (st : spread_state_t) (h : spread_wf st) :
    spread_wf (spread_iteration st) := by
  refine ⟨spread_iteration_distinct st h.distinct, ?_⟩
  cases hlast : st.active_ignites.getLast? with
  | none =>
    have : spread_iteration st = st := by simp [spread_iteration, hlast]
    rw [this]; exact h.valid
  | some source =>
    have hact : st.active_ignites = st.active_ignites.dropLast ++ [source] :=
      (List.dropLast_append_getLast? _ hlast).symm
    generalize st.active_ignites.dropLast = init at hact
    have hsrc : source < st.tl.length := h.valid source (by rw [hact]; simp)
    have hinit : ∀ a ∈ init, a < st.tl.length :=
      fun a ha => h.valid a (by rw [hact]; simp [ha])
    have hcand : ∀ c ∈ st.candidates, c < st.tl.length :=
      fun c hc => h.valid c (List.mem_append_right _ hc)
    by_cases hc : st.candidates = []
    · rw [spread_iteration_no_candidates st init source hact hc]
      intro i hi
      simp only [List.mem_append, List.mem_singleton] at hi
      rcases hi with hi | hi
      · exact hinit i hi
      · subst hi; exact hsrc
    · cases hskip : skip_equal st.tl st.candidates (bank_at st.tl source) st.candidates.length with
      | zero =>
        rw [spread_iteration_all_skipped st init source hact hc hskip]
        intro i hi
        simp only [List.mem_append] at hi
        rcases hi with hi | hi
        · exact hinit i hi
        · exact hcand i hi
      | succ k =>
        obtain ⟨ha', hc', htl', _, _⟩ := spread_iteration_spread st init source k hact hc hskip
        rw [ha', hc', htl', dot_copy_length]
        intro i hi
        simp only [List.mem_append, List.mem_singleton] at hi
        rcases hi with hi | hi | hi
        · exact hinit i hi
        · exact hcand i (List.mem_of_mem_eraseIdx hi)
        · subst hi; exact hsrc

/-- Every state in which a loop iteration starts is well formed when the first one is. -/
theorem spread_loop_states_wf (fuel : Nat) (st : spread_state_t) (h : spread_wf st) :
    ∀ s ∈ spread_loop_states fuel st, spread_wf s := by
  induction fuel generalizing st with
  | zero => simp [spread_loop_states]
  | succ n ih =>
    simp only [spread_loop_states]
    split
    · simp
    · intro s hs
      simp only [List.mem_cons] at hs
      rcases hs with hs | hs
      · subst hs; exact h
      · exact ih _ (spread_iteration_wf st h) s hs

/-- The loop runs through the states listed by `spread_loop_states`: its result is the
iteration applied to the last of them (or the entry state when there is none). -/
theorem spread_loop_eq_states (fuel : Nat) (st : spread_state_t) :
    spread_loop fuel st =
      match (spread_loop_states fuel st).getLast? with
      | none => st
      | some s => spread_iteration s := by
  induction fuel generalizing st with
  | zero => simp [spread_loop, spread_loop_states]
  | succ n ih =>
    simp only [spread_loop, spread_loop_states]
    split
    · simp
    · rw [ih]
      cases hl : (spread_loop_states n (spread_iteration st)).getLast? with
      | none =>
        have : spread_loop_states n (spread_iteration st) = [] := List.getLast?_eq_none_iff.mp hl
        simp [this]
      | some s =>
        rw [List.getLast?_cons, hl]
        simp

/-- The lists are well formed when the loop is entered. -/
theorem spread_wf_entry (st : spread_state_t) (hs : st.spreads = []) :
    spread_wf (spread_entry st) := by
  refine ⟨spread_distinct_entry (spread_state_t.mk st.tl st.active_ignites st.candidates
    st.draws (st.procs_ignite_spread + 1) st.procs_ignite_overwrite st.procs_ignite_new_spread
    none st.spreads) hs, ?_⟩
  intro i hi
  show i < st.tl.length
  have hi' : i ∈ stable_sort_by_bank st.tl (split_active st.tl) ++ split_candidates st.tl := hi
  simp only [List.mem_append] at hi'
  rcases hi' with hi' | hi'
  · have := (List.perm_insertionSort _ _).mem_iff.mp hi'
    simp only [split_active, List.mem_filter, List.mem_range] at this
    exact this.1
  · simp only [split_candidates, List.mem_filter, List.mem_range] at hi'
    exact hi'.1

/-- C16: in every iteration of every pass that spreads from `source` to the drawn candidate,
the destination's dot after the spread is the source's dot before it (so tick amount, ticks
left and bank are cloned), the source's own dot is unchanged, and exactly one counter rises by
one: `ignite_overwrite` if the destination was ticking before the spread, `ignite_new_spread`
otherwise. -/
theorem ignite_spread_copy (tl : List target_t) (draws : List Nat) :
    ∀ st ∈ pass_states (spread_state_t.init tl draws), ∀ (init : List Nat) (source k : Nat),
      st.active_ignites = init ++ [source] → st.candidates ≠ [] →
      skip_equal st.tl st.candidates (bank_at st.tl source) st.candidates.length = k + 1 →
      (spread_iteration st).spreads = st.spreads ++
        [spread_t.mk source (st.candidates.getD (rng_range st k).1 0) (bank_at st.tl source)
          (bank_at st.tl (st.candidates.getD (rng_range st k).1 0))
          (dot_at st.tl (st.candidates.getD (rng_range st k).1 0)).is_ticking] ∧
      dot_at (spread_iteration st).tl (st.candidates.getD (rng_range st k).1 0) =
        dot_at st.tl source ∧
      bank_at (spread_iteration st).tl (st.candidates.getD (rng_range st k).1 0) =
        bank_at st.tl source ∧
      dot_at (spread_iteration st).tl source = dot_at st.tl source ∧
      ((dot_at st.tl (st.candidates.getD (rng_range st k).1 0)).is_ticking = true →
        (spread_iteration st).procs_ignite_overwrite = st.procs_ignite_overwrite + 1 ∧
        (spread_iteration st).procs_ignite_new_spread = st.procs_ignite_new_spread) ∧
      ((dot_at st.tl (st.candidates.getD (rng_range st k).1 0)).is_ticking = false →
        (spread_iteration st).procs_ignite_new_spread = st.procs_ignite_new_spread + 1 ∧
        (spread_iteration st).procs_ignite_overwrite = st.procs_ignite_overwrite) := by
  intro st hst init source k hact hc hskip
  have hwf : spread_wf st := by
    unfold pass_states at hst
    split at hst
    · exact spread_loop_states_wf _ _ (spread_wf_entry _ rfl) st hst
    · simp at hst
  obtain ⟨_, _, htl', hs', _⟩ := spread_iteration_spread st init source k hact hc hskip
  have hprocs := spread_iteration_spread_procs st init source k hact hc hskip
  have hspec := skip_equal_spec st.tl st.candidates (bank_at st.tl source) st.candidates.length
  rw [hskip] at hspec
  have hidx_lt : (rng_range st k).1 < st.candidates.length :=
    lt_of_le_of_lt (rng_range_le st k).1 hspec.1
  have hd_mem : st.candidates.getD (rng_range st k).1 0 ∈ st.candidates := by
    rw [List.getD_eq_getElem _ _ hidx_lt]; exact List.getElem_mem _
  have hd_valid : st.candidates.getD (rng_range st k).1 0 < st.tl.length :=
    hwf.valid _ (List.mem_append_right _ hd_mem)
  have hne : source ≠ st.candidates.getD (rng_range st k).1 0 := by
    intro heq
    have hnd := hwf.distinct
    unfold spread_distinct at hnd
    have hnd2 := (List.nodup_append.mp hnd).2.1
    rw [hact, List.nodup_append] at hnd2
    exact hnd2.2.2 (by simp) (heq ▸ hd_mem)
  have hdest : dot_at (spread_iteration st).tl (st.candidates.getD (rng_range st k).1 0) =
      dot_at st.tl source := by
    rw [htl']; exact dot_at_dot_copy_self _ _ _ hd_valid
  refine ⟨hs', hdest, ?_, ?_, hprocs.2.1, hprocs.2.2⟩
  · unfold bank_at; rw [hdest]
  · rw [htl']; exact dot_at_dot_copy_ne _ _ _ _ hne

/-- An instance of C16 with its hypotheses discharged: the first iteration of the pass over
one ticking ignite and two targets without ignite spreads from target 0 to target 1. -/
theorem ignite_spread_copy_witness :
    dot_at (spread_iteration (spread_entry (spread_state_t.init
      [target_t.mk true (dot_t.mk true 2 3), target_t.mk true (dot_t.mk false 0 0),
        target_t.mk true (dot_t.mk false 0 0)] [5]))).tl
      ((spread_entry (spread_state_t.init
        [target_t.mk true (dot_t.mk true 2 3), target_t.mk true (dot_t.mk false 0 0),
          target_t.mk true (dot_t.mk false 0 0)] [5])).candidates.getD
        (rng_range (spread_entry (spread_state_t.init
          [target_t.mk true (dot_t.mk true 2 3), target_t.mk true (dot_t.mk false 0 0),
            target_t.mk true (dot_t.mk false 0 0)] [5])) 1).1 0) =
    dot_at (spread_entry (spread_state_t.init
      [target_t.mk true (dot_t.mk true 2 3), target_t.mk true (dot_t.mk false 0 0),
        target_t.mk true (dot_t.mk false 0 0)] [5])).tl 0 :=
  (ignite_spread_copy
    [target_t.mk true (dot_t.mk true 2 3), target_t.mk true (dot_t.mk false 0 0),
      target_t.mk true (dot_t.mk false 0 0)] [5]
    (spread_entry (spread_state_t.init
      [target_t.mk true (dot_t.mk true 2 3), target_t.mk true (dot_t.mk false 0 0),
        target_t.mk true (dot_t.mk false 0 0)] [5]))
    (by with_unfolding_all decide) [] 0 1 (by decide) (by decide)
    (by with_unfolding_all decide)).2.1

/-! ## Icicle queue: expirations -/

/-- Under the invariant the pending expirations start with the event of the front entry, and
cancelling that event leaves the others. -/
theorem icicle_inv_front (m : mage_t) (h : icicle_inv m) (front : icicle_tuple_t)
    (rest : List icicle_tuple_t) (hq : m.icicles = front :: rest) :
    ∃ e es, m.expirations = e :: es ∧ e.handle = front.expiration ∧
      es.map (fun x => x.handle) = rest.map (fun i => i.expiration) ∧
      (event_cancel m front.expiration).expirations = es := by
  have hh := h.handles
  rw [hq] at hh
  cases hexp : m.expirations with
  | nil => rw [hexp] at hh; simp at hh
  | cons e es =>
    rw [hexp] at hh
    simp only [List.map_cons, List.cons.injEq] at hh
    refine ⟨e, es, rfl, hh.1, hh.2, ?_⟩
    have hf := h.fresh
    rw [hexp, List.pairwise_cons] at hf
    simp only [event_cancel, hexp]
    rw [← hh.1]
    rw [List.filter_cons]
    simp only [bne_self_eq_false, Bool.false_eq_true, if_false]
    rw [List.filter_eq_self]
    intro x hx
    have := hf.1 x hx
    simp only [bne_iff_ne, ne_eq]
    omega

/-- The invariant on the state left by removing the front entry and its event. -/
theorem icicle_inv_pop (m : mage_t) (h : icicle_inv m) (front : icicle_tuple_t)
    (rest : List icicle_tuple_t) (hq : m.icicles = front :: rest) :
    icicle_inv { event_cancel m front.expiration with icicles := rest } := by
  obtain ⟨e, es, hexp, _, hmap, hcancel⟩ := icicle_inv_front m h front rest hq
  have hsub : ∀ x ∈ es, x ∈ m.expirations := fun x hx => by rw [hexp]; simp [hx]
  have ht := h.times
  have hf := h.fresh
  rw [hexp, List.pairwise_cons] at ht hf
  refine ⟨?_, ?_, ?_, ?_, ?_⟩
  · show (event_cancel m front.expiration).expirations.map _ = rest.map _
    rw [hcancel]; exact hmap
  · show (event_cancel m front.expiration).expirations.Pairwise _
    rw [hcancel]; exact ht.2
  · show (event_cancel m front.expiration).expirations.Pairwise _
    rw [hcancel]; exact hf.2
  · intro x hx
    have hx' : x ∈ (event_cancel m front.expiration).expirations := hx
    rw [hcancel] at hx'
    exact h.bound x (hsub x hx')
  · intro x hx
    have hx' : x ∈ (event_cancel m front.expiration).expirations := hx
    rw [hcancel] at hx'
    exact h.latest x (hsub x hx')

/-- The invariant only reads the queue, the pending expirations, the handle counter, the
clock and the buff duration. -/
theorem icicle_inv_congr (m m' : mage_t) (h : icicle_inv m) (h1 : m'.icicles = m.icicles)
    (h2 : m'.expirations = m.expirations) (h3 : m'.next_handle = m.next_handle)
    (h4 : m'.current_time = m.current_time)
    (h5 : m'.icicles_buff_duration = m.icicles_buff_duration) : icicle_inv m' := by
  refine ⟨?_, ?_, ?_, ?_, ?_⟩
  · rw [h1, h2]; exact h.handles
  · rw [h2]; exact h.times
  · rw [h2]; exact h.fresh
  · rw [h2, h3]; exact h.bound
  · rw [h2, h4, h5]; exact h.latest

/-- `get_icicle` preserves the invariant. -/
theorem get_icicle_inv (m : mage_t) (h : icicle_inv m) : icicle_inv (get_icicle m).2 := by
  cases hq : m.icicles with
  | nil => rw [get_icicle_nil m hq]; exact h
  | cons f r => rw [get_icicle_cons m f r hq]; exact icicle_inv_pop m h f r hq

/-- Executing an icicle action preserves the invariant. -/
theorem icicle_execute_inv (m : mage_t) (a t : Nat) (h : icicle_inv m) :
    icicle_inv (icicle_t.execute m a t) :=
  icicle_inv_congr m _ h rfl rfl rfl rfl rfl

/-- `trigger_icicle` preserves the invariant. -/
theorem trigger_icicle_inv (m : mage_t) (t : Nat) (chain : Bool) (h : icicle_inv m) :
    icicle_inv (trigger_icicle m t chain) := by
  unfold trigger_icicle
  cases hs : m.spec_icicles_ok with
  | false => simpa using h
  | true =>
    cases hq : m.icicles with
    | nil => simpa [hq] using h
    | cons f r =>
      cases chain with
      | true =>
        cases he : m.icicle_event with
        | none =>
          simp only [Bool.not_true, Bool.false_eq_true, if_false, List.isEmpty_cons,
            Bool.true_and, Option.isNone_none, if_true]
          exact icicle_inv_congr m _ h hq.symm rfl rfl rfl rfl
        | some e => simpa using h
      | false =>
        simp only [Bool.not_true, Bool.false_eq_true, if_false, List.isEmpty_cons,
          Bool.false_and, Bool.not_false, if_true]
        have hg := get_icicle_cons m f r hq
        rw [hg]
        exact icicle_execute_inv _ _ _ (icicle_inv_pop m h f r hq)

/-- `trigger_icicle` does not touch the handle counter, the clock or the buff duration. -/
theorem trigger_icicle_frame (m : mage_t) (t : Nat) (chain : Bool) :
    (trigger_icicle m t chain).next_handle = m.next_handle ∧
    (trigger_icicle m t chain).current_time = m.current_time ∧
    (trigger_icicle m t chain).icicles_buff_duration = m.icicles_buff_duration := by
  unfold trigger_icicle
  cases hq : m.icicles with
  | nil => simp [hq]
  | cons f r =>
    cases chain <;> cases hs : m.spec_icicles_ok <;> cases he : m.icicle_event <;>
      simp [get_icicle, hq, hs, icicle_t.execute, buffs_icicles_decrement, event_cancel]

/-- Pushing a new entry with a fresh expiration event preserves the invariant. -/
theorem icicle_inv_push (m : mage_t) (a : Nat) (h : icicle_inv m) :
    icicle_inv
      { (make_expiration_event m).2 with
        icicles := m.icicles ++ [icicle_tuple_t.mk a (make_expiration_event m).1] } := by
  refine ⟨?_, ?_, ?_, ?_, ?_⟩
  · simp [make_expiration_event, h.handles]
  · simp only [make_expiration_event, List.pairwise_append]
    refine ⟨h.times, by simp, ?_⟩
    intro x hx y hy
    simp only [List.mem_singleton] at hy
    subst hy
    exact h.latest x hx
  · simp only [make_expiration_event, List.pairwise_append]
    refine ⟨h.fresh, by simp, ?_⟩
    intro x hx y hy
    simp only [List.mem_singleton] at hy
    subst hy
    exact h.bound x hx
  · intro x hx
    simp only [make_expiration_event, List.mem_append, List.mem_singleton] at hx
    show x.handle < m.next_handle + 1
    rcases hx with hx | hx
    · exact Nat.lt_succ_of_lt (h.bound x hx)
    · subst hx; exact Nat.lt_succ_self _
  · intro x hx
    simp only [make_expiration_event, List.mem_append, List.mem_singleton] at hx
    show x.occurs ≤ m.current_time + m.icicles_buff_duration
    rcases hx with hx | hx
    · exact h.latest x hx
    · subst hx; exact le_refl _

/-- `trigger_icicle_gain` preserves the invariant. -/
theorem trigger_icicle_gain_inv (m : mage_t) (t a : Nat) (h : icicle_inv m) :
    icicle_inv (trigger_icicle_gain m t a) := by
  unfold trigger_icicle_gain
  cases hs : m.spec_icicles_ok with
  | false => simpa using h
  | true =>
    simp only [Bool.not_true, Bool.false_eq_true, if_false]
    have key : ∀ m1 : mage_t, icicle_inv m1 →
        icicle_inv
          { (make_expiration_event (buffs_icicles_trigger m1)).2 with
            icicles := (make_expiration_event (buffs_icicles_trigger m1)).2.icicles ++
              [icicle_tuple_t.mk a (make_expiration_event (buffs_icicles_trigger m1)).1] } := by
      intro m1 h1
      exact icicle_inv_push (buffs_icicles_trigger m1) a
        (icicle_inv_congr m1 _ h1 rfl rfl rfl rfl rfl)
    by_cases hl : m.icicles.length = m.max_icicles
    · simp only [hl, if_true]
      exact key _ (trigger_icicle_inv m t false h)
    · simp only [hl, if_false]
      exact key _ h

/-- Under the invariant, the expiration that is due is the one owned by the front entry. -/
theorem expire_due_front (m : mage_t) (h : icicle_inv m) (handle : Nat)
    (hdue : expire_due m handle = true) :
    ∃ front rest, m.icicles = front :: rest ∧ front.expiration = handle := by
  unfold expire_due at hdue
  simp only [List.any_eq_true, Bool.and_eq_true, beq_iff_eq, List.all_eq_true, Bool.or_eq_true,
    decide_eq_true_eq] at hdue
  obtain ⟨e, he, hhandle, hmin⟩ := hdue
  cases hexp : m.expirations with
  | nil => rw [hexp] at he; simp at he
  | cons e0 es =>
    have hh := h.handles
    rw [hexp] at hh
    cases hq : m.icicles with
    | nil => rw [hq] at hh; simp at hh
    | cons front rest =>
      rw [hq] at hh
      simp only [List.map_cons, List.cons.injEq] at hh
      refine ⟨front, rest, rfl, ?_⟩
      rw [← hh.1, ← hhandle]
      have ht := h.times
      have hf := h.fresh
      rw [hexp, List.pairwise_cons] at ht hf
      rw [hexp] at he
      simp only [List.mem_cons] at he
      rcases he with he | he
      · rw [he]
      · exfalso
        have h1 := ht.1 e he
        have h2 := hf.1 e he
        have h3 := hmin e0 (by rw [hexp]; simp)
        rcases h3 with h3 | h3
        · exact absurd h1 (not_le.mpr h3)
        · omega

/-- Firing the expiration that is due removes the front entry, which owns it, executes
nothing and preserves the invariant. -/
theorem fire_expiration_due (m : mage_t) (h : icicle_inv m) (handle : Nat)
    (hdue : expire_due m handle = true) :
    ∃ front rest, m.icicles = front :: rest ∧ front.expiration = handle ∧
      (fire_expiration m handle).icicles = rest ∧
      (fire_expiration m handle).executed = m.executed ∧
      (∀ e ∈ (fire_expiration m handle).expirations, e.handle ≠ handle) ∧
      handle ∉ rest.map (fun i => i.expiration) ∧
      icicle_inv (fire_expiration m handle) := by
  obtain ⟨front, rest, hq, hfront⟩ := expire_due_front m h handle hdue
  obtain ⟨e, es, hexp, hehandle, hmap, hcancel⟩ := icicle_inv_front m h front rest hq
  have hpending : m.expirations.any (fun e => e.handle == handle) = true := by
    rw [hexp]
    simp [hehandle, hfront]
  have hfire : fire_expiration m handle =
      buffs_icicles_decrement { event_cancel m front.expiration with icicles := rest } := by
    unfold fire_expiration
    rw [if_pos hpending, ← hfront]
    simp [icicle_expiration, buffs_icicles_decrement, event_cancel, hq]
  have hf := h.fresh
  rw [hexp, List.pairwise_cons] at hf
  have hnot : ∀ x ∈ es, x.handle ≠ handle := by
    intro x hx
    have := hf.1 x hx
    rw [← hfront, ← hehandle]
    omega
  refine ⟨front, rest, hq, hfront, ?_, ?_, ?_, ?_, ?_⟩
  · rw [hfire]; rfl
  · rw [hfire]; rfl
  · rw [hfire]
    intro x hx
    have hx' : x ∈ (event_cancel m front.expiration).expirations := hx
    rw [hcancel] at hx'
    exact hnot x hx'
  · rw [← hmap]
    intro hmem
    obtain ⟨x, hx, hxe⟩ := List.mem_map.mp hmem
    exact hnot x hx hxe
  · rw [hfire]
    exact icicle_inv_congr _ _ (icicle_inv_pop m h front rest hq) rfl rfl rfl rfl rfl

/-- Firing the chain event preserves the invariant. -/
theorem fire_icicle_event_inv (m : mage_t) (sleeping : Bool) (h : icicle_inv m) :
    icicle_inv (fire_icicle_event m sleeping) := by
  unfold fire_icicle_event
  cases he : m.icicle_event with
  | none => exact h
  | some e =>
    have h0 : icicle_inv { m with icicle_event := none } :=
      icicle_inv_congr m _ h rfl rfl rfl rfl rfl
    show icicle_inv (e.execute m sleeping)
    unfold icicle_event_t.execute
    cases sleeping with
    | true => simpa using h0
    | false =>
      simp only [Bool.false_eq_true, if_false]
      have hg := get_icicle_inv _ h0
      generalize get_icicle { m with icicle_event := none } = g at hg
      obtain ⟨ga, gm⟩ := g
      cases ga with
      | none => exact hg
      | some a =>
        simp only
        have hx := icicle_execute_inv gm a e.target hg
        split
        · exact icicle_inv_congr _ _ hx rfl rfl rfl rfl rfl
        · exact hx

/-- The draining loop preserves the invariant. -/
theorem glacial_spike_drain_inv (fuel : Nat) (m : mage_t) (h : icicle_inv m) :
    icicle_inv (glacial_spike_drain fuel m) := by
  induction fuel generalizing m with
  | zero => exact h
  | succ n ih =>
    simp only [glacial_spike_drain]
    split
    · exact h
    · exact ih _ (get_icicle_inv m h)

/-- Every step the scheduler can perform preserves the invariant. -/
theorem icicle_op_inv (m : mage_t) (op : icicle_op) (h : icicle_inv m)
    (hadm : op.admissible m = true) : icicle_inv (op.perform m) := by
  cases op with
  | gain t a => exact trigger_icicle_gain_inv m t a h
  | trigger t chain => exact trigger_icicle_inv m t chain h
  | chain_tick sleeping => exact fire_icicle_event_inv m sleeping h
  | expire handle =>
    obtain ⟨_, _, _, _, _, _, _, _, hinv⟩ := fire_expiration_due m h handle hadm
    exact hinv
  | glacial_spike ld a =>
    simp only [icicle_op.perform, glacial_spike_t.execute]
    have hx : icicle_inv (mage_spell_t.execute m ld a) := by
      rcases mage_spell_execute_cases m ld a with h1 | h1
      · rw [h1]
        exact h
      · rw [h1]
        exact trigger_icicle_gain_inv m _ _ h
    exact glacial_spike_drain_inv _ _ (icicle_inv_congr _ _ hx rfl rfl rfl rfl rfl)
  | advance now =>
    simp only [icicle_op.admissible, decide_eq_true_eq] at hadm
    refine ⟨h.handles, h.times, h.fresh, h.bound, ?_⟩
    intro e he
    have := h.latest e he
    show e.occurs ≤ now + m.icicles_buff_duration
    exact le_trans this (add_le_add_right hadm _)

/-- Every schedule preserves the invariant. -/
theorem icicle_run_inv (m : mage_t) (ops : List icicle_op) (h : icicle_inv m)
    (hs : icicle_schedule m ops = true) : icicle_inv (icicle_run m ops) := by
  induction ops generalizing m with
  | nil => exact h
  | cons op ops ih =>
    simp only [icicle_schedule, Bool.and_eq_true] at hs
    exact ih _ (icicle_op_inv m op h hs.1) hs.2

/-- `get_icicle` leaves a part of the queue and keeps the handle counter. -/
theorem get_icicle_shrink (m : mage_t) :
    (get_icicle m).2.icicles.Sublist m.icicles ∧ (get_icicle m).2.next_handle = m.next_handle := by
  cases hq : m.icicles with
  | nil => rw [get_icicle_nil m hq, hq]; exact ⟨List.Sublist.refl _, rfl⟩
  | cons f r =>
    rw [get_icicle_cons m f r hq]
    exact ⟨List.sublist_cons_self f r, rfl⟩

/-- `trigger_icicle` leaves a part of the queue and keeps the handle counter. -/
theorem trigger_icicle_shrink (m : mage_t) (t : Nat) (chain : Bool) :
    (trigger_icicle m t chain).icicles.Sublist m.icicles ∧
    (trigger_icicle m t chain).next_handle = m.next_handle := by
  refine ⟨?_, (trigger_icicle_frame m t chain).1⟩
  unfold trigger_icicle
  have hcases : m.icicles = [] ∨ ∃ f r, m.icicles = f :: r := by
    cases m.icicles <;> simp
  rcases hcases with hq | ⟨f, r, hq⟩
  · simp [hq]
  · cases chain <;> cases hs : m.spec_icicles_ok <;> cases he : m.icicle_event <;>
      simp [get_icicle, hq, icicle_t.execute, buffs_icicles_decrement, event_cancel]

/-- Firing an expiration leaves a part of the queue and keeps the handle counter. -/
theorem fire_expiration_shrink (m : mage_t) (handle : Nat) :
    (fire_expiration m handle).icicles.Sublist m.icicles ∧
    (fire_expiration m handle).next_handle = m.next_handle := by
  unfold fire_expiration
  split
  · exact ⟨List.tail_sublist _, rfl⟩
  · exact ⟨List.Sublist.refl _, rfl⟩

/-- Firing the chain event leaves a part of the queue and keeps the handle counter. -/
theorem fire_icicle_event_shrink (m : mage_t) (sleeping : Bool) :
    (fire_icicle_event m sleeping).icicles.Sublist m.icicles ∧
    (fire_icicle_event m sleeping).next_handle = m.next_handle := by
  unfold fire_icicle_event
  cases he : m.icicle_event with
  | none => exact ⟨List.Sublist.refl _, rfl⟩
  | some e =>
    show (e.execute m sleeping).icicles.Sublist m.icicles ∧ _
    unfold icicle_event_t.execute
    cases sleeping with
    | true => exact ⟨List.Sublist.refl _, rfl⟩
    | false =>
      simp only [Bool.false_eq_true, if_false]
      have hg := get_icicle_shrink { m with icicle_event := none }
      generalize get_icicle { m with icicle_event := none } = g at hg
      obtain ⟨ga, gm⟩ := g
      cases ga with
      | none => exact hg
      | some a =>
        simp only
        split
        · exact hg
        · exact hg

/-- The draining loop leaves a part of the queue and keeps the handle counter. -/
theorem glacial_spike_drain_shrink (fuel : Nat) (m : mage_t) :
    (glacial_spike_drain fuel m).icicles.Sublist m.icicles ∧
    (glacial_spike_drain fuel m).next_handle = m.next_handle := by
  induction fuel generalizing m with
  | zero => exact ⟨List.Sublist.refl _, rfl⟩
  | succ n ih =>
    simp only [glacial_spike_drain]
    split
    · exact ⟨List.Sublist.refl _, rfl⟩
    · have h1 := ih (get_icicle m).2
      have h2 := get_icicle_shrink m
      exact ⟨h1.1.trans h2.1, h1.2.trans h2.2⟩

/-- A step never lowers the handle counter, and every entry in the queue after it was there
before or carries the handle that was next. -/
theorem icicle_op_handles (m : mage_t) (op : icicle_op) :
    m.next_handle ≤ (op.perform m).next_handle ∧
    ∀ x ∈ (op.perform m).icicles.map (fun i => i.expiration),
      x ∈ m.icicles.map (fun i => i.expiration) ∨ x = m.next_handle := by
  have shrink : ∀ m' : mage_t, m'.icicles.Sublist m.icicles ∧ m'.next_handle = m.next_handle →
      m.next_handle ≤ m'.next_handle ∧
      ∀ x ∈ m'.icicles.map (fun i => i.expiration),
        x ∈ m.icicles.map (fun i => i.expiration) ∨ x = m.next_handle := by
    intro m' h
    exact ⟨le_of_eq h.2.symm, fun x hx => Or.inl ((h.1.map _).subset hx)⟩
  have gain : ∀ t a : Nat, m.next_handle ≤ (trigger_icicle_gain m t a).next_handle ∧
      ∀ x ∈ (trigger_icicle_gain m t a).icicles.map (fun i => i.expiration),
        x ∈ m.icicles.map (fun i => i.expiration) ∨ x = m.next_handle := by
    intro t a
    cases hs : m.spec_icicles_ok with
    | false =>
      have : trigger_icicle_gain m t a = m := by simp [trigger_icicle_gain, hs]
      rw [this]
      exact ⟨le_refl _, fun x hx => Or.inl hx⟩
    | true =>
      have hsh := trigger_icicle_shrink m t false
      constructor
      · unfold trigger_icicle_gain
        by_cases hl : m.icicles.length = m.max_icicles <;>
          simp [hs, hl, make_expiration_event, buffs_icicles_trigger, hsh.2]
      · rw [trigger_icicle_gain_icicles m t a hs]
        intro x hx
        simp only [List.map_append, List.map_cons, List.map_nil, List.mem_append,
          List.mem_singleton] at hx
        rcases hx with hx | hx
        · left
          by_cases hl : m.icicles.length = m.max_icicles
          · rw [if_pos hl] at hx
            exact (hsh.1.map _).subset hx
          · rw [if_neg hl] at hx
            exact hx
        · right
          by_cases hl : m.icicles.length = m.max_icicles
          · rw [if_pos hl] at hx; rw [hx, hsh.2]
          · rw [if_neg hl] at hx; exact hx
  cases op with
  | gain t a => exact gain t a
  | trigger t chain => exact shrink _ (trigger_icicle_shrink m t chain)
  | chain_tick sleeping => exact shrink _ (fire_icicle_event_shrink m sleeping)
  | expire handle => exact shrink _ (fire_expiration_shrink m handle)
  | glacial_spike ld a =>
    have hd := glacial_spike_drain_shrink
      (buffs_icicles_expire (mage_spell_t.execute m ld a)).icicles.length
      (buffs_icicles_expire (mage_spell_t.execute m ld a))
    show m.next_handle ≤ (glacial_spike_drain
        (buffs_icicles_expire (mage_spell_t.execute m ld a)).icicles.length
        (buffs_icicles_expire (mage_spell_t.execute m ld a))).next_handle ∧
      ∀ x ∈ (glacial_spike_drain
          (buffs_icicles_expire (mage_spell_t.execute m ld a)).icicles.length
          (buffs_icicles_expire (mage_spell_t.execute m ld a))).icicles.map
            (fun i => i.expiration),
        x ∈ m.icicles.map (fun i => i.expiration) ∨ x = m.next_handle
    have hg : m.next_handle ≤ (mage_spell_t.execute m ld a).next_handle ∧
        ∀ x ∈ (mage_spell_t.execute m ld a).icicles.map (fun i => i.expiration),
          x ∈ m.icicles.map (fun i => i.expiration) ∨ x = m.next_handle := by
      rcases mage_spell_execute_cases m ld a with h1 | h1
      · rw [h1]
        exact ⟨le_refl _, fun x hx => Or.inl hx⟩
      · rw [h1]
        exact gain _ _
    exact ⟨le_trans hg.1 (le_of_eq hd.2.symm), fun x hx => hg.2 x ((hd.1.map _).subset hx)⟩
  | advance now => exact shrink _ ⟨List.Sublist.refl _, rfl⟩

/-- An entry that has left the queue never returns: a handle already handed out and absent
from the queue stays absent, whatever steps follow. -/
theorem icicle_run_gone (m : mage_t) (ops : List icicle_op) (handle : Nat)
    (hlt : handle < m.next_handle) (hgone : handle ∉ m.icicles.map (fun i => i.expiration)) :
    handle < (icicle_run m ops).next_handle ∧
    handle ∉ (icicle_run m ops).icicles.map (fun i => i.expiration) := by
  induction ops generalizing m with
  | nil => exact ⟨hlt, hgone⟩
  | cons op ops ih =>
    have hstep := icicle_op_handles m op
    apply ih (op.perform m) (lt_of_lt_of_le hlt hstep.1)
    intro hmem
    rcases hstep.2 handle hmem with h | h
    · exact hgone h
    · omega

/-- C11: for a mage starting with an empty queue and no pending expiration, after every
sequence of gains, discharges, chain events, Glacial Spikes, clock advances and expirations
fired in timestamp order (creation order among equal timestamps), under the fixed buff
duration: the pending expirations are exactly those of the queued entries and no entry is
queued twice; the expiration that fires next belongs to the front entry, firing it removes
exactly that entry, executes nothing and shortens the queue by one; `get_icicle` cancels the
expiration of the entry it removes; and an entry removed either way is never in the queue
again, so no later discharge returns it. -/
theorem icicle_expiration_exclusive (m0 : mage_t) (ops : List icicle_op)
    (hq : m0.icicles = []) (hp : m0.expirations = [])
    (hvalid : icicle_schedule m0 ops = true) :
    (icicle_run m0 ops).expirations.map (fun e => e.handle) =
      (icicle_run m0 ops).icicles.map (fun i => i.expiration) ∧
    ((icicle_run m0 ops).icicles.map (fun i => i.expiration)).Nodup ∧
    (∀ handle, expire_due (icicle_run m0 ops) handle = true →
      ∃ front rest, (icicle_run m0 ops).icicles = front :: rest ∧ front.expiration = handle ∧
        (fire_expiration (icicle_run m0 ops) handle).icicles = rest ∧
        (fire_expiration (icicle_run m0 ops) handle).executed = (icicle_run m0 ops).executed ∧
        (fire_expiration (icicle_run m0 ops) handle).icicles.length + 1 =
          (icicle_run m0 ops).icicles.length ∧
        ∀ later, handle ∉ (icicle_run (fire_expiration (icicle_run m0 ops) handle)
          later).icicles.map (fun i => i.expiration)) ∧
    (∀ front rest, (icicle_run m0 ops).icicles = front :: rest →
      (get_icicle (icicle_run m0 ops)).1 = some front.action ∧
      (get_icicle (icicle_run m0 ops)).2.icicles = rest ∧
      (∀ e ∈ (get_icicle (icicle_run m0 ops)).2.expirations, e.handle ≠ front.expiration) ∧
      ∀ later, front.expiration ∉ (icicle_run (get_icicle (icicle_run m0 ops)).2
        later).icicles.map (fun i => i.expiration)) := by
  have h0 : icicle_inv m0 := by
    refine ⟨by simp [hq, hp], by simp [hp], by simp [hp], by simp [hp], by simp [hp]⟩
  have hinv := icicle_run_inv m0 ops h0 hvalid
  generalize icicle_run m0 ops = m at hinv
  have hnodup : (m.icicles.map (fun i => i.expiration)).Nodup := by
    rw [← hinv.handles]
    unfold List.Nodup
    rw [List.pairwise_map]
    exact hinv.fresh.imp (fun hab => Nat.ne_of_lt hab)
  have hbound : ∀ i ∈ m.icicles, i.expiration < m.next_handle := by
    intro i hi
    have : i.expiration ∈ m.expirations.map (fun e => e.handle) := by
      rw [hinv.handles]; exact List.mem_map.mpr ⟨i, hi, rfl⟩
    obtain ⟨e, he, hei⟩ := List.mem_map.mp this
    rw [← hei]; exact hinv.bound e he
  refine ⟨hinv.handles, hnodup, ?_, ?_⟩
  · intro handle hdue
    obtain ⟨front, rest, hqm, hfront, hic, hex, _, hnot, _⟩ :=
      fire_expiration_due m hinv handle hdue
    refine ⟨front, rest, hqm, hfront, hic, hex, by rw [hic, hqm]; simp, ?_⟩
    intro later
    have hlt : handle < (fire_expiration m handle).next_handle := by
      rw [(fire_expiration_shrink m handle).2, ← hfront]
      exact hbound front (by rw [hqm]; simp)
    exact (icicle_run_gone _ later handle hlt (by rw [hic]; exact hnot)).2
  · intro front rest hqm
    have hg := get_icicle_cons m front rest hqm
    obtain ⟨e, es, hexp, hehandle, hmap, hcancel⟩ := icicle_inv_front m hinv front rest hqm
    have hnot : front.expiration ∉ rest.map (fun i => i.expiration) := by
      rw [hqm] at hnodup
      simp only [List.map_cons, List.nodup_cons] at hnodup
      exact hnodup.1
    refine ⟨by rw [hg], by rw [hg], ?_, ?_⟩
    · rw [hg]
      intro x hx
      have hx' : x ∈ (event_cancel m front.expiration).expirations := hx
      rw [hcancel] at hx'
      intro hxe
      apply hnot
      rw [← hmap]
      exact List.mem_map.mpr ⟨x, hx', hxe⟩
    · intro later
      have hlt : front.expiration < (get_icicle m).2.next_handle := by
        rw [(get_icicle_shrink m).2]
        exact hbound front (by rw [hqm]; simp)
      exact (icicle_run_gone _ later front.expiration hlt (by rw [hg]; exact hnot)).2

/-- An instance of C11 with its hypotheses discharged: two gains half a second apart with a
buff duration of one second; the first expiration fires at its time and removes the entry
gained first, and a later discharge returns the other one. -/
theorem icicle_expiration_exclusive_witness :
    icicle_schedule (mage_t.init true 3 1000 1 0)
      [.gain 1 10, .advance 500, .gain 1 11, .advance 1000] = true ∧
    expire_due (icicle_run (mage_t.init true 3 1000 1 0)
      [.gain 1 10, .advance 500, .gain 1 11, .advance 1000]) 0 = true ∧
    (∃ front rest, (icicle_run (mage_t.init true 3 1000 1 0)
        [.gain 1 10, .advance 500, .gain 1 11, .advance 1000]).icicles = front :: rest ∧
      front.expiration = 0 ∧
      (fire_expiration (icicle_run (mage_t.init true 3 1000 1 0)
        [.gain 1 10, .advance 500, .gain 1 11, .advance 1000]) 0).icicles = rest ∧
      (fire_expiration (icicle_run (mage_t.init true 3 1000 1 0)
        [.gain 1 10, .advance 500, .gain 1 11, .advance 1000]) 0).executed =
        (icicle_run (mage_t.init true 3 1000 1 0)
          [.gain 1 10, .advance 500, .gain 1 11, .advance 1000]).executed ∧
      (fire_expiration (icicle_run (mage_t.init true 3 1000 1 0)
        [.gain 1 10, .advance 500, .gain 1 11, .advance 1000]) 0).icicles.length + 1 =
        (icicle_run (mage_t.init true 3 1000 1 0)
          [.gain 1 10, .advance 500, .gain 1 11, .advance 1000]).icicles.length ∧
      ∀ later, 0 ∉ (icicle_run (fire_expiration (icicle_run (mage_t.init true 3 1000 1 0)
        [.gain 1 10, .advance 500, .gain 1 11, .advance 1000]) 0)
        later).icicles.map (fun i => i.expiration)) ∧
    (get_icicle (fire_expiration (icicle_run (mage_t.init true 3 1000 1 0)
      [.gain 1 10, .advance 500, .gain 1 11, .advance 1000]) 0)).1 = some 11 :=
  ⟨by decide, by decide,
   (icicle_expiration_exclusive (mage_t.init true 3 1000 1 0)
      [.gain 1 10, .advance 500, .gain 1 11, .advance 1000] rfl rfl (by decide)).2.2.1 0
      (by decide),
   by decide⟩

/-! ## Burn-phase switch: reset and the guards -/

/-- C23: `reset()` leaves every switch off with both timestamps at the sentinel minimum; a
freshly constructed switch is in that state, `on()` is false and `duration(now)` is zero for
every `now`. -/
theorem state_switch_reset_spec (s : state_switch_t) (now : timespan_t) :
    s.reset.state = false ∧ s.reset.last_enable = timespan_t.min ∧
    s.reset.last_disable = timespan_t.min ∧
    state_switch_t.new = s.reset ∧
    s.reset.is_on = false ∧ s.reset.duration now = 0 ∧
    (state_switch_t.new).is_on = false ∧ (state_switch_t.new).duration now = 0 := by
  refine ⟨rfl, rfl, rfl, rfl, rfl, ?_, rfl, ?_⟩ <;>
    simp [state_switch_t.duration, state_switch_t.reset, state_switch_t.new]

/-- C26: the guards compare timestamps only.  For every `t` other than the sentinel, after
`reset` the calls `enable(t)`, `disable(t)`, `enable(t)` return true, true, false and leave
the switch off; and `disable(t)` fails and changes nothing whenever the stored last-disable
timestamp is `t`, also when the switch is on, as after `disable(t)`, `enable(u)` with `u`
different from `t` and from the sentinel. -/
theorem state_switch_guard_ignores_state (s : state_switch_t) (t u : timespan_t)
    (ht : t ≠ timespan_t.min) :
    (s.reset.enable t).1 = true ∧
    ((s.reset.enable t).2.disable t).1 = true ∧
    (((s.reset.enable t).2.disable t).2.enable t).1 = false ∧
    (((s.reset.enable t).2.disable t).2.enable t).2.state = false ∧
    (s.last_disable = t → (s.disable t).1 = false ∧ (s.disable t).2 = s) ∧
    (u ≠ t → u ≠ timespan_t.min →
      ((s.reset.disable t).2.enable u).2.state = true ∧
      (((s.reset.disable t).2.enable u).2.disable t).1 = false ∧
      (((s.reset.disable t).2.enable u).2.disable t).2.state = true) := by
  have ht' : ¬ timespan_t.min = t := fun h => ht h.symm
  refine ⟨?_, ?_, ?_, ?_, ?_, ?_⟩
  · simp [state_switch_t.enable, state_switch_t.reset, ht']
  · simp [state_switch_t.enable, state_switch_t.disable, state_switch_t.reset, ht']
  · simp [state_switch_t.enable, state_switch_t.disable, state_switch_t.reset, ht']
  · simp [state_switch_t.enable, state_switch_t.disable, state_switch_t.reset, ht']
  · intro h
    simp [state_switch_t.disable, h]
  · intro hu hu'
    have hu2 : ¬ timespan_t.min = u := fun h => hu' h.symm
    simp [state_switch_t.enable, state_switch_t.disable, state_switch_t.reset, ht', hu2]

/-- Instances of C26: `t = 10`, and a failing `disable(10)` on a switch that is on. -/
theorem state_switch_guard_ignores_state_witness :
    ((((state_switch_t.new).reset.enable 10).2.disable 10).2.enable 10).1 = false ∧
    ((((state_switch_t.new).reset.enable 10).2.disable 10).2.enable 10).2.state = false ∧
    ((((state_switch_t.new).reset.disable 10).2.enable 20).2.disable 10).1 = false ∧
    ((((state_switch_t.new).reset.disable 10).2.enable 20).2.disable 10).2.state = true ∧
    ((state_switch_t.mk true 5 10).disable 10).2 = state_switch_t.mk true 5 10 :=
  ⟨(state_switch_guard_ignores_state state_switch_t.new 10 20 (by decide)).2.2.1,
   (state_switch_guard_ignores_state state_switch_t.new 10 20 (by decide)).2.2.2.1,
   ((state_switch_guard_ignores_state state_switch_t.new 10 20 (by decide)).2.2.2.2.2
      (by decide) (by decide)).2.1,
   ((state_switch_guard_ignores_state state_switch_t.new 10 20 (by decide)).2.2.2.2.2
      (by decide) (by decide)).2.2,
   ((state_switch_guard_ignores_state (state_switch_t.mk true 5 10) 10 20
      (by decide)).2.2.2.2.1 rfl).2⟩

/-! ## Burn-phase actions -/

/-- C22: `start_burn_phase_t::execute` raises the error iff `burn_phase.enable` at the current
time returns false, and `stop_burn_phase_t::execute` iff `burn_phase.disable` does; when the
error is raised neither uptime tracker is updated and the start action has recorded no
initial-mana sample (the switch is unchanged as well); otherwise both trackers are updated. -/
theorem burn_switch_error_fatal (p : burn_mage_t) :
    ((∃ q, start_burn_phase_t.execute p = .error q) ↔
      (p.burn_phase.enable p.current_time).1 = false) ∧
    ((∃ q, stop_burn_phase_t.execute p = .error q) ↔
      (p.burn_phase.disable p.current_time).1 = false) ∧
    (∀ q, start_burn_phase_t.execute p = .error q →
      q.uptime_burn_phase = p.uptime_burn_phase ∧
      q.uptime_conserve_phase = p.uptime_conserve_phase ∧
      q.burn_initial_mana = p.burn_initial_mana ∧ q.burn_phase = p.burn_phase) ∧
    (∀ q, stop_burn_phase_t.execute p = .error q →
      q.uptime_burn_phase = p.uptime_burn_phase ∧
      q.uptime_conserve_phase = p.uptime_conserve_phase ∧ q.burn_phase = p.burn_phase) ∧
    (∀ q, start_burn_phase_t.execute p = .ok q →
      q.uptime_burn_phase = p.uptime_burn_phase ++ [(true, p.current_time)] ∧
      q.uptime_conserve_phase = p.uptime_conserve_phase ++ [(false, p.current_time)] ∧
      q.burn_initial_mana = p.burn_initial_mana ++ [100 * p.mana_pct]) ∧
    (∀ q, stop_burn_phase_t.execute p = .ok q →
      q.uptime_burn_phase = p.uptime_burn_phase ++ [(false, p.current_time)] ∧
      q.uptime_conserve_phase = p.uptime_conserve_phase ++ [(true, p.current_time)]) := by
  refine ⟨?_, ?_, ?_, ?_, ?_, ?_⟩
  · unfold start_burn_phase_t.execute state_switch_t.enable
    by_cases h : p.burn_phase.last_enable = p.current_time <;> simp [h]
  · unfold stop_burn_phase_t.execute state_switch_t.disable
    by_cases h : p.burn_phase.last_disable = p.current_time <;> simp [h]
  · intro q
    unfold start_burn_phase_t.execute state_switch_t.enable
    by_cases h : p.burn_phase.last_enable = p.current_time <;> simp [h]
    rintro rfl
    simp
  · intro q
    unfold stop_burn_phase_t.execute state_switch_t.disable
    by_cases h : p.burn_phase.last_disable = p.current_time <;> simp [h]
    rintro rfl
    simp
  · intro q
    unfold start_burn_phase_t.execute state_switch_t.enable
    by_cases h : p.burn_phase.last_enable = p.current_time <;> simp [h]
    rintro rfl
    simp
  · intro q
    unfold stop_burn_phase_t.execute state_switch_t.disable
    by_cases h : p.burn_phase.last_disable = p.current_time <;> simp [h]
    rintro rfl
    simp

/-- Instances of C22: a start action repeated at the same time raises the error and records
nothing, a stop action repeated at the same time raises it too, and a first start action at
time 10 updates the trackers. -/
theorem burn_switch_error_fatal_witness :
    (start_burn_phase_t.execute
      (burn_mage_t.mk (state_switch_t.mk true 10 timespan_t.min) 10 (1 / 2) [] [] [] []) =
      .error (burn_mage_t.mk (state_switch_t.mk true 10 timespan_t.min) 10 (1 / 2) [] [] [] []) ∧
      (burn_mage_t.mk (state_switch_t.mk true 10 timespan_t.min) 10 (1 / 2)
        [] [] [] []).burn_initial_mana = []) ∧
    (∃ q, stop_burn_phase_t.execute
      (burn_mage_t.mk (state_switch_t.mk false 5 10) 10 (1 / 2) [] [] [] []) = .error q) ∧
    (start_burn_phase_t.execute
      (burn_mage_t.mk (state_switch_t.mk false timespan_t.min timespan_t.min) 10 (1 / 2)
        [] [] [] []) =
      .ok (burn_mage_t.mk (state_switch_t.mk true 10 timespan_t.min) 10 (1 / 2)
        [100 * (1 / 2)] [] [(true, 10)] [(false, 10)]) ∧
      (burn_mage_t.mk (state_switch_t.mk true 10 timespan_t.min) 10 (1 / 2)
        [100 * (1 / 2)] [] [(true, 10)] [(false, 10)]).uptime_burn_phase =
        [] ++ [(true, 10)]) :=
  ⟨⟨rfl, ((burn_switch_error_fatal
      (burn_mage_t.mk (state_switch_t.mk true 10 timespan_t.min) 10 (1 / 2)
        [] [] [] [])).2.2.1 _ rfl).2.2.1⟩,
   (burn_switch_error_fatal
      (burn_mage_t.mk (state_switch_t.mk false 5 10) 10 (1 / 2) [] [] [] [])).2.1.mpr
      (by decide),
   ⟨rfl, ((burn_switch_error_fatal
      (burn_mage_t.mk (state_switch_t.mk false timespan_t.min timespan_t.min) 10 (1 / 2)
        [] [] [] [])).2.2.2.2.1 _ rfl).1⟩⟩

/-! ## Frozen multiplier, Ice Lance and Shatter sources -/

/-- The bitmask of `mage_spell_t::frozen` is built from the Winter's Chill and root flags
only. -/
theorem mage_spell_frozen_values (td : Option mage_td_t) :
    mage_spell_t.frozen td = 0 ∨ mage_spell_t.frozen td = 1 ∨ mage_spell_t.frozen td = 4 ∨
      mage_spell_t.frozen td = 5 := by
  cases td with
  | none => left; rfl
  | some d =>
    unfold mage_spell_t.frozen
    by_cases hw : d.winters_chill.check = 0 <;> by_cases hr : d.frozen.check = 0 <;>
      simp [hw, hr, FF_WINTERS_CHILL, FF_ROOT, frozen_type_e.val]

/-- C24: when `snapshot_internal` runs with both the frozen and the frozen-multiplier flag,
the stored bitmask is the one the action's `frozen` hook computes and the stored multiplier is
the action's `frozen_multiplier` hook value if that bitmask is non-zero and exactly 1
otherwise.  The default hook returns 1 and Ice Lance's 3, so the stored multiplier is at
least 1, is 3 for a frozen Ice Lance, and the state's direct and periodic damage multipliers
are the base multipliers times it. -/
theorem frozen_multiplier_snapshot (STATE_FROZEN STATE_FROZEN_MUL : Nat) (kind : spell_kind)
    (p : frost_mage_t) (td : Option mage_td_t) (s : mage_spell_state_t) (flags : Nat)
    (hf : flags &&& STATE_FROZEN ≠ 0) (hm : flags &&& STATE_FROZEN_MUL ≠ 0) :
    (snapshot_internal STATE_FROZEN STATE_FROZEN_MUL kind p td s flags).frozen =
      kind.frozen p td s ∧
    (kind.frozen p td s ≠ 0 →
      (snapshot_internal STATE_FROZEN STATE_FROZEN_MUL kind p td s flags).frozen_multiplier =
        kind.frozen_multiplier) ∧
    (kind.frozen p td s = 0 →
      (snapshot_internal STATE_FROZEN STATE_FROZEN_MUL kind p td s flags).frozen_multiplier =
        1) ∧
    (mage_spell_t.frozen_multiplier = 1 ∧ ice_lance_t.frozen_multiplier = 3 ∧
      spell_kind.other.frozen_multiplier = 1 ∧ spell_kind.ice_lance.frozen_multiplier = 3) ∧
    1 ≤ (snapshot_internal STATE_FROZEN STATE_FROZEN_MUL kind p td s flags).frozen_multiplier ∧
    (kind = .ice_lance → kind.frozen p td s ≠ 0 →
      (snapshot_internal STATE_FROZEN STATE_FROZEN_MUL kind p td s flags).frozen_multiplier =
        3) ∧
    (snapshot_internal STATE_FROZEN STATE_FROZEN_MUL kind p td s flags).composite_da_multiplier =
      s.base_da_multiplier *
        (snapshot_internal STATE_FROZEN STATE_FROZEN_MUL kind p td s flags).frozen_multiplier ∧
    (snapshot_internal STATE_FROZEN STATE_FROZEN_MUL kind p td s flags).composite_ta_multiplier =
      s.base_ta_multiplier *
        (snapshot_internal STATE_FROZEN STATE_FROZEN_MUL kind p td s flags).frozen_multiplier := by
  have hother : mage_spell_t.frozen_multiplier = 1 := rfl
  have hlance : ice_lance_t.frozen_multiplier = 3 := by
    simp [ice_lance_t.frozen_multiplier, mage_spell_t.frozen_multiplier]
  have hkind : kind.frozen_multiplier = 1 ∨ kind.frozen_multiplier = 3 := by
    cases kind
    · left; exact hother
    · right; exact hlance
  have hfm : (snapshot_internal STATE_FROZEN STATE_FROZEN_MUL kind p td s flags).frozen_multiplier =
      if kind.frozen p td s ≠ 0 then kind.frozen_multiplier else 1 := by
    simp [snapshot_internal, hf, hm]
  refine ⟨by simp [snapshot_internal, hf, hm], ?_, ?_, ⟨hother, hlance, hother, hlance⟩, ?_, ?_,
    ?_, ?_⟩
  · intro h; rw [hfm, if_pos h]
  · intro h; rw [hfm]; simp [h]
  · rw [hfm]
    split
    · rcases hkind with h | h
      · rw [h]
      · rw [h]; norm_num
    · exact le_refl _
  · intro hk h
    rw [hfm, if_pos h, hk]
    exact hlance
  · simp [mage_spell_state_t.composite_da_multiplier, snapshot_internal, hf, hm]
  · simp [mage_spell_state_t.composite_ta_multiplier, snapshot_internal, hf, hm]

/-- An instance of C24: an Ice Lance with the Fingers of Frost flag set, on a target without
target data, with both flags requested. -/
theorem frozen_multiplier_snapshot_witness :
    (snapshot_internal 1 2 spell_kind.ice_lance (frost_mage_t.mk true true 0) none
      ( mage_spell_state_t.initialize 2 2) 3).frozen_multiplier = 3 :=
  (frozen_multiplier_snapshot 1 2 spell_kind.ice_lance (frost_mage_t.mk true true 0) none
    ( mage_spell_state_t.initialize 2 2) 3 (by decide) (by decide)).2.2.2.2.2.1 rfl (by decide)

/-- The Fingers of Frost bit of Ice Lance's bitmask is the global flag when the `bugs` option
is on and the flag stored in the state when it is off; the target's debuffs do not matter. -/
theorem ice_lance_frozen_bit (q : frost_mage_t) (td : Option mage_td_t)
    (s : mage_spell_state_t) :
    has_fingers_of_frost (ice_lance_t.frozen q td s) =
      if q.bugs then q.fingers_of_frost_active else s.fingers_of_frost := by
  unfold ice_lance_t.frozen has_fingers_of_frost
  rcases mage_spell_frozen_values td with h | h | h | h <;> rw [h] <;>
    cases q.bugs <;> cases q.fingers_of_frost_active <;> cases s.fingers_of_frost <;> decide

/-- C25: with the `bugs` option on, every Ice Lance impact takes its Fingers of Frost bit from
the global flag, which the most recent Ice Lance execute wrote from the buff; so when a second
Ice Lance is cast before the first impacts, a cast with the buff followed by a cast without it
gives the bit to neither impact, and a cast without the buff followed by a cast with it gives
the bit to both.  With the option off, each impact's bit is the status stored in its own
state at its own cast, whatever the global flag. -/
theorem ice_lance_fingers_of_frost_quirk (p : frost_mage_t) (td1 td2 : Option mage_td_t)
    (s1 s2 : mage_spell_state_t) (n : Nat) :
    (∀ q td s, q.bugs = true →
      has_fingers_of_frost (ice_lance_t.frozen q td s) = q.fingers_of_frost_active) ∧
    (ice_lance_t.execute p s1).1.fingers_of_frost_active =
      decide (p.buffs_fingers_of_frost ≠ 0) ∧
    (p.bugs = true → p.buffs_fingers_of_frost = 1 →
      has_fingers_of_frost (ice_lance_t.frozen
        (ice_lance_t.execute (ice_lance_t.execute p s1).1 s2).1 td1
        (ice_lance_t.execute p s1).2) = false ∧
      has_fingers_of_frost (ice_lance_t.frozen
        (ice_lance_t.execute (ice_lance_t.execute p s1).1 s2).1 td2
        (ice_lance_t.execute (ice_lance_t.execute p s1).1 s2).2) = false) ∧
    (p.bugs = true → p.buffs_fingers_of_frost = 0 →
      has_fingers_of_frost (ice_lance_t.frozen
        (ice_lance_t.execute
          { (ice_lance_t.execute p s1).1 with buffs_fingers_of_frost := n + 1 } s2).1 td1
        (ice_lance_t.execute p s1).2) = true ∧
      has_fingers_of_frost (ice_lance_t.frozen
        (ice_lance_t.execute
          { (ice_lance_t.execute p s1).1 with buffs_fingers_of_frost := n + 1 } s2).1 td2
        (ice_lance_t.execute
          { (ice_lance_t.execute p s1).1 with buffs_fingers_of_frost := n + 1 } s2).2) =
        true) ∧
    (∀ q td s, q.bugs = false →
      has_fingers_of_frost (ice_lance_t.frozen q td s) = s.fingers_of_frost) ∧
    (ice_lance_t.execute p s1).2.fingers_of_frost = decide (p.buffs_fingers_of_frost ≠ 0) ∧
    (∀ q, q.bugs = false → p.buffs_fingers_of_frost = 1 →
      has_fingers_of_frost (ice_lance_t.frozen q td1 (ice_lance_t.execute p s1).2) = true ∧
      has_fingers_of_frost (ice_lance_t.frozen q td2
        (ice_lance_t.execute (ice_lance_t.execute p s1).1 s2).2) = false) := by
  refine ⟨?_, rfl, ?_, ?_, ?_, rfl, ?_⟩
  · intro q td s hq
    rw [ice_lance_frozen_bit, hq]; rfl
  · intro hb h1
    simp [ice_lance_frozen_bit, ice_lance_t.execute, ice_lance_t.snapshot_state, hb, h1]
  · intro hb h0
    simp [ice_lance_frozen_bit, ice_lance_t.execute, ice_lance_t.snapshot_state, hb, h0]
  · intro q td s hq
    rw [ice_lance_frozen_bit, hq]; rfl
  · intro q hq h1
    simp [ice_lance_frozen_bit, ice_lance_t.execute, ice_lance_t.snapshot_state, hq, h1]

/-- Instances of C25 with the `bugs` option on: the buff at one stack for the first cast only,
and the buff gained between the two casts. -/
theorem ice_lance_fingers_of_frost_quirk_witness :
    (has_fingers_of_frost (ice_lance_t.frozen
        (ice_lance_t.execute (ice_lance_t.execute (frost_mage_t.mk true false 1)
          ( mage_spell_state_t.initialize 1 1)).1 ( mage_spell_state_t.initialize 1 1)).1 none
        (ice_lance_t.execute (frost_mage_t.mk true false 1)
          ( mage_spell_state_t.initialize 1 1)).2) = false ∧
      has_fingers_of_frost (ice_lance_t.frozen
        (ice_lance_t.execute (ice_lance_t.execute (frost_mage_t.mk true false 1)
          ( mage_spell_state_t.initialize 1 1)).1 ( mage_spell_state_t.initialize 1 1)).1 none
        (ice_lance_t.execute (ice_lance_t.execute (frost_mage_t.mk true false 1)
          ( mage_spell_state_t.initialize 1 1)).1 ( mage_spell_state_t.initialize 1 1)).2) =
        false) ∧
    (has_fingers_of_frost (ice_lance_t.frozen
        (ice_lance_t.execute
          { (ice_lance_t.execute (frost_mage_t.mk true false 0)
              ( mage_spell_state_t.initialize 1 1)).1 with buffs_fingers_of_frost := 0 + 1 }
          ( mage_spell_state_t.initialize 1 1)).1 none
        (ice_lance_t.execute (frost_mage_t.mk true false 0)
          ( mage_spell_state_t.initialize 1 1)).2) = true ∧
      has_fingers_of_frost (ice_lance_t.frozen
        (ice_lance_t.execute
          { (ice_lance_t.execute (frost_mage_t.mk true false 0)
              ( mage_spell_state_t.initialize 1 1)).1 with buffs_fingers_of_frost := 0 + 1 }
          ( mage_spell_state_t.initialize 1 1)).1 none
        (ice_lance_t.execute
          { (ice_lance_t.execute (frost_mage_t.mk true false 0)
              ( mage_spell_state_t.initialize 1 1)).1 with buffs_fingers_of_frost := 0 + 1 }
          ( mage_spell_state_t.initialize 1 1)).2) = true) :=
  ⟨(ice_lance_fingers_of_frost_quirk (frost_mage_t.mk true false 1) none none
      ( mage_spell_state_t.initialize 1 1) ( mage_spell_state_t.initialize 1 1) 0).2.2.1 rfl rfl,
   (ice_lance_fingers_of_frost_quirk (frost_mage_t.mk true false 0) none none
      ( mage_spell_state_t.initialize 1 1) ( mage_spell_state_t.initialize 1 1) 0).2.2.2.1
      rfl rfl⟩

/-- C28: for every bitmask built from the three flags, `record_shatter_source` with a
non-null source increments exactly one counter: WINTERS_CHILL if that bit is set, otherwise
ROOT if the root bit is set, otherwise FINGERS_OF_FROST if that bit is set, otherwise NONE
(the bitmask is then 0); the four counters are distinct, the increment is by one and leaves
every other counter alone; with a null source there is nothing to change. -/
theorem shatter_source_priority (winters_chill fingers_of_frost root : Bool)
    (source : shatter_source_t) (type : Nat) :
    record_shatter_source (frozen_mask winters_chill fingers_of_frost root) (some source) =
      some (source.occur
        (if winters_chill then frozen_type_e.FROZEN_WINTERS_CHILL.val
         else if root then frozen_type_e.FROZEN_ROOT.val
         else if fingers_of_frost then frozen_type_e.FROZEN_FINGERS_OF_FROST.val
         else frozen_type_e.FROZEN_NONE.val)) ∧
    ((winters_chill = false ∧ root = false ∧ fingers_of_frost = false) ↔
      frozen_mask winters_chill fingers_of_frost root = 0) ∧
    (source.occur type).iteration_counts type = source.iteration_counts type + 1 ∧
    (∀ i, i ≠ type → (source.occur type).iteration_counts i = source.iteration_counts i) ∧
    [frozen_type_e.FROZEN_WINTERS_CHILL.val, frozen_type_e.FROZEN_FINGERS_OF_FROST.val,
      frozen_type_e.FROZEN_ROOT.val, frozen_type_e.FROZEN_NONE.val].Nodup ∧
    (∀ t ∈ [frozen_type_e.FROZEN_WINTERS_CHILL.val, frozen_type_e.FROZEN_FINGERS_OF_FROST.val,
      frozen_type_e.FROZEN_ROOT.val, frozen_type_e.FROZEN_NONE.val],
      t < frozen_type_e.FROZEN_MAX.val) ∧
    record_shatter_source (frozen_mask winters_chill fingers_of_frost root) none = none := by
  refine ⟨?_, ?_, ?_, ?_, by decide, by decide, rfl⟩
  · cases winters_chill <;> cases fingers_of_frost <;> cases root <;> rfl
  · cases winters_chill <;> cases fingers_of_frost <;> cases root <;> decide
  · simp [shatter_source_t.occur]
  · intro i hi
    simp [shatter_source_t.occur, hi]

/-- Instances of C28: root and Fingers of Frost together count as ROOT, and the counter next
to the incremented one keeps its value. -/
theorem shatter_source_priority_witness :
    record_shatter_source (frozen_mask false true true)
      (some (shatter_source_t.mk (fun _ => 0))) =
      some ((shatter_source_t.mk (fun _ => 0)).occur frozen_type_e.FROZEN_ROOT.val) ∧
    ((shatter_source_t.mk (fun _ => 0)).occur 2).iteration_counts 3 =
      (shatter_source_t.mk (fun _ => 0)).iteration_counts 3 :=
  ⟨(shatter_source_priority false true true (shatter_source_t.mk (fun _ => 0)) 2).1,
   (shatter_source_priority false true true (shatter_source_t.mk (fun _ => 0)) 2).2.2.2.1 3
      (by decide)⟩

/-! ## Icicle queue: Glacial Spike and the stack counter -/

/-- With fuel for every stored icicle the draining loop empties the queue; it executes
nothing, leaves the stack counter alone, and no expiration of a former entry stays pending. -/
theorem glacial_spike_drain_spec (fuel : Nat) (m : mage_t) (h : m.icicles.length ≤ fuel) :
    (glacial_spike_drain fuel m).icicles = [] ∧
    (glacial_spike_drain fuel m).executed = m.executed ∧
    (glacial_spike_drain fuel m).buffs_icicles = m.buffs_icicles ∧
    (∀ e ∈ (glacial_spike_drain fuel m).expirations,
      e ∈ m.expirations ∧ ∀ i ∈ m.icicles, e.handle ≠ i.expiration) := by
  induction fuel generalizing m with
  | zero =>
    have hq : m.icicles = [] := List.length_eq_zero.mp (Nat.le_zero.mp h)
    simp [glacial_spike_drain, hq]
  | succ n ih =>
    cases hq : m.icicles with
    | nil => simp [glacial_spike_drain, hq]
    | cons f r =>
      have hg := get_icicle_cons m f r hq
      rw [hq] at h
      simp only [List.length_cons, Nat.add_le_add_iff_right] at h
      have := ih (get_icicle m).2 (by rw [hg]; exact h)
      simp only [glacial_spike_drain, hq, List.isEmpty_cons, Bool.false_eq_true, if_false]
      rw [hg] at this ⊢
      refine ⟨this.1, this.2.1, this.2.2.1, ?_⟩
      intro e he
      obtain ⟨hmem, hne⟩ := this.2.2.2 e he
      have hmem' : e ∈ (event_cancel m f.expiration).expirations := hmem
      simp only [event_cancel, List.mem_filter, bne_iff_ne, ne_eq] at hmem'
      refine ⟨hmem'.1, ?_⟩
      intro i hi
      simp only [List.mem_cons] at hi
      rcases hi with hi | hi
      · rw [hi]; exact hmem'.2
      · exact hne i hi

/-- Every expiration pending after `trigger_icicle_gain` is that of an entry of the new queue,
or was pending before and belongs to no entry that left the queue. -/
theorem trigger_icicle_gain_pending (m : mage_t) (t a : Nat) :
    ∀ e ∈ (trigger_icicle_gain m t a).expirations,
      (∃ j ∈ (trigger_icicle_gain m t a).icicles, e.handle = j.expiration) ∨
      (e ∈ m.expirations ∧
        ∀ i ∈ m.icicles, i ∈ (trigger_icicle_gain m t a).icicles ∨ e.handle ≠ i.expiration) := by
  intro e he
  cases hs : m.spec_icicles_ok with
  | false =>
    have hg : trigger_icicle_gain m t a = m := by simp [trigger_icicle_gain, hs]
    rw [hg] at he ⊢
    exact Or.inr ⟨he, fun i hi => Or.inl hi⟩
  | true =>
    have hcases : (m.icicles.length = m.max_icicles ∧ ∃ f r, m.icicles = f :: r) ∨
        (trigger_icicle_gain m t a).expirations =
            m.expirations ++ [expiration_event_t.mk m.next_handle
              (m.current_time + m.icicles_buff_duration)] ∧
          (trigger_icicle_gain m t a).icicles =
            m.icicles ++ [icicle_tuple_t.mk a m.next_handle] := by
      by_cases hl : m.icicles.length = m.max_icicles
      · have hq : m.icicles = [] ∨ ∃ f r, m.icicles = f :: r := by
          cases m.icicles <;> simp
        rcases hq with hq | hq
        · right
          have ht : trigger_icicle m t false = m := by simp [trigger_icicle, hs, hq]
          constructor <;>
            simp [trigger_icicle_gain, hs, hl, ht, make_expiration_event, buffs_icicles_trigger]
        · exact Or.inl ⟨hl, hq⟩
      · right
        constructor <;>
          simp [trigger_icicle_gain, hs, hl, make_expiration_event, buffs_icicles_trigger]
    rcases hcases with ⟨hl, f, r, hq⟩ | ⟨hE, hI⟩
    · have hE : (trigger_icicle_gain m t a).expirations =
          m.expirations.filter (fun x => x.handle != f.expiration) ++
            [expiration_event_t.mk m.next_handle
              (m.current_time + m.icicles_buff_duration)] := by
        simp [trigger_icicle_gain, hs, hl, trigger_icicle_single m f r t hs hq,
          icicle_t.execute, buffs_icicles_decrement, event_cancel, make_expiration_event,
          buffs_icicles_trigger]
      have hI := (trigger_icicle_gain_full m f r t a hs hq hl).2
      rw [hE] at he
      rw [hI]
      simp only [List.mem_append, List.mem_filter, List.mem_singleton, bne_iff_ne, ne_eq] at he
      rcases he with ⟨hmem, hne⟩ | he
      · right
        refine ⟨hmem, ?_⟩
        intro i hi
        rw [hq] at hi
        simp only [List.mem_cons] at hi
        rcases hi with hi | hi
        · right
          rw [hi]
          exact hne
        · left
          exact List.mem_append_left _ hi
      · left
        exact ⟨icicle_tuple_t.mk a m.next_handle, by simp, by rw [he]⟩
    · rw [hE] at he
      rw [hI]
      simp only [List.mem_append, List.mem_singleton] at he
      rcases he with he | he
      · exact Or.inr ⟨he, fun i hi => Or.inl (List.mem_append_left _ hi)⟩
      · left
        exact ⟨icicle_tuple_t.mk a m.next_handle, by simp, by rw [he]⟩

/-- C30 as stated fails: with five icicles stored (a full queue) and the Lucid Dreams proc
of a Frost mage succeeding when Glacial Spike pays its mana cost, the oldest stored action
(10) is executed against the target of the Glacial Spike (7) before the queue is drained. -/
theorem glacial_spike_lucid_dreams_counterexample :
    (icicle_run (mage_t.init true 5 60000 1 0)
      [.gain 1 10, .gain 1 11, .gain 1 12, .gain 1 13, .gain 1 14]).icicles.map
        (fun i => i.action) = [10, 11, 12, 13, 14] ∧
    (icicle_run (mage_t.init true 5 60000 1 0)
      [.gain 1 10, .gain 1 11, .gain 1 12, .gain 1 13, .gain 1 14]).executed = [] ∧
    (glacial_spike_t.execute
      (icicle_run (mage_t.init true 5 60000 1 0)
        [.gain 1 10, .gain 1 11, .gain 1 12, .gain 1 13, .gain 1 14])
      (lucid_dreams_t.mk (1 / 2) specialization_e.MAGE_FROST true 99)
      (spell_cast_t.mk 7 true 100)).executed = [(10, 7)] := by
  refine ⟨by decide, by decide, ?_⟩
  with_unfolding_all decide

/-- C30 (amended): whatever the queue holds, after `glacial_spike_t::execute` the queue is
empty, no expiration event of a former entry is pending any more and the stack counter is
zero; the draining loop executes none of the stored actions.  The inherited execute, which
runs first, executes the front entry against the spell's target exactly when its Lucid Dreams
proc gains an icicle on a full queue (mana spent, refund and cost positive, roll succeeded,
Frost, Icicles known); in every other case no stored action is executed. -/
theorem glacial_spike_consumes_queue (m : mage_t) (ld : lucid_dreams_t) (a : spell_cast_t) :
    (glacial_spike_t.execute m ld a).icicles = [] ∧
    (∀ i ∈ m.icicles, ∀ e ∈ (glacial_spike_t.execute m ld a).expirations,
      e.handle ≠ i.expiration) ∧
    (∀ e ∈ (glacial_spike_t.execute m ld a).expirations, e ∈ m.expirations) ∧
    (glacial_spike_t.execute m ld a).buffs_icicles = 0 ∧
    (glacial_spike_t.execute m ld a).executed = (mage_spell_t.execute m ld a).executed ∧
    (∀ front rest, m.icicles = front :: rest →
      (a.resource_mana = true ∧ 0 < ld.lucid_dreams_refund ∧ 0 < a.last_resource_cost ∧
        ld.roll = true ∧ ld.specialization = specialization_e.MAGE_FROST ∧
        m.spec_icicles_ok = true ∧ m.icicles.length = m.max_icicles) →
      (glacial_spike_t.execute m ld a).executed = m.executed ++ [(front.action, a.target)]) ∧
    (¬ (a.resource_mana = true ∧ 0 < ld.lucid_dreams_refund ∧ 0 < a.last_resource_cost ∧
        ld.roll = true ∧ ld.specialization = specialization_e.MAGE_FROST ∧
        m.spec_icicles_ok = true ∧ m.icicles.length = m.max_icicles ∧ m.icicles ≠ []) →
      (glacial_spike_t.execute m ld a).executed = m.executed) := by
  have h := glacial_spike_drain_spec
    (buffs_icicles_expire (mage_spell_t.execute m ld a)).icicles.length
    (buffs_icicles_expire (mage_spell_t.execute m ld a)) (le_refl _)
  have hpend : ∀ e ∈ (mage_spell_t.execute m ld a).expirations,
      (∃ j ∈ (mage_spell_t.execute m ld a).icicles, e.handle = j.expiration) ∨
      (e ∈ m.expirations ∧
        ∀ i ∈ m.icicles, i ∈ (mage_spell_t.execute m ld a).icicles ∨
          e.handle ≠ i.expiration) := by
    rcases mage_spell_execute_cases m ld a with h1 | h1
    · rw [h1]
      exact fun e he => Or.inr ⟨he, fun i hi => Or.inl hi⟩
    · rw [h1]
      exact trigger_icicle_gain_pending m _ _
  have hold : ∀ e ∈ (glacial_spike_t.execute m ld a).expirations,
      e ∈ m.expirations ∧ ∀ i ∈ m.icicles, e.handle ≠ i.expiration := by
    intro e he
    obtain ⟨hmem, hne⟩ := h.2.2.2 e he
    rcases hpend e hmem with ⟨j, hj, hej⟩ | ⟨hm, hi⟩
    · exact absurd hej (hne j hj)
    · refine ⟨hm, fun i him => ?_⟩
      rcases hi i him with hin | hne2
      · exact hne i hin
      · exact hne2
  have hexec : (glacial_spike_t.execute m ld a).executed =
      (mage_spell_t.execute m ld a).executed := h.2.1
  refine ⟨h.1, fun i hi e he => (hold e he).2 i hi, fun e he => (hold e he).1, h.2.2.1,
    hexec, ?_, ?_⟩
  · intro front rest hq hc
    obtain ⟨hmana, href, hcost, hroll, hspec, hok, hl⟩ := hc
    rw [hexec]
    have hg : mage_spell_t.execute m ld a =
        trigger_icicle_gain m a.target ld.icicle_lucid_dreams := by
      simp [mage_spell_t.execute, mage_spell_t.consume_resource, trigger_lucid_dreams, hmana,
        not_le.mpr href, not_le.mpr hcost, hroll, hspec]
    rw [hg]
    exact (trigger_icicle_gain_full m front rest _ _ hok hq hl).1
  · intro hc
    rw [hexec]
    by_cases hg : mage_spell_t.execute m ld a = m
    · rw [hg]
    · have hg2 : mage_spell_t.execute m ld a =
          trigger_icicle_gain m a.target ld.icicle_lucid_dreams :=
        (mage_spell_execute_cases m ld a).resolve_left hg
      have hcond : a.resource_mana = true ∧ 0 < ld.lucid_dreams_refund ∧
          0 < a.last_resource_cost ∧ ld.roll = true ∧
          ld.specialization = specialization_e.MAGE_FROST := by
        by_contra hn
        apply hg
        unfold mage_spell_t.execute mage_spell_t.consume_resource trigger_lucid_dreams
        by_cases h1 : a.resource_mana = true
        · by_cases h2 : 0 < ld.lucid_dreams_refund
          · by_cases h3 : 0 < a.last_resource_cost
            · by_cases h4 : ld.roll = true
              · have h5 : ld.specialization ≠ specialization_e.MAGE_FROST :=
                  fun h5 => hn ⟨h1, h2, h3, h4, h5⟩
                cases hsp : ld.specialization <;> simp_all
              · simp [h1, h4]
            · simp [h1, not_lt.mp h3]
          · simp [h1, not_lt.mp h2]
        · simp [h1]
      rw [hg2]
      cases hs : m.spec_icicles_ok with
      | false => simp [trigger_icicle_gain, hs]
      | true =>
        by_cases hl : m.icicles.length = m.max_icicles
        · have hq : m.icicles = [] := by
            by_contra hne
            exact hc ⟨hcond.1, hcond.2.1, hcond.2.2.1, hcond.2.2.2.1, hcond.2.2.2.2, hs, hl,
              hne⟩
          simp [trigger_icicle_gain, hs, hl, trigger_icicle, hq, make_expiration_event,
            buffs_icicles_trigger]
        · simp [trigger_icicle_gain, hs, hl, make_expiration_event, buffs_icicles_trigger]

/-- Instances of the amended C30: five icicles stored, then Glacial Spike with a successful
Lucid Dreams proc executes the oldest action against the spell's target; without the proc
nothing is executed; both leave the queue empty. -/
theorem glacial_spike_consumes_queue_witness :
    (glacial_spike_t.execute
      (icicle_run (mage_t.init true 5 60000 1 0)
        [.gain 1 10, .gain 1 11, .gain 1 12, .gain 1 13, .gain 1 14])
      (lucid_dreams_t.mk (1 / 2) specialization_e.MAGE_FROST true 99)
      (spell_cast_t.mk 7 true 100)).executed =
      (icicle_run (mage_t.init true 5 60000 1 0)
        [.gain 1 10, .gain 1 11, .gain 1 12, .gain 1 13, .gain 1 14]).executed ++
        [((icicle_tuple_t.mk 10 0).action, (spell_cast_t.mk 7 true 100).target)] ∧
    (glacial_spike_t.execute
      (icicle_run (mage_t.init true 5 60000 1 0)
        [.gain 1 10, .gain 1 11, .gain 1 12, .gain 1 13, .gain 1 14])
      (lucid_dreams_t.mk (1 / 2) specialization_e.MAGE_FROST false 99)
      (spell_cast_t.mk 7 true 100)).executed =
      (icicle_run (mage_t.init true 5 60000 1 0)
        [.gain 1 10, .gain 1 11, .gain 1 12, .gain 1 13, .gain 1 14]).executed ∧
    (glacial_spike_t.execute
      (icicle_run (mage_t.init true 5 60000 1 0)
        [.gain 1 10, .gain 1 11, .gain 1 12, .gain 1 13, .gain 1 14])
      (lucid_dreams_t.mk (1 / 2) specialization_e.MAGE_FROST true 99)
      (spell_cast_t.mk 7 true 100)).icicles = [] :=
  ⟨(glacial_spike_consumes_queue
      (icicle_run (mage_t.init true 5 60000 1 0)
        [.gain 1 10, .gain 1 11, .gain 1 12, .gain 1 13, .gain 1 14])
      (lucid_dreams_t.mk (1 / 2) specialization_e.MAGE_FROST true 99)
      (spell_cast_t.mk 7 true 100)).2.2.2.2.2.1 (icicle_tuple_t.mk 10 0)
        [icicle_tuple_t.mk 11 1, icicle_tuple_t.mk 12 2, icicle_tuple_t.mk 13 3,
          icicle_tuple_t.mk 14 4] (by decide)
        ⟨rfl, by norm_num, by norm_num, rfl, rfl, by decide, by decide⟩,
   (glacial_spike_consumes_queue
      (icicle_run (mage_t.init true 5 60000 1 0)
        [.gain 1 10, .gain 1 11, .gain 1 12, .gain 1 13, .gain 1 14])
      (lucid_dreams_t.mk (1 / 2) specialization_e.MAGE_FROST false 99)
      (spell_cast_t.mk 7 true 100)).2.2.2.2.2.2 (fun h => Bool.noConfusion h.2.2.2.1),
   (glacial_spike_consumes_queue
      (icicle_run (mage_t.init true 5 60000 1 0)
        [.gain 1 10, .gain 1 11, .gain 1 12, .gain 1 13, .gain 1 14])
      (lucid_dreams_t.mk (1 / 2) specialization_e.MAGE_FROST true 99)
      (spell_cast_t.mk 7 true 100)).1⟩

/-- `trigger_icicle` keeps the stack counter equal to the queue length. -/
theorem trigger_icicle_counter (m : mage_t) (t : Nat) (chain : Bool)
    (h : m.buffs_icicles = m.icicles.length) :
    (trigger_icicle m t chain).buffs_icicles = (trigger_icicle m t chain).icicles.length := by
  unfold trigger_icicle
  have hcases : m.icicles = [] ∨ ∃ f r, m.icicles = f :: r := by
    cases m.icicles <;> simp
  rcases hcases with hq | ⟨f, r, hq⟩
  · simp [hq, h]
  · rw [hq] at h
    cases chain <;> cases hs : m.spec_icicles_ok <;> cases he : m.icicle_event <;>
      simp [get_icicle, hq, icicle_t.execute, buffs_icicles_decrement, event_cancel, h]

/-- With a capacity of at least one, `trigger_icicle_gain` keeps the stack counter equal to
the queue length. -/
theorem trigger_icicle_gain_counter (m : mage_t) (t a : Nat) (hcap : 1 ≤ m.max_icicles)
    (hle : m.icicles.length ≤ m.max_icicles) (h : m.buffs_icicles = m.icicles.length) :
    (trigger_icicle_gain m t a).buffs_icicles = (trigger_icicle_gain m t a).icicles.length := by
  cases hs : m.spec_icicles_ok with
  | false => simpa [trigger_icicle_gain, hs] using h
  | true =>
    by_cases hl : m.icicles.length = m.max_icicles
    · have hcases : m.icicles = [] ∨ ∃ f r, m.icicles = f :: r := by
        cases m.icicles <;> simp
      rcases hcases with hq | ⟨f, r, hq⟩
      · rw [hq] at hl; simp at hl; omega
      · have hstep := trigger_icicle_single m f r t hs hq
        rw [hq] at h hl
        simp only [List.length_cons] at h hl
        simp [trigger_icicle_gain, hs, hq, hl, hstep, icicle_t.execute, buffs_icicles_decrement,
          event_cancel, make_expiration_event, buffs_icicles_trigger, h]
        omega
    · simp [trigger_icicle_gain, hs, hl, make_expiration_event, buffs_icicles_trigger, h]
      omega

/-- Firing an expiration keeps the stack counter equal to the queue length. -/
theorem fire_expiration_counter (m : mage_t) (handle : Nat)
    (h : m.buffs_icicles = m.icicles.length) :
    (fire_expiration m handle).buffs_icicles = (fire_expiration m handle).icicles.length := by
  unfold fire_expiration
  split
  · simp [icicle_expiration, buffs_icicles_decrement, event_cancel, h]
  · exact h

/-- Firing the chain event keeps the stack counter equal to the queue length. -/
theorem fire_icicle_event_counter (m : mage_t) (sleeping : Bool)
    (h : m.buffs_icicles = m.icicles.length) :
    (fire_icicle_event m sleeping).buffs_icicles =
      (fire_icicle_event m sleeping).icicles.length := by
  unfold fire_icicle_event
  cases he : m.icicle_event with
  | none => exact h
  | some e =>
    show (e.execute m sleeping).buffs_icicles = (e.execute m sleeping).icicles.length
    unfold icicle_event_t.execute
    cases sleeping with
    | true => simpa using h
    | false =>
      have hcases : m.icicles = [] ∨ ∃ f r, m.icicles = f :: r := by
        cases m.icicles <;> simp
      rcases hcases with hq | ⟨f, r, hq⟩
      · simp [get_icicle, hq, h]
      · rw [hq] at h
        simp only [Bool.false_eq_true, if_false, get_icicle, hq]
        split <;>
          simp [icicle_t.execute, buffs_icicles_decrement, event_cancel, h]

/-- With a capacity of at least one, every step keeps the stack counter equal to the queue
length. -/
theorem icicle_op_counter (m : mage_t) (op : icicle_op) (hcap : 1 ≤ m.max_icicles)
    (hle : m.icicles.length ≤ m.max_icicles) (h : m.buffs_icicles = m.icicles.length) :
    (op.perform m).buffs_icicles = (op.perform m).icicles.length := by
  cases op with
  | gain t a => exact trigger_icicle_gain_counter m t a hcap hle h
  | trigger t chain => exact trigger_icicle_counter m t chain h
  | chain_tick sleeping => exact fire_icicle_event_counter m sleeping h
  | expire handle => exact fire_expiration_counter m handle h
  | glacial_spike ld a =>
    have hg := glacial_spike_drain_spec
      (buffs_icicles_expire (mage_spell_t.execute m ld a)).icicles.length
      (buffs_icicles_expire (mage_spell_t.execute m ld a)) (le_refl _)
    show (glacial_spike_t.execute m ld a).buffs_icicles =
      (glacial_spike_t.execute m ld a).icicles.length
    unfold glacial_spike_t.execute
    rw [hg.1, hg.2.2.1]
    rfl
  | advance now => exact h

/-- With a capacity of at least one, the stack counter equals the queue length after every
run that starts with both within bounds and equal. -/
theorem icicle_run_counter (m : mage_t) (ops : List icicle_op) (hcap : 1 ≤ m.max_icicles)
    (hle : m.icicles.length ≤ m.max_icicles) (h : m.buffs_icicles = m.icicles.length) :
    (icicle_run m ops).buffs_icicles = (icicle_run m ops).icicles.length := by
  induction ops generalizing m with
  | nil => exact h
  | cons op ops ih =>
    have hm := icicle_op_max_icicles m op
    have hl := icicle_op_length_le m op hcap hle
    exact ih (op.perform m) (by rw [hm]; exact hcap) (by rw [hm]; exact hl)
      (icicle_op_counter m op hcap hle h)

/-- C29: with the icicles buff as a counter that `trigger` raises by one up to the capacity,
`decrement` lowers by one and `expire` sets to zero, and a capacity of at least one: starting
from an empty queue and a zero counter, the counter equals the length of the queue after every
gain, discharge, chain start or tick, expiration and Glacial Spike. -/
theorem icicle_counter_tracks_queue (m : mage_t) (ops : List icicle_op)
    (hcap : 1 ≤ m.max_icicles) (hempty : m.icicles = []) (hzero : m.buffs_icicles = 0) :
    ∀ m' ∈ icicle_trace m ops, m'.buffs_icicles = m'.icicles.length := by
  intro m' hm'
  obtain ⟨n, rfl⟩ := mem_icicle_trace m m' ops hm'
  exact icicle_run_counter m _ hcap (by simp [hempty]) (by simp [hempty, hzero])

/-- An instance of C29 with its hypotheses discharged: capacity 2, three gains (the third one
overflows), an expiration, a chain and a Glacial Spike. -/
theorem icicle_counter_tracks_queue_witness :
    (∀ m' ∈ icicle_trace (mage_t.init true 2 60000 1 0)
        [.gain 1 10, .gain 1 11, .gain 2 12, .expire 1, .trigger 1 true, .chain_tick false,
          .gain 1 13,
          .glacial_spike (lucid_dreams_t.mk (1 / 2) specialization_e.MAGE_FROST true 99)
            (spell_cast_t.mk 7 true 100)],
      m'.buffs_icicles = m'.icicles.length) ∧
    (icicle_run (mage_t.init true 2 60000 1 0)
      [.gain 1 10, .gain 1 11, .gain 2 12]).buffs_icicles = 2 :=
  ⟨icicle_counter_tracks_queue (mage_t.init true 2 60000 1 0)
      [.gain 1 10, .gain 1 11, .gain 2 12, .expire 1, .trigger 1 true, .chain_tick false,
        .gain 1 13,
        .glacial_spike (lucid_dreams_t.mk (1 / 2) specialization_e.MAGE_FROST true 99)
          (spell_cast_t.mk 7 true 100)] (by decide) rfl rfl,
   by decide⟩

/-! ## Icicle chain cadence -/

/-- C21: the chain event created by `trigger_icicle` fires 250 ms after the time at which it
is created, whatever the spell speed; the chain event created when a chain event fires (on a
live target with entries left) fires 0.4 s times the mage's spell speed at that moment after
the firing one, the product being the engine's `timespan_t * double`. -/
theorem icicle_chain_cadence (mul : timespan_t → ℚ → timespan_t) (m0 : mage_t)
    (ops : List icicle_op) (t : Nat) (e : icicle_event_t) (m : mage_t)
    (hempty : m0.icicles = []) :
    ((icicle_run m0 ops).icicle_event = none → (icicle_run m0 ops).icicles ≠ [] →
      ∃ ev, (trigger_icicle (icicle_run m0 ops) t true).icicle_event = some ev ∧
        ev.delay mul = 250 ∧ ev.occurs mul = (icicle_run m0 ops).current_time + 250) ∧
    (∀ front next rest, m.icicles = front :: next :: rest →
      ∃ ev, (e.execute m false).icicle_event = some ev ∧
        ev.delay mul = mul 400 m.spell_speed ∧
        ev.occurs mul = m.current_time + mul 400 m.spell_speed) := by
  constructor
  · intro hnone hne
    have hok := icicle_run_nonempty m0 ops (fun h => absurd hempty h) hne
    generalize icicle_run m0 ops = m1 at hnone hne hok
    refine ⟨make_icicle_event m1 t true, ?_, rfl, rfl⟩
    have hcases : ∃ f r, m1.icicles = f :: r := by
      cases hq : m1.icicles with
      | nil => exact absurd hq hne
      | cons f r => exact ⟨f, r, rfl⟩
    obtain ⟨f, r, hq⟩ := hcases
    simp [trigger_icicle, hq, hok, hnone]
  · intro front next rest hq
    refine ⟨icicle_event_t.mk e.target false m.spell_speed m.current_time, ?_, rfl, rfl⟩
    simp [icicle_event_t.execute, get_icicle, hq, icicle_t.execute, buffs_icicles_decrement,
      event_cancel, make_icicle_event]

/-- Instances of C21 with their hypotheses discharged, with the product rounded down to whole
milliseconds: a chain started at two different spell speeds, and the event that follows a
tick at spell speed 3/4. -/
theorem icicle_chain_cadence_witness :
    (∃ ev, (trigger_icicle (icicle_run (mage_t.init true 5 60000 (3 / 4) 0) [.gain 1 10])
        7 true).icicle_event = some ev ∧
      ev.delay (fun d x => Int.floor ((d : ℚ) * x)) = 250 ∧
      ev.occurs (fun d x => Int.floor ((d : ℚ) * x)) =
        (icicle_run (mage_t.init true 5 60000 (3 / 4) 0) [.gain 1 10]).current_time + 250) ∧
    (∃ ev, (trigger_icicle (icicle_run (mage_t.init true 5 60000 1 0) [.gain 1 10])
        7 true).icicle_event = some ev ∧
      ev.delay (fun d x => Int.floor ((d : ℚ) * x)) = 250 ∧
      ev.occurs (fun d x => Int.floor ((d : ℚ) * x)) =
        (icicle_run (mage_t.init true 5 60000 1 0) [.gain 1 10]).current_time + 250) ∧
    (∃ ev, ((icicle_event_t.mk 7 true (3 / 4) 0).execute
        (icicle_run (mage_t.init true 5 60000 (3 / 4) 0) [.gain 1 10, .gain 1 11, .gain 1 12])
        false).icicle_event = some ev ∧
      ev.delay (fun d x => Int.floor ((d : ℚ) * x)) =
        (fun d x => Int.floor ((d : ℚ) * x)) 400
          (icicle_run (mage_t.init true 5 60000 (3 / 4) 0)
            [.gain 1 10, .gain 1 11, .gain 1 12]).spell_speed ∧
      ev.occurs (fun d x => Int.floor ((d : ℚ) * x)) =
        (icicle_run (mage_t.init true 5 60000 (3 / 4) 0)
          [.gain 1 10, .gain 1 11, .gain 1 12]).current_time +
        (fun d x => Int.floor ((d : ℚ) * x)) 400
          (icicle_run (mage_t.init true 5 60000 (3 / 4) 0)
            [.gain 1 10, .gain 1 11, .gain 1 12]).spell_speed) :=
  ⟨(icicle_chain_cadence (fun d x => Int.floor ((d : ℚ) * x)) (mage_t.init true 5 60000 (3 / 4) 0)
      [.gain 1 10] 7 (icicle_event_t.mk 7 true (3 / 4) 0) (mage_t.init true 5 60000 (3 / 4) 0)
      rfl).1 rfl (by decide),
   (icicle_chain_cadence (fun d x => Int.floor ((d : ℚ) * x)) (mage_t.init true 5 60000 1 0)
      [.gain 1 10] 7 (icicle_event_t.mk 7 true 1 0) (mage_t.init true 5 60000 1 0)
      rfl).1 rfl (by decide),
   (icicle_chain_cadence (fun d x => Int.floor ((d : ℚ) * x)) (mage_t.init true 5 60000 (3 / 4) 0)
      [] 7 (icicle_event_t.mk 7 true (3 / 4) 0)
      (icicle_run (mage_t.init true 5 60000 (3 / 4) 0) [.gain 1 10, .gain 1 11, .gain 1 12])
      rfl).2 (icicle_tuple_t.mk 10 0) (icicle_tuple_t.mk 11 1) [icicle_tuple_t.mk 12 2] rfl⟩

/-! ## Ignite spread: bounds and termination -/

/-- One iteration pops exactly the last active ignite and records at most one spread. -/
theorem spread_iteration_pops (st : spread_state_t) :
    (spread_iteration st).active_ignites = st.active_ignites.dropLast ∧
    (spread_iteration st).spreads.length ≤ st.spreads.length + 1 := by
  cases hlast : st.active_ignites.getLast? with
  | none =>
    have hnil : st.active_ignites = [] := List.getLast?_eq_none_iff.mp hlast
    have : spread_iteration st = st := by simp [spread_iteration, hlast]
    rw [this, hnil]
    exact ⟨rfl, Nat.le_succ _⟩
  | some source =>
    have hact : st.active_ignites = st.active_ignites.dropLast ++ [source] :=
      (List.dropLast_append_getLast? _ hlast).symm
    generalize hinit : st.active_ignites.dropLast = init at hact
    by_cases hc : st.candidates = []
    · rw [spread_iteration_no_candidates st init source hact hc]
      exact ⟨rfl, Nat.le_succ _⟩
    · cases hskip : skip_equal st.tl st.candidates (bank_at st.tl source) st.candidates.length with
      | zero =>
        rw [spread_iteration_all_skipped st init source hact hc hskip]
        exact ⟨rfl, Nat.le_succ _⟩
      | succ k =>
        obtain ⟨ha', _, _, hs', _⟩ := spread_iteration_spread st init source k hact hc hskip
        rw [ha', hs']
        exact ⟨rfl, by simp⟩

/-- With fuel for every active ignite the loop makes one iteration per active ignite, ends
with no active ignite left and records at most one spread per iteration. -/
theorem spread_loop_terminates (fuel : Nat) (st : spread_state_t)
    (h : st.active_ignites.length ≤ fuel) :
    (spread_loop_states fuel st).length = st.active_ignites.length ∧
    (spread_loop fuel st).active_ignites = [] ∧
    (spread_loop fuel st).spreads.length ≤ st.spreads.length + st.active_ignites.length := by
  induction fuel generalizing st with
  | zero =>
    have hnil : st.active_ignites = [] := List.length_eq_zero.mp (Nat.le_zero.mp h)
    simp [spread_loop_states, spread_loop, hnil]
  | succ n ih =>
    by_cases hnil : st.active_ignites = []
    · simp [spread_loop_states, spread_loop, hnil]
    · have hpop := spread_iteration_pops st
      have hpos : 0 < st.active_ignites.length := List.length_pos.mpr hnil
      have hlen : (spread_iteration st).active_ignites.length = st.active_ignites.length - 1 := by
        rw [hpop.1, List.length_dropLast]
      have := ih (spread_iteration st) (by rw [hlen]; omega)
      have hemp : st.active_ignites.isEmpty = false := by
        cases hq : st.active_ignites with
        | nil => exact absurd hq hnil
        | cons a l => rfl
      simp only [spread_loop_states, spread_loop, hemp, Bool.false_eq_true, if_false,
        List.length_cons]
      refine ⟨by rw [this.1, hlen]; omega, this.2.1, ?_⟩
      have h3 := this.2.2
      rw [hlen] at h3
      omega

/-- C27 as stated fails: with a single target whose ignite is ticking, the guard
`tl.size() > 1` keeps the loop from being entered, so it makes no iteration although one
ignite is ticking at the start of the pass. -/
theorem ignite_spread_iterations_counterexample :
    (split_active [target_t.mk true (dot_t.mk true 2 3)]).length = 1 ∧
    (pass_states (spread_state_t.init [target_t.mk true (dot_t.mk true 2 3)] [0])).length = 0 ∧
    (ignite_spread_event_t.execute
      (spread_state_t.init [target_t.mk true (dot_t.mk true 2 3)] [0]) 2000).spreads = [] := by
  refine ⟨by decide, by decide, ?_⟩
  with_unfolding_all decide

/-- C27 (amended): for every target list and all draws, the index used to read and erase the
destination is within the bounds of the candidate list; when the list holds more than one
target the loop runs exactly once per enemy target whose ignite is ticking at the start of the
pass, and not at all otherwise; it then stops with no active ignite left, so a pass performs
at most as many spreads as there were such ignites. -/
theorem ignite_spread_safe_terminating (tl : List target_t) (draws : List Nat)
    (period : timespan_t) :
    (∀ st ∈ pass_states (spread_state_t.init tl draws), ∀ (init : List Nat) (source k : Nat),
      st.active_ignites = init ++ [source] → st.candidates ≠ [] →
      skip_equal st.tl st.candidates (bank_at st.tl source) st.candidates.length = k + 1 →
      (rng_range st k).1 < st.candidates.length) ∧
    (1 < tl.length →
      (pass_states (spread_state_t.init tl draws)).length = (split_active tl).length) ∧
    (tl.length ≤ 1 → pass_states (spread_state_t.init tl draws) = []) ∧
    (ignite_spread_event_t.execute (spread_state_t.init tl draws) period).active_ignites = [] ∧
    (ignite_spread_event_t.execute (spread_state_t.init tl draws) period).spreads.length ≤
      (split_active tl).length := by
  have hlen : (spread_entry (spread_state_t.init tl draws)).active_ignites.length =
      (split_active tl).length := (List.perm_insertionSort _ _).length_eq
  have hterm := spread_loop_terminates
    (spread_entry (spread_state_t.init tl draws)).active_ignites.length
    (spread_entry (spread_state_t.init tl draws)) (le_refl _)
  refine ⟨?_, ?_, ?_, ?_, ?_⟩
  · intro st _ init source k _ _ hskip
    have hspec := skip_equal_spec st.tl st.candidates (bank_at st.tl source)
      st.candidates.length
    rw [hskip] at hspec
    exact lt_of_le_of_lt (rng_range_le st k).1 hspec.1
  · intro h
    have h' : (spread_state_t.init tl draws).tl.length > 1 := h
    unfold pass_states
    rw [if_pos h', hterm.1, hlen]
  · intro h
    have h' : ¬ (spread_state_t.init tl draws).tl.length > 1 := not_lt.mpr h
    unfold pass_states
    rw [if_neg h']
  · rw [execute_eq]
    by_cases h : (spread_state_t.init tl draws).tl.length > 1
    · rw [if_pos h]
      exact hterm.2.1
    · rw [if_neg h]
      rfl
  · rw [execute_eq]
    by_cases h : (spread_state_t.init tl draws).tl.length > 1
    · rw [if_pos h]
      refine le_trans hterm.2.2 ?_
      rw [hlen]
      simp [spread_entry, spread_state_t.init]
    · rw [if_neg h]
      simp [spread_state_t.init]

/-- Instances of the amended C27: in the pass over two ticking and three idle ignites the
first draw for bound 2 is within the three candidates and the loop makes two iterations; the
pass over a single target makes none. -/
theorem ignite_spread_safe_terminating_witness :
    (rng_range (spread_entry (spread_state_t.init
      [target_t.mk true (dot_t.mk true 2 3), target_t.mk true (dot_t.mk true 1 3),
        target_t.mk true (dot_t.mk false 0 0), target_t.mk true (dot_t.mk false 0 0),
        target_t.mk true (dot_t.mk false 0 0)] [5, 0])) 2).1 <
      (spread_entry (spread_state_t.init
        [target_t.mk true (dot_t.mk true 2 3), target_t.mk true (dot_t.mk true 1 3),
          target_t.mk true (dot_t.mk false 0 0), target_t.mk true (dot_t.mk false 0 0),
          target_t.mk true (dot_t.mk false 0 0)] [5, 0])).candidates.length ∧
    (pass_states (spread_state_t.init
      [target_t.mk true (dot_t.mk true 2 3), target_t.mk true (dot_t.mk true 1 3),
        target_t.mk true (dot_t.mk false 0 0), target_t.mk true (dot_t.mk false 0 0),
        target_t.mk true (dot_t.mk false 0 0)] [5, 0])).length =
      (split_active
        [target_t.mk true (dot_t.mk true 2 3), target_t.mk true (dot_t.mk true 1 3),
          target_t.mk true (dot_t.mk false 0 0), target_t.mk true (dot_t.mk false 0 0),
          target_t.mk true (dot_t.mk false 0 0)]).length ∧
    (split_active
      [target_t.mk true (dot_t.mk true 2 3), target_t.mk true (dot_t.mk true 1 3),
        target_t.mk true (dot_t.mk false 0 0), target_t.mk true (dot_t.mk false 0 0),
        target_t.mk true (dot_t.mk false 0 0)]).length = 2 ∧
    pass_states (spread_state_t.init [target_t.mk true (dot_t.mk true 2 3)] [0]) = [] :=
  ⟨(ignite_spread_safe_terminating
      [target_t.mk true (dot_t.mk true 2 3), target_t.mk true (dot_t.mk true 1 3),
        target_t.mk true (dot_t.mk false 0 0), target_t.mk true (dot_t.mk false 0 0),
        target_t.mk true (dot_t.mk false 0 0)] [5, 0] 2000).1 _
      (by with_unfolding_all decide) [0] 1 2 (by with_unfolding_all decide) (by decide)
      (by with_unfolding_all decide),
   (ignite_spread_safe_terminating
      [target_t.mk true (dot_t.mk true 2 3), target_t.mk true (dot_t.mk true 1 3),
        target_t.mk true (dot_t.mk false 0 0), target_t.mk true (dot_t.mk false 0 0),
        target_t.mk true (dot_t.mk false 0 0)] [5, 0] 2000).2.1 (by decide),
   by decide,
   (ignite_spread_safe_terminating [target_t.mk true (dot_t.mk true 2 3)] [0] 2000).2.2.1
      (by decide)⟩

end Mage
